import Mathlib

/-!
# Verification development for the teaching kernel

Shallow embedding of the kernel's subsystems, one namespace per machine
problem, followed by the theorems that settle the specification's claims.

## Conventions

* The target is a 32-bit machine: `unsigned long` and `unsigned int` are
  32 bits wide.  Machine integers are natural numbers and every place where
  the source can wrap carries an explicit `% WORD`.
* Physical memory is a function from byte addresses to byte values.  The
  byte address `bitmap + index` is not reduced modulo `WORD`: two different
  indices below `WORD` never denote the same byte either way.
* Loop variables declared `int` are compared with `unsigned long` bounds,
  that is after conversion to 32-bit unsigned; they are modelled as
  unsigned.
* Loops are structural recursions on their iteration count.
-/

/-- Number of values of a 32-bit machine word. -/
def WORD : Nat := 4294967296

/-- Physical memory: byte address to byte value. -/
abbrev Memory := Nat → Nat

/-- Store of one byte: `mem[a] = v`. -/
def writeByte (mem : Memory) (a v : Nat) : Memory :=
  fun x => if x = a then v else mem x

/-- The 32-bit decrement `x--`. -/
def dec32 (x : Nat) : Nat := (x + (WORD - 1)) % WORD

/-- The 32-bit increment `x++`. -/
def inc32 (x : Nat) : Nat := (x + 1) % WORD

namespace Mp2

/-- Modelled from the spec: the constant `ContFramePool::FRAME_SIZE` of the
header `cont_frame_pool.H`, which is not among the sources; the spec fixes
frames at 4 KiB and the claims take `FRAME_SIZE = 4096`. -/
def FRAME_SIZE : Nat := 4096

/-- `KERNEL_POOL_START_FRAME` of kernel.C: `(2 MB) / (4 KB)`. -/
def KERNEL_POOL_START_FRAME : Nat := (2 * 2 ^ 20) / (4 * 2 ^ 10)

/-- `KERNEL_POOL_SIZE` of kernel.C: `(2 MB) / (4 KB)`. -/
def KERNEL_POOL_SIZE : Nat := (2 * 2 ^ 20) / (4 * 2 ^ 10)

/-- `PROCESS_POOL_START_FRAME` of kernel.C: `(4 MB) / (4 KB)`. -/
def PROCESS_POOL_START_FRAME : Nat := (4 * 2 ^ 20) / (4 * 2 ^ 10)

/-- `PROCESS_POOL_SIZE` of kernel.C: `(28 MB) / (4 KB)`. -/
def PROCESS_POOL_SIZE : Nat := (28 * 2 ^ 20) / (4 * 2 ^ 10)

/-- `MEM_HOLE_START_FRAME` of kernel.C: `(15 MB) / (4 KB)`. -/
def MEM_HOLE_START_FRAME : Nat := (15 * 2 ^ 20) / (4 * 2 ^ 10)

/-- `MEM_HOLE_SIZE` of kernel.C: `(1 MB) / (4 KB)`. -/
def MEM_HOLE_SIZE : Nat := (1 * 2 ^ 20) / (4 * 2 ^ 10)

/-- The enumeration `ContFramePool::FrameState`. -/
inductive FrameState where
  | Free
  | Used
  | HoS
deriving DecidableEq, Repr

/-- The data members of a `ContFramePool` object.  `bitmap` is the address
of the info region; the registry links `next`/`prev` are represented by the
position of the pool in the registry list (see `release_frames`). -/
structure ContFramePool where
  base_frame_no : Nat
  nframes : Nat
  nFreeFrames : Nat
  info_frame_no : Nat
  bitmap : Nat
deriving DecidableEq, Repr

namespace ContFramePool

/-- The loop bound `base_frame_no + nframes`, computed in 32 bits. -/
def limit (p : ContFramePool) : Nat := (p.base_frame_no + p.nframes) % WORD

/-- `ContFramePool::get_state`.  The source has no return statement for the
bit pattern `11`; that case is `none`, which compares unequal to every
`FrameState`. -/
def get_state (p : ContFramePool) (mem : Memory) (_frame_no : Nat) : Option FrameState :=
  let bitmap_index := _frame_no / 4
  let mask := (0x3 <<< ((_frame_no % 4) * 2)) % 256
  let frame_state := (mem (p.bitmap + bitmap_index) &&& mask) >>> ((_frame_no % 4) * 2)
  if frame_state = 0x0 then some FrameState.Free
  else if frame_state = 0x1 then some FrameState.Used
  else if frame_state = 0x2 then some FrameState.HoS
  else none

/-- `ContFramePool::set_state`: `Free` clears the two bits of the frame,
`Used` and `HoS` OR their pattern into them. -/
def set_state (p : ContFramePool) (mem : Memory) (_frame_no : Nat) (_state : FrameState) : Memory :=
  let bitmap_index := _frame_no / 4
  let shift := (_frame_no % 4) * 2
  match _state with
  | FrameState.Free =>
      let mask := (0x3 <<< shift) % 256
      writeByte mem (p.bitmap + bitmap_index) (mem (p.bitmap + bitmap_index) &&& (255 - mask))
  | FrameState.Used =>
      let mask := (0x1 <<< shift) % 256
      writeByte mem (p.bitmap + bitmap_index) (mem (p.bitmap + bitmap_index) ||| mask)
  | FrameState.HoS =>
      let mask := (0x2 <<< shift) % 256
      writeByte mem (p.bitmap + bitmap_index) (mem (p.bitmap + bitmap_index) ||| mask)

/-- `ContFramePool::needed_info_frames`. -/
def needed_info_frames (_n_frames : Nat) : Nat :=
  ((_n_frames / FRAME_SIZE) / 4) + (if _n_frames % FRAME_SIZE > 0 then 1 else 0)

/-- `ContFramePool::free_frames`. -/
def free_frames (p : ContFramePool) : Nat := p.nFreeFrames

/-- The constructor's first loop: `count` iterations of
`set_state(fno, Free); fno++`. -/
def init_free (p : ContFramePool) : Nat → Nat → Memory → Memory
  | 0, _, mem => mem
  | k + 1, fno, mem => init_free p k (fno + 1) (set_state p mem fno FrameState.Free)

/-- The constructor's second loop: `count` iterations of
`set_state(i, Used); if (i >= base_frame_no) nFreeFrames--; i++`. -/
def mark_info : Nat → Nat → ContFramePool → Memory → ContFramePool × Memory
  | 0, _, p, mem => (p, mem)
  | k + 1, i, p, mem =>
      mark_info k (i + 1)
        (if i ≥ p.base_frame_no then { p with nFreeFrames := dec32 p.nFreeFrames } else p)
        (set_state p mem i FrameState.Used)

/-- The constructor `ContFramePool::ContFramePool`, run on memory `mem`.
The registry update is done by the caller appending the result to the
registry list. -/
def construct (mem : Memory) (_base_frame_no _n_frames _info_frame_no : Nat) :
    ContFramePool × Memory :=
  let p0 : ContFramePool :=
    { base_frame_no := _base_frame_no
      nframes := _n_frames
      nFreeFrames := _n_frames
      info_frame_no := _info_frame_no
      bitmap := if _info_frame_no = 0 then (_base_frame_no * FRAME_SIZE) % WORD
                else (_info_frame_no * FRAME_SIZE) % WORD }
  let mem1 := init_free p0 (p0.limit - p0.base_frame_no) p0.base_frame_no mem
  let mem2 := set_state p0 mem1 _info_frame_no FrameState.HoS
  let p1 : ContFramePool :=
    if p0.info_frame_no ≥ p0.base_frame_no then { p0 with nFreeFrames := dec32 p0.nFreeFrames }
    else p0
  let info_frames := needed_info_frames _n_frames
  mark_info ((_info_frame_no + info_frames) % WORD - (_info_frame_no + 1) % WORD)
    ((_info_frame_no + 1) % WORD) p1 mem2

/-- The search loop of `get_frames`: `count` iterations from frame `i` with
the running `counter` and `start_pos`; `some start_pos` when the loop breaks
with `found = true`, `none` when it runs to the end. -/
def find_run (p : ContFramePool) (mem : Memory) (_n_frames : Nat) :
    Nat → Nat → Nat → Nat → Option Nat
  | 0, _, _, _ => none
  | k + 1, i, counter, start_pos =>
      if get_state p mem i = some FrameState.Free then
        if counter + 1 = _n_frames then some start_pos
        else find_run p mem _n_frames k (i + 1) (counter + 1) start_pos
      else find_run p mem _n_frames k (i + 1) 0 (i + 1)

/-- The marking loop shared by `get_frames` and `mark_inaccessible`:
`count` iterations of `set_state(i, Used); nFreeFrames--; i++`. -/
def mark_used : Nat → Nat → ContFramePool → Memory → ContFramePool × Memory
  | 0, _, p, mem => (p, mem)
  | k + 1, i, p, mem =>
      mark_used k (i + 1) { p with nFreeFrames := dec32 p.nFreeFrames }
        (set_state p mem i FrameState.Used)

/-- `ContFramePool::get_frames`: the returned frame number, the pool and
the memory afterwards. -/
def get_frames (p : ContFramePool) (mem : Memory) (_n_frames : Nat) :
    Nat × ContFramePool × Memory :=
  if p.nFreeFrames < _n_frames then (0, p, mem)
  else
    match find_run p mem _n_frames (p.limit - p.base_frame_no) p.base_frame_no 0
        p.base_frame_no with
    | some start_pos =>
        let r := mark_used ((start_pos + _n_frames) % WORD - (start_pos + 1) % WORD)
          ((start_pos + 1) % WORD) { p with nFreeFrames := dec32 p.nFreeFrames }
          (set_state p mem start_pos FrameState.HoS)
        (start_pos, r.1, r.2)
    | none => (WORD - 1, p, mem)

/-- `ContFramePool::mark_inaccessible`. -/
def mark_inaccessible (p : ContFramePool) (mem : Memory) (_base_frame_no _n_frames : Nat) :
    ContFramePool × Memory :=
  mark_used ((_base_frame_no + _n_frames) % WORD - (_base_frame_no + 1) % WORD)
    ((_base_frame_no + 1) % WORD) { p with nFreeFrames := dec32 p.nFreeFrames }
    (set_state p mem _base_frame_no FrameState.HoS)

/-- The range test of the registry walk in `release_frames`. -/
def owns (p : ContFramePool) (_first_frame_no : Nat) : Bool :=
  decide (p.base_frame_no ≤ _first_frame_no) && decide (p.limit > _first_frame_no)

/-- The sweep loop `while (alloc)` of `release_frames`, with a bound on
the number of iterations; `none` when the bound is used up before the loop
ends. -/
def release_sweep : Nat → ContFramePool → Memory → Nat → Option (ContFramePool × Memory)
  | 0, _, _, _ => none
  | k + 1, p, mem, curr_frame_no =>
      if get_state p mem curr_frame_no ≠ some FrameState.HoS
          ∧ get_state p mem curr_frame_no ≠ some FrameState.Free then
        release_sweep k { p with nFreeFrames := inc32 p.nFreeFrames }
          (set_state p mem curr_frame_no FrameState.Free) ((curr_frame_no + 1) % WORD)
      else some (p, mem)

/-- The part of `release_frames` that runs once the owning pool is found.
The frame counter is 32 bits wide and the first frame is Free by the time
the sweep starts, so `WORD` iterations bound the sweep. -/
def release_in (p : ContFramePool) (mem : Memory) (_first_frame_no : Nat) :
    Option (ContFramePool × Memory) :=
  if get_state p mem _first_frame_no = some FrameState.HoS then
    release_sweep WORD { p with nFreeFrames := inc32 p.nFreeFrames }
      (set_state p mem _first_frame_no FrameState.Free) ((_first_frame_no + 1) % WORD)
  else some (p, mem)

/-- The registry walk of `release_frames`, over the pools listed from
`Tail` back to `Head`. -/
def release_walk : List ContFramePool → Memory → Nat → Option (List ContFramePool × Memory)
  | [], mem, _ => some ([], mem)
  | pool :: prevs, mem, _first_frame_no =>
      if pool.owns _first_frame_no then
        (release_in pool mem _first_frame_no).map (fun r => (r.1 :: prevs, r.2))
      else
        (release_walk prevs mem _first_frame_no).map (fun r => (pool :: r.1, r.2))

/-- The static `ContFramePool::release_frames`.  The registry is the list
of pools in construction order (`Head` first, `Tail` last). -/
def release_frames (pools : List ContFramePool) (mem : Memory) (_first_frame_no : Nat) :
    Option (List ContFramePool × Memory) :=
  (release_walk pools.reverse mem _first_frame_no).map (fun r => (r.1.reverse, r.2))

/-- The two bits of cell `k` (0..3) of an info byte `b`, as `get_state`
extracts them. -/
def cellOf (b k : Nat) : Nat := (b &&& ((0x3 <<< (k * 2)) % 256)) >>> (k * 2)

/-- The decoding of a two-bit cell done by the `if` chain of `get_state`. -/
def decodeState (c : Nat) : Option FrameState :=
  if c = 0x0 then some FrameState.Free
  else if c = 0x1 then some FrameState.Used
  else if c = 0x2 then some FrameState.HoS
  else none

/-- Frames `s .. s+n-1` all read Free. -/
def RunFree (p : ContFramePool) (mem : Memory) (s n : Nat) : Prop :=
  ∀ j, j < n → get_state p mem (s + j) = some FrameState.Free

/-- A run of `n` Free frames starting at `s` that lies inside the pool. -/
def FreeRunAt (p : ContFramePool) (mem : Memory) (n s : Nat) : Prop :=
  p.base_frame_no ≤ s ∧ s + n ≤ p.base_frame_no + p.nframes ∧ RunFree p mem s n

/-- Number of frames of `[base, base+nframes)` whose state reads Free. -/
def countFree (p : ContFramePool) (mem : Memory) : Nat :=
  ((List.range p.nframes).filter
    (fun i => decide (get_state p mem (p.base_frame_no + i) = some FrameState.Free))).length

/-- The free-counter invariant, with the two side conditions that keep it
under `release_frames`: the pool lies in the 32-bit frame space, and the
cell of the first frame past the pool does not read as an allocated
frame. -/
def Consistent (p : ContFramePool) (mem : Memory) : Prop :=
  p.base_frame_no + p.nframes < WORD ∧ p.nFreeFrames = countFree p mem ∧
  (get_state p mem (p.base_frame_no + p.nframes) = some FrameState.Free ∨
    get_state p mem (p.base_frame_no + p.nframes) = some FrameState.HoS)

/-- Pool states reached from a constructor call by `get_frames`,
`mark_inaccessible` on Free runs inside the pool, and `release_frames` with
the pool alone in the registry.  The constructor call is one whose pool
lies in the 32-bit frame space, whose marked info frames lie below the end
of the pool, and after which the cell of the first frame past the pool
reads Free or HoS. -/
inductive Reachable : ContFramePool → Memory → Prop where
  | construct (mem : Memory) (base n info : Nat) :
      base + n < WORD → info < base + n → info + needed_info_frames n ≤ base + n →
      (get_state (construct mem base n info).1 (construct mem base n info).2 (base + n)
          = some FrameState.Free ∨
        get_state (construct mem base n info).1 (construct mem base n info).2 (base + n)
          = some FrameState.HoS) →
      Reachable (construct mem base n info).1 (construct mem base n info).2
  | get_frames (p : ContFramePool) (mem : Memory) (n : Nat) :
      Reachable p mem → Reachable (get_frames p mem n).2.1 (get_frames p mem n).2.2
  | mark_inaccessible (p : ContFramePool) (mem : Memory) (b n : Nat) :
      Reachable p mem → 1 ≤ n → FreeRunAt p mem n b →
      Reachable (mark_inaccessible p mem b n).1 (mark_inaccessible p mem b n).2
  | release_frames (p : ContFramePool) (mem : Memory) (f : Nat) (p2 : ContFramePool)
      (mem2 : Memory) :
      Reachable p mem → release_frames [p] mem f = some ([p2], mem2) → Reachable p2 mem2

/-- The pool the registry walk of `release_frames` stops at: the pool nearest
to `Tail` whose range test accepts the frame. -/
def owner (pools : List ContFramePool) (f : Nat) : Option ContFramePool :=
  pools.reverse.find? (fun p => p.owns f)

/-- A pool over frames 8..15 with its info region in frame 2. -/
def demoPool : ContFramePool :=
  { base_frame_no := 8, nframes := 8, nFreeFrames := 6, info_frame_no := 2, bitmap := 8192 }

/-- Memory in which frame 8 reads HoS, frame 9 Used and frames 10..15 Free
for `demoPool`. -/
def demoMem : Memory := fun a => if a = 8194 then 6 else 0

/-- A pool over frames 8..15 with five Free frames. -/
def fragPool : ContFramePool :=
  { base_frame_no := 8, nframes := 8, nFreeFrames := 5, info_frame_no := 2, bitmap := 8192 }

/-- Memory in which frames 9, 12 and 15 read HoS and the other frames of
`fragPool` read Free: no three Free frames in a row. -/
def fragMem : Memory := fun a => if a = 8194 then 8 else if a = 8195 then 130 else 0

/-- End-to-end scenario 1: a pool constructed with base frame 512, 512
frames and info frame 0, then `get_frames(10)`, then `release_frames(513)`.
The result lists `free_frames()` after construction, the frame returned by
`get_frames`, `free_frames()` after it, and the free counters of the
registry after the release. -/
def scenario1 (mem : Memory) : Nat × Nat × Nat × Option (List Nat) :=
  let c := construct mem 512 512 0
  let g := get_frames c.1 c.2 10
  let r := release_frames [g.2.1] g.2.2 513
  (free_frames c.1, g.1, free_frames g.2.1, r.map (fun x => x.1.map free_frames))

/-- The pool setup of `main` in kernel.C: the kernel pool, the info frame of
the process pool obtained from the kernel pool, the process pool, and the
memory hole marked inaccessible.  Returns the process pool and the memory. -/
def setup_pools (mem : Memory) : ContFramePool × Memory :=
  let kernel_mem_pool := construct mem KERNEL_POOL_START_FRAME KERNEL_POOL_SIZE 0
  let n_info_frames := needed_info_frames PROCESS_POOL_SIZE
  let info := get_frames kernel_mem_pool.1 kernel_mem_pool.2 n_info_frames
  let process_mem_pool := construct info.2.2 PROCESS_POOL_START_FRAME PROCESS_POOL_SIZE info.1
  mark_inaccessible process_mem_pool.1 process_mem_pool.2 MEM_HOLE_START_FRAME MEM_HOLE_SIZE

/-- `test_max_alloc` of kernel.C: the two `get_frames` calls, with the frame
numbers they return and the `free_frames()` printed at the end. -/
def test_max_alloc (_pool : ContFramePool) (mem : Memory) : Nat × Nat × Nat :=
  let a := get_frames _pool mem 4096
  let b := get_frames a.2.1 a.2.2 2816
  (a.1, b.1, free_frames b.2.1)

/-- End-to-end scenario 2: the pool setup of `main` followed by
`test_max_alloc` on the process pool. -/
def scenario2 (mem : Memory) : Nat × Nat × Nat :=
  test_max_alloc (setup_pools mem).1 (setup_pools mem).2

/-- A pool over frames 8..15 (info region in frame 2) on which the same
frame is marked inaccessible twice: `free_frames()` and the number of Free
frames at the end. -/
def mark_twice (mem : Memory) : Nat × Nat :=
  let c := construct mem 8 8 2
  let m1 := mark_inaccessible c.1 c.2 8 1
  let m2 := mark_inaccessible m1.1 m1.2 8 1
  (free_frames m2.1, countFree m2.1 m2.2)

/-- Memory whose only nonzero byte is byte 8196, holding 1: in an info region
at frame 2 (address 8192) the cell of frame 16 reads Used and the cell of
frame 17 reads Free. -/
def strayMem : Memory := fun a => if a = 8196 then 1 else 0

/-- A pool over frames 8..15 with its info region in frame 2, on which all
eight frames are allocated by one `get_frames(8)` and released again:
`free_frames()` before the allocation, the frame returned, and the free
counters of the registry after `release_frames` of that frame. -/
def alloc_release (mem : Memory) : Nat × Nat × Option (List Nat) :=
  let c := construct mem 8 8 2
  let g := get_frames c.1 c.2 8
  (free_frames c.1, g.1,
    (release_frames [g.2.1] g.2.2 g.1).map (fun r => r.1.map free_frames))

/-- The same pool with two `get_frames(4)` calls, whose frames are released
in the reverse order: `free_frames()` before the first allocation and the
free counters of the registry after the second release. -/
def round_trip (mem : Memory) : Nat × Option (List Nat) :=
  let c := construct mem 8 8 2
  let a := get_frames c.1 c.2 4
  let b := get_frames a.2.1 a.2.2 4
  let r1 := release_frames [b.2.1] b.2.2 b.1
  let r2 := r1.bind (fun r => release_frames r.1 r.2 a.1)
  (free_frames c.1, r2.map (fun r => r.1.map free_frames))

/-- Memory whose only nonzero byte is byte `512 * 4096 + 2048`, holding 1: in
an info region at frame 512 the cell of frame 8192 reads Used and the cell of
frame 8193 reads Free. -/
def pastMem : Memory := fun a => if a = 2099200 then 1 else 0

/-- The process pool of kernel.C (frames 1024..8191, info region in frame
512) on which `get_frames(7167)` takes all frames but the last,
`get_frames(1)` takes the last one, and that frame is released again:
`free_frames()` before the release, the frame returned by `get_frames(1)`,
and the free counters of the registry after the release. -/
def release_last_frame (mem : Memory) : Nat × Nat × Option (List Nat) :=
  let c := construct mem 1024 7168 512
  let a := get_frames c.1 c.2 7167
  let b := get_frames a.2.1 a.2.2 1
  (free_frames b.2.1, b.1,
    (release_frames [b.2.1] b.2.2 b.1).map (fun r => r.1.map free_frames))

end ContFramePool

end Mp2

/-- Store of one 32-bit word: `*(unsigned long *) a = v`. -/
def writeWord (mem : Memory) (a v : Nat) : Memory :=
  fun x => if x = a then v else mem x

/-!
# mp4: page table and virtual-memory pools

`PageTable` and `VMPool` of `src/mp4`.  The code reads and writes the paging
structures through addresses: physical addresses in the constructor, which
runs before paging is enabled, and the addresses of the recursive map
(`PDE_address`, `PTE_address`) afterwards.  The field `mem` maps the address
of a 32-bit word, as the code uses it, to the value of the word; address
translation by the hardware is not part of the model.  The frame pool of
this machine problem is not among the sources and is a parameter.
-/

namespace Mp4

/-- The two operations of the process frame pool that the paging code calls.
`ContFramePool` is not among the sources of this machine problem, so the
pool state `σ` and its operations are parameters: `get_frames` returns the
frame number and the pool afterwards, `release_frames` the registry of pools
afterwards. -/
structure FramePool (σ : Type) where
  get_frames : σ → Nat → Nat × σ
  release_frames : σ → Nat → σ

/-- The record `struct region` of the two tables of a `VMPool`: base page
and length in bytes (the source spells the field `lenght`). -/
structure region where
  base_page : Nat
  lenght : Nat
deriving DecidableEq, Repr

/-- The data members of a `VMPool`.  The two tables live in the first two
pages of the pool; they are represented by their entries, indexed from 0,
of which the code uses the first 512. -/
structure VMPool where
  base_address : Nat
  size : Nat
  alloc_array : Nat → region
  free_array : Nat → region

/-- The paging system: the static members of `PageTable`, the object's
`page_directory`, the control registers, and the memory holding the paging
structures.  `mem` maps the address of a word, as the running code uses it,
to the word; `registry` lists the registered pools from `Head` to `Tail`. -/
structure PageTable (σ : Type) where
  process_mem_pool : σ
  page_directory : Nat
  current_page_table : Option Nat
  paging_enabled : Bool
  cr0 : Nat
  cr3 : Nat
  registry : List VMPool
  mem : Memory

namespace VMPool

/-- `VMPool::is_legitimate`: both exits return `true`. -/
def is_legitimate (p : VMPool) (_address : Nat) : Bool :=
  let array_space := (p.base_address + 8192) % WORD
  if _address ≥ p.base_address ∧ _address < array_space then true
  else true

end VMPool

namespace PageTable

variable {σ : Type}

/-- `PageTable::PDE_address`. -/
def PDE_address (addr : Nat) : Nat :=
  (1023 <<< 22) ||| (1023 <<< 12) ||| ((addr &&& 1023) <<< 2)

/-- `PageTable::PTE_address`. -/
def PTE_address (addr : Nat) : Nat :=
  (1023 <<< 22) ||| (((addr >>> 22) &&& 1023) <<< 12) ||| (((addr >>> 12) &&& 1023) <<< 2)

/-- The first loop of the constructor: `count` iterations of
`page_table[i] = address | 3; address = address + 4096; i++`. -/
def map_first_4mb (page_table : Nat) : Nat → Nat → Nat → Memory → Memory
  | 0, _, _, mem => mem
  | k + 1, i, address, mem =>
      map_first_4mb page_table k (i + 1) ((address + 4096) % WORD)
        (writeWord mem (page_table + 4 * i) (address ||| 3))

/-- The second loop of the constructor: `count` iterations of
`page_directory[i] = 0UL | 2; i++`. -/
def clear_directory (page_directory : Nat) : Nat → Nat → Memory → Memory
  | 0, _, mem => mem
  | k + 1, i, mem =>
      clear_directory page_directory k (i + 1)
        (writeWord mem (page_directory + 4 * i) (0 ||| 2))

/-- The body of the constructor after its two `get_frames` calls: the
identity map of the first 4 MB in the page table, the directory entries 0
and 1023, and the loop over the other directory entries. -/
def init_tables (page_directory_address page_table_address : Nat) (mem : Memory) : Memory :=
  let mem1 := map_first_4mb page_table_address 1024 0 0 mem
  let mem2 := writeWord mem1 (page_directory_address + 4 * 0) page_table_address
  let mem3 := writeWord mem2 (page_directory_address + 4 * 0)
    (mem2 (page_directory_address + 4 * 0) ||| 3)
  let mem4 := writeWord mem3 (page_directory_address + 4 * 1023) page_directory_address
  let mem5 := writeWord mem4 (page_directory_address + 4 * 1023)
    (mem4 (page_directory_address + 4 * 1023) ||| 3)
  clear_directory page_directory_address 1022 1 mem5

/-- The constructor `PageTable::PageTable`, run on the paging system `s`
(whose `page_directory` it sets). -/
def construct (pool : FramePool σ) (s : PageTable σ) : PageTable σ :=
  let g1 := pool.get_frames s.process_mem_pool 1
  let page_directory_address := (4096 * g1.1) % WORD
  let g2 := pool.get_frames g1.2 1
  let page_table_address := (4096 * g2.1) % WORD
  { s with process_mem_pool := g2.2, page_directory := page_directory_address,
           mem := init_tables page_directory_address page_table_address s.mem }

/-- `PageTable::load`. -/
def load (s : PageTable σ) : PageTable σ :=
  { s with cr3 := s.page_directory, current_page_table := some s.page_directory }

/-- `PageTable::enable_paging`. -/
def enable_paging (s : PageTable σ) : PageTable σ :=
  { s with cr0 := s.cr0 ||| 0x80000000, paging_enabled := true }

/-- `PageTable::register_pool`: the pool is appended at `Tail`. -/
def register_pool (s : PageTable σ) (_vm_pool : VMPool) : PageTable σ :=
  { s with registry := s.registry ++ [_vm_pool] }

/-- The registry walk of `handle_fault`: the final value of `in_pool`. -/
def in_pool : List VMPool → Nat → Bool
  | [], _ => false
  | loop :: next, attempted_address =>
      if loop.is_legitimate attempted_address then true
      else in_pool next attempted_address

/-- `PageTable::handle_fault`, with the error code of the trap frame and
the faulting address read from `cr2`. -/
def handle_fault (pool : FramePool σ) (s : PageTable σ) (err_code attempted_address : Nat) :
    PageTable σ :=
  let bit_2 := decide ((err_code &&& (1 <<< 2)) ≠ 0)
  let bit_0 := decide ((err_code &&& (1 <<< 0)) ≠ 0)
  if !(in_pool s.registry attempted_address) then s
  else if !bit_0 then
    let PDE := PDE_address attempted_address
    let s1 : PageTable σ :=
      if (s.mem PDE &&& 1) = 0 then
        let g := pool.get_frames s.process_mem_pool 1
        let mem1 := writeWord s.mem PDE ((4096 * g.1) % WORD)
        let mem2 := writeWord mem1 PDE (mem1 PDE ||| 7)
        { s with process_mem_pool := g.2, mem := mem2 }
      else s
    let PTE := PTE_address attempted_address
    let g := pool.get_frames s1.process_mem_pool 1
    let mem1 := writeWord s1.mem PTE ((4096 * g.1) % WORD)
    let mem2 :=
      if !bit_2 then writeWord mem1 PTE (mem1 PTE ||| 3)
      else writeWord mem1 PTE (mem1 PTE ||| 7)
    { s1 with process_mem_pool := g.2, mem := mem2 }
  else s

/-- `PageTable::free_page`. -/
def free_page (pool : FramePool σ) (s : PageTable σ) (_page_no : Nat) : PageTable σ :=
  let PTE := PTE_address ((4096 * _page_no) % WORD)
  let present := s.mem PTE &&& 1
  if present = 1 then
    let physical_address := (s.mem PTE >>> 12) <<< 12
    let s1 : PageTable σ :=
      { s with process_mem_pool := pool.release_frames s.process_mem_pool (physical_address / 4096) }
    let s2 : PageTable σ := { s1 with mem := writeWord s1.mem PTE (s1.mem PTE ^^^ 1) }
    load s2
  else s

/-- The address `4096 * get_frames(1)` of the page directory that the
constructor obtains. -/
def directory_of (pool : FramePool σ) (s : PageTable σ) : Nat :=
  (4096 * (pool.get_frames s.process_mem_pool 1).1) % WORD

/-- The address `4096 * get_frames(1)` of the initial page table that the
constructor obtains with its second call. -/
def table_of (pool : FramePool σ) (s : PageTable σ) : Nat :=
  (4096 * (pool.get_frames (pool.get_frames s.process_mem_pool 1).2 1).1) % WORD

/-- The recursive-map address of the page-directory entry selected by the
top 10 bits of `addr`, as the specification gives it. -/
def PDE_slot (addr : Nat) : Nat :=
  (1023 <<< 22) ||| (1023 <<< 12) ||| ((addr >>> 22) <<< 2)

/-- A registered pool of 1 MiB at `0x40000000`, with empty tables. -/
def demoVMPool : VMPool :=
  { base_address := 0x40000000, size := 0x100000,
    alloc_array := fun _ => { base_page := 0, lenght := 0 },
    free_array := fun _ => { base_page := 0, lenght := 0 } }

/-- A paging system before any page table is constructed: the process pool
hands out frames from frame 1024 on. -/
def rawPaging : PageTable Nat :=
  { process_mem_pool := 1024, page_directory := 0, current_page_table := none,
    paging_enabled := false, cr0 := 0, cr3 := 0, registry := [], mem := fun _ => 0 }

/-- The paging structures that the constructor leaves in frames 1024
(directory) and 1025 (initial page table), at the addresses under which the
recursive map shows them: directory entry `k` at `0xFFFFF000 + 4k`, entry
`k` of the initial page table at `0xFFC00000 + 4k`. -/
def bootMem : Memory := fun a =>
  if a = 0xFFFFF000 then 0x401003
  else if a = 0xFFFFFFFC then 0x400003
  else if 0xFFFFF000 ≤ a then 2
  else if 0xFFC00000 ≤ a ∧ a < 0xFFC01000 then (((a - 0xFFC00000) / 4) * 4096) ||| 3
  else 0

/-- The paging system after construction, `load` and `enable_paging`, with
`demoVMPool` registered. -/
def bootPaging : PageTable Nat :=
  { process_mem_pool := 1026, page_directory := 0x400000,
    current_page_table := some 0x400000, paging_enabled := true, cr0 := 0x80000000,
    cr3 := 0x400000, registry := [demoVMPool], mem := bootMem }

end PageTable

/-- A stand-in frame pool for the worked examples: its state is the next
frame number, `get_frames(n)` hands out the next `n` frames and
`release_frames` does nothing. -/
def bumpPool : FramePool Nat :=
  { get_frames := fun s n => (s, s + n), release_frames := fun s _ => s }

namespace VMPool

variable {σ : Type}

/-- Store into one entry of a table: `array[k] = r`. -/
def setEntry (array : Nat → region) (k : Nat) (r : region) : Nat → region :=
  fun x => if x = k then r else array x

/-- The constructor's loop: `count` iterations of zeroing entry `i` of both
tables. -/
def clear_tables : Nat → Nat → (Nat → region) × (Nat → region) →
    (Nat → region) × (Nat → region)
  | 0, _, t => t
  | k + 1, i, t =>
      clear_tables k (i + 1)
        (setEntry t.1 i { base_page := 0, lenght := 0 },
         setEntry t.2 i { base_page := 0, lenght := 0 })

/-- The constructor `VMPool::VMPool`, for a pool whose tables held
`alloc0` and `free0` before: the new pool and the paging system with the
pool registered.  The frame pool pointer is not used by any method and is
left out. -/
def construct (_base_address _size : Nat) (_page_table : PageTable σ)
    (alloc0 free0 : Nat → region) : VMPool × PageTable σ :=
  let a1 := setEntry alloc0 0 { base_page := 0, lenght := 8192 }
  let f1 := setEntry free0 0 { base_page := 2, lenght := (_size + (WORD - 8192)) % WORD }
  let t := clear_tables 511 1 (a1, f1)
  let p : VMPool :=
    { base_address := _base_address, size := _size, alloc_array := t.1, free_array := t.2 }
  (p, PageTable.register_pool _page_table p)

/-- The page count and the size in bytes that `allocate` computes from the
request at the top of its loop body. -/
def rounded (_size : Nat) : Nat × Nat :=
  if 4096 ≥ _size then (1, 4096)
  else
    let remainder := _size % 4096
    let pages := _size / 4096
    let pages := if remainder ≠ 0 then pages + 1 else pages
    (pages, (pages * 4096) % WORD)

/-- The inner loop of `allocate`: the first `j` at or after the start with
`alloc_array[j].lenght == 0`, within `count` iterations. -/
def find_alloc_slot (p : VMPool) : Nat → Nat → Option Nat
  | 0, _ => none
  | k + 1, j => if (p.alloc_array j).lenght = 0 then some j else find_alloc_slot p k (j + 1)

/-- The body of the innermost `if` of `allocate` (lines 118 to 126), taken
when free entry `i` is large enough and allocated entry `j` is empty: the
returned address and the pool afterwards. -/
def allocate_at (p : VMPool) (pages size i j : Nat) : Nat × VMPool :=
  let a1 := setEntry p.alloc_array j
    { base_page := (p.free_array i).base_page, lenght := size }
  let f1 := setEntry p.free_array i
    { base_page := ((p.free_array i).base_page + pages) % WORD,
      lenght := (p.free_array i).lenght - size }
  ((p.base_address + ((a1 j).base_page * 4096) % WORD) % WORD,
    { p with alloc_array := a1, free_array := f1 })

/-- The outer loop of `allocate`: `count` iterations from entry `i`. -/
def allocate_from (p : VMPool) (_size : Nat) : Nat → Nat → Nat × VMPool
  | 0, _ => (0, p)
  | k + 1, i =>
      let pages := (rounded _size).1
      let size := (rounded _size).2
      if (p.free_array i).lenght ≥ size then
        match find_alloc_slot p 512 0 with
        | some j => allocate_at p pages size i j
        | none => allocate_from p _size k (i + 1)
      else allocate_from p _size k (i + 1)

/-- `VMPool::allocate`: the returned address and the pool afterwards. -/
def allocate (p : VMPool) (_size : Nat) : Nat × VMPool :=
  allocate_from p _size 512 0

/-- The loop of `release` that frees the pages of an allocation: `count`
iterations of `page_table->free_page(base_address + (base_page + j) * 4096)`. -/
def free_pages (pool : FramePool σ) (p : VMPool) (base_page : Nat) :
    Nat → Nat → PageTable σ → PageTable σ
  | 0, _, s => s
  | k + 1, j, s =>
      let free_address := (p.base_address + ((base_page + j) * 4096) % WORD) % WORD
      free_pages pool p base_page k (j + 1) (PageTable.free_page pool s free_address)

/-- The loop of `release` that looks for a free-table slot: the first `j` at
or after the start with `free_array[j].lenght == 0`, within `count`
iterations. -/
def find_free_slot (p : VMPool) : Nat → Nat → Option Nat
  | 0, _ => none
  | k + 1, j => if (p.free_array j).lenght = 0 then some j else find_free_slot p k (j + 1)

/-- The body of the innermost `if` of `release` (lines 161 to 166): the
region of allocated entry `i` is moved to the empty free entry `j`. -/
def release_at (p : VMPool) (i j : Nat) : VMPool :=
  let f1 := setEntry p.free_array j
    { base_page := (p.alloc_array i).base_page, lenght := (p.alloc_array i).lenght }
  let a1 := setEntry p.alloc_array i { base_page := 0, lenght := 0 }
  { p with alloc_array := a1, free_array := f1 }

/-- The outer loop of `release`: `count` iterations from entry `i`. -/
def release_from (pool : FramePool σ) (p : VMPool) (page_no : Nat) :
    Nat → Nat → PageTable σ → VMPool × PageTable σ
  | 0, _, s => (p, s)
  | k + 1, i, s =>
      if (p.alloc_array i).base_page = page_no then
        let s1 := free_pages pool p (p.alloc_array i).base_page
          ((p.alloc_array i).lenght / 4096) 0 s
        match find_free_slot p 512 0 with
        | some j => (release_at p i j, s1)
        | none => release_from pool p page_no k (i + 1) s1
      else release_from pool p page_no k (i + 1) s

/-- `VMPool::release`, with the paging system the pool is registered in. -/
def release (pool : FramePool σ) (p : VMPool) (s : PageTable σ) (_start_address : Nat) :
    VMPool × PageTable σ :=
  if p.is_legitimate _start_address then
    let page_no := ((_start_address + (WORD - p.base_address % WORD)) % WORD) / 4096
    release_from pool p page_no 512 0 s
  else (p, s)

/-- The sum of a weight over the 512 entries of a region table. -/
def tableSum (w : region → Nat) (t : Nat → region) : Nat :=
  ((List.range 512).map (fun k => w (t k))).sum

/-- Whether page `q` of the pool lies in region `r`: 1 if it does, 0 if
not. -/
def pagesOf (q : Nat) (r : region) : Nat :=
  if r.base_page ≤ q ∧ q < r.base_page + r.lenght / 4096 then 1 else 0

/-- The number of entries of the two tables whose region contains page
`q`. -/
def cover (p : VMPool) (q : Nat) : Nat :=
  tableSum (pagesOf q) p.alloc_array + tableSum (pagesOf q) p.free_array

/-- The sum of the lengths recorded in the two tables. -/
def total (p : VMPool) : Nat :=
  tableSum region.lenght p.alloc_array + tableSum region.lenght p.free_array

/-- The region-table invariant: every recorded length is a multiple of
4096, every page `0 .. size/4096 - 1` lies in exactly one recorded region
and no other page lies in any, and the lengths sum to `size`. -/
def Invariant (p : VMPool) : Prop :=
  p.size < WORD ∧
  (∀ k, k < 512 → 4096 ∣ (p.alloc_array k).lenght ∧ 4096 ∣ (p.free_array k).lenght) ∧
  (∀ q, cover p q = if q < p.size / 4096 then 1 else 0) ∧
  total p = p.size

/-- The pool states reachable from a construction with a size that is a
multiple of 4096 and at least 8192, by `release` calls and by `allocate`
calls that ask for at most `2^32 - 4096` bytes. -/
inductive Reachable : VMPool → Prop
  | construct {σ : Type} (_base_address _size : Nat) (_page_table : PageTable σ)
      (alloc0 free0 : Nat → region) :
      _size % 4096 = 0 → 8192 ≤ _size → _size < WORD →
      Reachable (VMPool.construct _base_address _size _page_table alloc0 free0).1
  | allocate (p : VMPool) (_size : Nat) :
      Reachable p → _size ≤ WORD - 4096 → Reachable (VMPool.allocate p _size).2
  | release {σ : Type} (pool : FramePool σ) (p : VMPool) (s : PageTable σ)
      (_start_address : Nat) :
      Reachable p → Reachable (VMPool.release pool p s _start_address).1

/-- Tables holding zeroes, as the memory of a pool before construction. -/
def zeroTable : Nat → region := fun _ => { base_page := 0, lenght := 0 }

/-- A fresh pool of 1 MiB at `0x40000000`. -/
def freshPool : VMPool :=
  (construct 0x40000000 0x100000 PageTable.rawPaging zeroTable zeroTable).1

/-- A fresh pool of four pages at `0x40000000`, registered in
`PageTable.bootPaging`. -/
def smallPool : VMPool × PageTable Nat :=
  construct 0x40000000 16384 PageTable.bootPaging zeroTable zeroTable

/-- The four-page pool after `allocate(4096)`, `allocate(4096)` and the
release of the first of the two regions: the page at `0x40003000` is
allocated, the page at `0x40002000` is free again. -/
def liveState : VMPool :=
  (release bumpPool (allocate (allocate smallPool.1 4096).2 4096).2 smallPool.2 0x40002000).1

/-- The fresh 1 MiB pool after a request of `2^32 - 1` bytes. -/
def overflowed : VMPool := (allocate freshPool 4294967295).2

/-- The four-page pool `smallPool` after `allocate(4096)` and the release of
the two management pages with `release(0x40000000)`. -/
def mgmtReleased : VMPool × PageTable Nat :=
  release bumpPool (allocate smallPool.1 4096).2 smallPool.2 0x40000000

/-- Two more `allocate(4096)` calls: the first takes page 3 into allocated
entry 0, the second takes page 0 into allocated entry 2.  The address
returned by the second call and the pool afterwards. -/
def pageZeroTaken : Nat × VMPool :=
  allocate (allocate mgmtReleased.1 4096).2 4096

/-- After `release(0x40003000)`: allocated entry 0 is empty again, and entry
2 still records the page at `0x40000000`. -/
def slotZeroEmpty : VMPool × PageTable Nat :=
  release bumpPool pageZeroTaken.2 mgmtReleased.2 0x40003000

end VMPool

/-- A stand-in frame pool that keeps a record of its calls: its state is the
next frame number and the frames released so far, oldest first. -/
def logPool : FramePool (Nat × List Nat) :=
  { get_frames := fun s n => (s.1, (s.1 + n, s.2)),
    release_frames := fun s f => (s.1, s.2 ++ [f]) }

namespace PageTable

/-- The paging system `bootPaging` over the recording pool `logPool`, with
no pool registered yet. -/
def logPaging : PageTable (Nat × List Nat) :=
  { process_mem_pool := (1026, []), page_directory := 0x400000,
    current_page_table := some 0x400000, paging_enabled := true, cr0 := 0x80000000,
    cr3 := 0x400000, registry := [], mem := bootMem }

end PageTable

namespace VMPool

/-- A four-page pool at `0x40000000` registered in `logPaging`:
`allocate(4096)`, a page fault on the returned address and one on the
address `0x02000000` (kernel-mode writes to pages that are not present, error
code 2), then `release` of the returned address.  The address returned by
`allocate`, the paging system before the release, and the pool and the
paging system after it. -/
def releaseMapped :
    Nat × PageTable (Nat × List Nat) × VMPool × PageTable (Nat × List Nat) :=
  let c := construct 0x40000000 16384 PageTable.logPaging zeroTable zeroTable
  let a := allocate c.1 4096
  let s1 := PageTable.handle_fault logPool c.2 2 a.1
  let s2 := PageTable.handle_fault logPool s1 2 0x02000000
  (a.1, s2, release logPool a.2 s2 a.1)

end VMPool

end Mp4

/-- Result of a method that dereferences pointers and may loop: the state
afterwards, a dereference of the null pointer, or a loop that did not end
within the iterations it was given. -/
inductive Outcome (α : Type) where
  | ok (a : α)
  | fault
  | timeout

namespace Outcome

/-- Sequencing: the second step runs on the result of the first. -/
def bind {α β : Type} (x : Outcome α) (f : α → Outcome β) : Outcome β :=
  match x with
  | ok a => f a
  | fault => fault
  | timeout => timeout

end Outcome

/-!
# Threads

The class `Thread` is not among the sources.  A thread is identified by the
address of its object, a pointer to a thread is `some` address or `none`
for the null pointer, and the threads' next-pointers form a function from
threads to pointers.
-/

namespace Thread

/-- Modelled from the spec: `Thread::set_next` (`setnextthread` in the
callers) on the thread `t`, storing the pointer `v` in its next-pointer. -/
def setnextthread (next : Nat → Option Nat) (t : Nat) (v : Option Nat) : Nat → Option Nat :=
  fun x => if x = t then v else next x

/-- The queue threaded through the next-pointers from a head pointer: `l`
is the sequence of threads reachable from `h`, ending at the null
pointer. -/
def Chain (next : Nat → Option Nat) : List Nat → Option Nat → Prop
  | [], h => h = none
  | a :: l, h => h = some a ∧ Chain next l (next a)

/-- The sequence left of a queue `l` when the next-pointer of `x` is
redirected to `t`, and that of `t` to null: `l` up to `x`, then `t`; `l`
itself if `x` is not in it. -/
def cut (x t : Nat) : List Nat → List Nat
  | [] => []
  | a :: l => if a = x then [a, t] else a :: cut x t l

end Thread

namespace Mp5

open Thread

/-- The data members `head` and `tail` of `Scheduler` (mp5), the
next-pointers of the threads, and the arguments of the calls of
`Thread::dispatch_to` so far, oldest first. -/
structure Scheduler where
  head : Option Nat
  tail : Option Nat
  next : Nat → Option Nat
  dispatched : List Nat

namespace Scheduler

/-- `Scheduler::Scheduler()`, the threads' next-pointers being `next`. -/
def construct (next : Nat → Option Nat) : Scheduler :=
  { head := none, tail := none, next := next, dispatched := [] }

/-- `Scheduler::yield`.  `head->getnextthread()` dereferences `head`. -/
def yield (s : Scheduler) : Outcome Scheduler :=
  match s.head with
  | none => Outcome.fault
  | some callthread =>
      let s1 : Scheduler := { s with head := s.next callthread }
      let s2 : Scheduler := if s1.head = none then { s1 with tail := none } else s1
      Outcome.ok { s2 with dispatched := s2.dispatched ++ [callthread] }

/-- `Scheduler::resume`. -/
def resume (s : Scheduler) (_thread : Nat) : Outcome Scheduler :=
  if s.head = none then
    Outcome.ok { s with head := some _thread,
                        next := setnextthread s.next _thread none,
                        tail := some _thread }
  else
    match s.tail with
    | none => Outcome.fault
    | some t =>
        Outcome.ok { s with next := setnextthread (setnextthread s.next t (some _thread))
                              _thread none,
                            tail := some _thread }

/-- `Scheduler::add`. -/
def add (s : Scheduler) (_thread : Nat) : Outcome Scheduler :=
  resume s _thread

/-- The `while` loop of `terminate`, run for at most `fuel` iterations: the
next-pointers afterwards.  The condition dereferences `check_thread` when
`inqueue` is set. -/
def terminate_loop (_thread : Nat) :
    Nat → (Nat → Option Nat) → Option Nat → Bool → Outcome (Nat → Option Nat)
  | fuel, next, check_thread, inqueue =>
    if inqueue = false then Outcome.ok next
    else
      match check_thread with
      | none => Outcome.fault
      | some c =>
        match next c with
        | none => Outcome.ok next
        | some swap =>
          match fuel with
          | 0 => Outcome.timeout
          | k + 1 =>
            if _thread = swap then
              let next1 := setnextthread next c (next swap)
              terminate_loop _thread k next1 (next1 c) false
            else terminate_loop _thread k next (next c) true

/-- `Scheduler::terminate`, its loop run for at most `fuel` iterations. -/
def terminate (fuel : Nat) (s : Scheduler) (_thread : Nat) : Outcome Scheduler :=
  let check_thread := s.head
  if some _thread = check_thread then
    if s.tail = s.head then Outcome.ok { s with head := none, tail := none }
    else Outcome.ok { s with head := s.next _thread }
  else
    (terminate_loop _thread fuel s.next check_thread true).bind
      (fun next1 => Outcome.ok { s with next := next1 })

/-- The calls `add(t1)`, ..., `add(tk)`. -/
def adds : List Nat → Scheduler → Outcome Scheduler
  | [], s => Outcome.ok s
  | t :: ts, s => (add s t).bind (adds ts)

/-- The method `yield` called `k` times. -/
def yields : Nat → Scheduler → Outcome Scheduler
  | 0, s => Outcome.ok s
  | k + 1, s => (yield s).bind (yields k)

end Scheduler

end Mp5

namespace Thread

/-- Whether `l` is the queue from `h` can be computed. -/
instance decChain (next : Nat → Option Nat) :
    (l : List Nat) → (h : Option Nat) → Decidable (Chain next l h)
  | [], h => inferInstanceAs (Decidable (h = none))
  | a :: l, h =>
      have := decChain next l (next a)
      inferInstanceAs (Decidable (h = some a ∧ Chain next l (next a)))

end Thread

namespace Mp6

open Thread

/-- The data members of `Scheduler` (mp6): the heads and tails of the ready
queue and of the I/O queue, with the next-pointers of the threads and the
arguments of the calls of `Thread::dispatch_to` so far, oldest first. -/
structure Scheduler where
  head : Option Nat
  tail : Option Nat
  iohead : Option Nat
  iotail : Option Nat
  next : Nat → Option Nat
  dispatched : List Nat

namespace Scheduler

/-- `Scheduler::Scheduler()`, the threads' next-pointers being `next`. -/
def construct (next : Nat → Option Nat) : Scheduler :=
  { head := none, tail := none, iohead := none, iotail := none, next := next,
    dispatched := [] }

/-- `Scheduler::yield`.  `head->getnextthread()` dereferences `head`. -/
def yield (s : Scheduler) : Outcome Scheduler :=
  match s.head with
  | none => Outcome.fault
  | some callthread =>
      let s1 : Scheduler := { s with head := s.next callthread }
      let s2 : Scheduler := if s1.head = none then { s1 with tail := none } else s1
      Outcome.ok { s2 with dispatched := s2.dispatched ++ [callthread] }

/-- The first part of `resume` (lines 72 to 85): `_thread` is appended
behind `tail`. -/
def append_ready (s : Scheduler) (_thread : Nat) : Outcome Scheduler :=
  if s.head = none then
    Outcome.ok { s with head := some _thread,
                        next := setnextthread s.next _thread none,
                        tail := some _thread }
  else
    match s.tail with
    | none => Outcome.fault
    | some t =>
        Outcome.ok { s with next := setnextthread (setnextthread s.next t (some _thread))
                              _thread none,
                            tail := some _thread }

/-- The second part of `resume` (lines 88 to 108), `status` being the byte
that `Machine::inportb(0x1F7)` returns if it is called. -/
def drain (s : Scheduler) (status : Nat) : Outcome Scheduler :=
  match s.iohead with
  | none => Outcome.ok s
  | some io_thread =>
      if (status &&& 0x08) ≠ 0 then
        let s1 : Scheduler := { s with iohead := s.next io_thread }
        let s2 : Scheduler := if s1.iohead = none then { s1 with iotail := none } else s1
        match s2.tail with
        | none => Outcome.fault
        | some t =>
            Outcome.ok { s2 with next := setnextthread
                                   (setnextthread s2.next t (some io_thread)) io_thread none,
                                 tail := some io_thread }
      else Outcome.ok s

/-- `Scheduler::resume`, `status` being the byte read from port `0x1F7`. -/
def resume (s : Scheduler) (_thread : Nat) (status : Nat) : Outcome Scheduler :=
  (append_ready s _thread).bind (fun s1 => drain s1 status)

/-- `Scheduler::add`. -/
def add (s : Scheduler) (_thread : Nat) (status : Nat) : Outcome Scheduler :=
  resume s _thread status

/-- The `while` loop of `terminate`, run for at most `fuel` iterations: the
next-pointers afterwards.  The condition dereferences `check_thread` when
`inqueue` is set. -/
def terminate_loop (_thread : Nat) :
    Nat → (Nat → Option Nat) → Option Nat → Bool → Outcome (Nat → Option Nat)
  | fuel, next, check_thread, inqueue =>
    if inqueue = false then Outcome.ok next
    else
      match check_thread with
      | none => Outcome.fault
      | some c =>
        match next c with
        | none => Outcome.ok next
        | some swap =>
          match fuel with
          | 0 => Outcome.timeout
          | k + 1 =>
            if _thread = swap then
              let next1 := setnextthread next c (next swap)
              terminate_loop _thread k next1 (next1 c) false
            else terminate_loop _thread k next (next c) true

/-- `Scheduler::terminate`, its loop run for at most `fuel` iterations. -/
def terminate (fuel : Nat) (s : Scheduler) (_thread : Nat) : Outcome Scheduler :=
  let check_thread := s.head
  if some _thread = check_thread then
    if s.tail = s.head then Outcome.ok { s with head := none, tail := none }
    else Outcome.ok { s with head := s.next _thread }
  else
    (terminate_loop _thread fuel s.next check_thread true).bind
      (fun next1 => Outcome.ok { s with next := next1 })

/-- The first part of `add_to_ioqueue` (lines 158 to 171): `_thread` is
appended behind `iotail`. -/
def append_waiting (s : Scheduler) (_thread : Nat) : Outcome Scheduler :=
  if s.iohead = none then
    Outcome.ok { s with iohead := some _thread,
                        next := setnextthread s.next _thread none,
                        iotail := some _thread }
  else
    match s.iotail with
    | none => Outcome.fault
    | some t =>
        Outcome.ok { s with next := setnextthread (setnextthread s.next t (some _thread))
                              _thread none,
                            iotail := some _thread }

/-- `Scheduler::add_to_ioqueue`. -/
def add_to_ioqueue (s : Scheduler) (_thread : Nat) : Outcome Scheduler :=
  (append_waiting s _thread).bind yield

/-- The calls `add(t1)`, ..., `add(tk)`, each thread paired with the byte
that port `0x1F7` holds during its call. -/
def adds : List (Nat × Nat) → Scheduler → Outcome Scheduler
  | [], s => Outcome.ok s
  | t :: ts, s => (add s t.1 t.2).bind (adds ts)

/-- The method `yield` called `k` times. -/
def yields : Nat → Scheduler → Outcome Scheduler
  | 0, s => Outcome.ok s
  | k + 1, s => (yield s).bind (yields k)

/-- Whether the thread `t` is in neither queue: no sequence of threads
reachable from `head` or from `iohead` contains it. -/
def InNeither (s : Scheduler) (t : Nat) : Prop :=
  ∀ l, Chain s.next l s.head ∨ Chain s.next l s.iohead → t ∉ l

/-- The states reachable from the empty scheduler by `add`/`resume` of a
thread that is in neither queue, `yield` on a non-empty ready queue,
`terminate`, and `add_to_ioqueue` of the running thread while it is in
neither queue.  The second component is the thread most recently dispatched
by `yield`, as long as it has not been resumed since. -/
inductive Reachable : Scheduler → Option Nat → Prop
  | construct (next : Nat → Option Nat) : Reachable (construct next) none
  | resume (s s1 : Scheduler) (g : Option Nat) (t status : Nat) :
      Reachable s g → InNeither s t → Scheduler.resume s t status = Outcome.ok s1 →
      Reachable s1 (if g = some t then none else g)
  | yield (s s1 : Scheduler) (g : Option Nat) (h : Nat) :
      Reachable s g → s.head = some h → Scheduler.yield s = Outcome.ok s1 →
      Reachable s1 (some h)
  | terminate (s s1 : Scheduler) (g : Option Nat) (fuel t : Nat) :
      Reachable s g → Scheduler.terminate fuel s t = Outcome.ok s1 → Reachable s1 g
  | add_to_ioqueue (s s1 : Scheduler) (g : Option Nat) (r : Nat) :
      Reachable s g → s.dispatched.getLast? = some r → InNeither s r →
      Scheduler.add_to_ioqueue s r = Outcome.ok s1 →
      Reachable s1 s1.dispatched.getLast?

/-- A scheduler with thread 1 in the ready queue and thread 2 in the I/O
queue. -/
def ioWaiting : Scheduler :=
  { head := some 1, tail := some 1, iohead := some 2, iotail := some 2,
    next := fun _ => none, dispatched := [] }

/-- The empty scheduler after `add(1)`. -/
def oneReady : Scheduler :=
  { head := some 1, tail := some 1, iohead := none, iotail := none,
    next := Thread.setnextthread (fun _ => none) 1 none, dispatched := [] }

/-- The empty scheduler after `add(1)`, `add(2)`. -/
def twoReady : Scheduler :=
  { head := some 1, tail := some 2, iohead := none, iotail := none,
    next := Thread.setnextthread (Thread.setnextthread oneReady.next 1 (some 2)) 2 none,
    dispatched := [] }

/-- The empty scheduler after `add(1)`, `add(2)`, `add(3)`. -/
def threeReady : Scheduler :=
  { head := some 1, tail := some 3, iohead := none, iotail := none,
    next := Thread.setnextthread (Thread.setnextthread twoReady.next 2 (some 3)) 3 none,
    dispatched := [] }

/-- The empty scheduler after `add(1)`, `add(2)`, `add(3)`, `add(4)`. -/
def fourReady : Scheduler :=
  { head := some 1, tail := some 4, iohead := none, iotail := none,
    next := Thread.setnextthread (Thread.setnextthread threeReady.next 3 (some 4)) 4 none,
    dispatched := [] }

/-- The state `fourReady` after `yield()`: thread 1 runs, threads 2, 3 and 4
are ready. -/
def oneRuns : Scheduler :=
  { head := some 2, tail := some 4, iohead := none, iotail := none,
    next := fourReady.next, dispatched := [1] }

/-- The state `oneRuns` after `add_to_ioqueue(1)` of the running thread:
thread 1 waits for I/O, thread 2 runs, threads 3 and 4 are ready. -/
def oneWaits : Scheduler :=
  { head := some 3, tail := some 4, iohead := some 1, iotail := some 1,
    next := Thread.setnextthread fourReady.next 1 none, dispatched := [1, 2] }

end Scheduler

end Mp6

/-!
# mp7: file system

`FileSystem` and `File` of `src/mp7`.  The header with `Inode` and
`MAX_INODES` is not among the sources: the record follows the specification,
the table size is a parameter of every method.  Cursor positions, lengths and
byte counts are natural numbers: with a cursor and a `file_length` of at most
512, as `Write` leaves them, no counter of `Read` or `Write` wraps.
-/

namespace Mp7

/-- Modelled from the spec: the record `Inode`, `{id, block_num,
file_length, valid}`; the source calls the validity flag `val`.  `block_num`
and `file_length` only ever receive loop indices and cursor positions and
are natural numbers here. -/
structure Inode where
  id : Int
  block_num : Nat
  file_length : Nat
  val : Bool
deriving DecidableEq, Repr

/-- The in-memory state of a `FileSystem`: the inode table and the
free-block bitmap, one character code per block (`'0'` is 48, `'1'` is
49). -/
structure FileSystem where
  inodes : Nat → Inode
  free_blocks : Nat → Nat

/-- A `for` loop over `count` indices from `i` on that leaves at the first
index passing its test: that index, or `none` if the loop runs to its
end. -/
def first_index (test : Nat → Bool) : Nat → Nat → Option Nat
  | 0, _ => none
  | k + 1, i => if test i then some i else first_index test k (i + 1)

/-- Store into one entry of the inode table. -/
def setInode (inodes : Nat → Inode) (k : Nat) (v : Inode) : Nat → Inode :=
  fun x => if x = k then v else inodes x

/-- Store of one character into the bitmap. -/
def setBlock (free_blocks : Nat → Nat) (k v : Nat) : Nat → Nat :=
  fun x => if x = k then v else free_blocks x

namespace FileSystem

/-- `FileSystem::LookupFile`: the index of the inode whose address is
returned, or `none` when the loop ends and the function runs off its end
without a `return`. -/
def LookupFile (MAX_INODES : Nat) (fs : FileSystem) (_file_id : Int) : Option Nat :=
  first_index (fun i => (fs.inodes i).val && decide (_file_id = (fs.inodes i).id))
    MAX_INODES 0

/-- `FileSystem::CreateFile`: the returned flag and the state afterwards. -/
def CreateFile (MAX_INODES : Nat) (fs : FileSystem) (_file_id : Int) : Bool × FileSystem :=
  match first_index (fun i => (fs.inodes i).val && decide (_file_id = (fs.inodes i).id))
      MAX_INODES 0 with
  | some _ => (false, fs)
  | none =>
      let found : Nat × (Nat → Inode) :=
        match first_index (fun j => !(fs.inodes j).val) MAX_INODES 0 with
        | some j => (j, setInode fs.inodes j { fs.inodes j with id := _file_id, val := true })
        | none => (0, fs.inodes)
      let pos := found.1
      let inodes1 := found.2
      match first_index (fun f => decide (fs.free_blocks f = 48)) 512 0 with
      | some f =>
          (true, { inodes := setInode inodes1 pos { inodes1 pos with block_num := f },
                   free_blocks := setBlock fs.free_blocks f 49 })
      | none => (false, { fs with inodes := inodes1 })

/-- `FileSystem::DeleteFile`: the returned flag and the state afterwards. -/
def DeleteFile (MAX_INODES : Nat) (fs : FileSystem) (_file_id : Int) : Bool × FileSystem :=
  match first_index (fun i => (fs.inodes i).val && decide (_file_id = (fs.inodes i).id))
      MAX_INODES 0 with
  | some i =>
      (true, { inodes := setInode fs.inodes i { fs.inodes i with val := false },
               free_blocks := setBlock fs.free_blocks (fs.inodes i).block_num 48 })
  | none => (false, fs)

/-- Modelled from the spec: the state after `Format` and `Mount`, an empty
inode table (every inode invalid, its other fields whatever `t` holds) and a
bitmap with blocks 0 and 1 marked used and the others free. -/
def formatted (t : Nat → Inode) : FileSystem :=
  { inodes := fun i => { t i with val := false },
    free_blocks := fun f => if f < 2 then 49 else 48 }

/-- The states reachable from a freshly formatted file system by
`CreateFile` and `DeleteFile` calls. -/
inductive Reachable (MAX_INODES : Nat) : FileSystem → Prop
  | formatted (t : Nat → Inode) : Reachable MAX_INODES (FileSystem.formatted t)
  | create (fs : FileSystem) (_file_id : Int) :
      Reachable MAX_INODES fs → Reachable MAX_INODES (CreateFile MAX_INODES fs _file_id).2
  | delete (fs : FileSystem) (_file_id : Int) :
      Reachable MAX_INODES fs → Reachable MAX_INODES (DeleteFile MAX_INODES fs _file_id).2

/-- An inode table of zeroes. -/
def zeroInodes : Nat → Inode :=
  fun _ => { id := 0, block_num := 0, file_length := 0, val := false }

/-- The file system after `CreateFile(7)` on a fresh one, five bytes written
to the file, and `DeleteFile(7)`: inode 0 is invalid again and keeps the
length 5. -/
def reusedSlot : FileSystem :=
  { inodes := fun i =>
      if i = 0 then { id := 7, block_num := 2, file_length := 5, val := false }
      else { id := 0, block_num := 0, file_length := 0, val := false },
    free_blocks := fun f => if f < 2 then 49 else 48 }

/-- The file system after `CreateFile(0)`, ..., `CreateFile(n - 1)` on a
fresh one with `n` inodes: every inode is valid, inode `i` carries the id
`i` and the block `i + 2`. -/
def fullTable (n : Nat) : FileSystem :=
  { inodes := fun i =>
      if i < n then { id := (i : Int), block_num := i + 2, file_length := 0, val := true }
      else { id := 0, block_num := 0, file_length := 0, val := false },
    free_blocks := fun f => if f < n + 2 then 49 else 48 }

/-- No valid inode of the table carries the id. -/
def Absent (n : Nat) (fs : FileSystem) (_file_id : Int) : Prop :=
  ∀ i, i < n → ¬ ((fs.inodes i).val = true ∧ (fs.inodes i).id = _file_id)

/-- No two valid inodes of the table carry the same id. -/
def UniqueIds (n : Nat) (fs : FileSystem) : Prop :=
  ∀ i j, i < n → j < n → (fs.inodes i).val = true → (fs.inodes j).val = true →
    (fs.inodes i).id = (fs.inodes j).id → i = j

end FileSystem

namespace FileSystem

/-- The loop of the constructor that marks blocks as empty: `count`
iterations of `free_blocks[i] = '0'`. -/
def mark_empty : Nat → Nat → (Nat → Nat) → (Nat → Nat)
  | 0, _, free_blocks => free_blocks
  | k + 1, i, free_blocks => mark_empty k (i + 1) (setBlock free_blocks i 48)

/-- `FileSystem::FileSystem()`: `inodes0` is the freshly allocated inode
array and `blocks0` the freshly allocated bitmap. -/
def construct (inodes0 : Nat → Inode) (blocks0 : Nat → Nat) : FileSystem :=
  { inodes := inodes0,
    free_blocks := mark_empty 510 2 (setBlock (setBlock blocks0 0 49) 1 49) }

/-- The number of bitmap entries that are `'0'`. -/
def countZero (fs : FileSystem) : Nat :=
  ((List.range 512).map (fun f => if fs.free_blocks f = 48 then 1 else 0)).sum

/-- The number of valid inodes of a table of `n` inodes. -/
def countValid (n : Nat) (fs : FileSystem) : Nat :=
  ((List.range n).map (fun i => if (fs.inodes i).val = true then 1 else 0)).sum

/-- A file system with an empty inode table and no block left. -/
def noBlock : FileSystem :=
  { inodes := zeroInodes, free_blocks := fun _ => 49 }

end FileSystem

/-- The data members of a `File`, an open handle: `inode` is the index of
the inode that `LookupFile` returned a pointer to, `block_cache` the 512-byte
cache, `curr_poss` the cursor. -/
structure File where
  inode : Nat
  block_cache : Nat → Nat
  curr_poss : Nat

namespace File

/-- The constructor `File::File(fs, id)`; `block` is the content of the
file's block as `disk->read` delivers it.  Without an inode for the id there
is no pointer to open the file on. -/
def construct (MAX_INODES : Nat) (fs : FileSystem) (block : Nat → Nat) (_id : Int) :
    Option File :=
  (FileSystem.LookupFile MAX_INODES fs _id).map
    (fun i => { inode := i, block_cache := block, curr_poss := 0 })

/-- `File::EoF`. -/
def EoF (fs : FileSystem) (f : File) : Bool :=
  if f.curr_poss = (fs.inodes f.inode).file_length then true else false

/-- `File::Reset`. -/
def Reset (f : File) : File :=
  { f with curr_poss := 0 }

/-- The loop of `Read`: `count` iterations from index `i`, with the number
of bytes copied so far. -/
def read_loop (fs : FileSystem) : Nat → Nat → Nat → (Nat → Nat) → File →
    Nat × (Nat → Nat) × File
  | 0, _, count, _buf, f => (count, _buf, f)
  | k + 1, i, count, _buf, f =>
      if EoF fs f = true then (count, _buf, f)
      else
        read_loop fs k (i + 1) (count + 1) (writeByte _buf count (f.block_cache i))
          { f with curr_poss := f.curr_poss + 1 }

/-- `File::Read`: the returned count, the buffer and the file afterwards.
The loop runs `i` from `curr_poss` while `i < _n`. -/
def Read (fs : FileSystem) (f : File) (_n : Nat) (_buf : Nat → Nat) :
    Nat × (Nat → Nat) × File :=
  read_loop fs (_n - f.curr_poss) f.curr_poss 0 _buf f

/-- The loop of `Write`: `count` iterations from index `i`, with the number
of bytes copied so far. -/
def write_loop : Nat → Nat → Nat → (Nat → Nat) → File → Nat × File
  | 0, _, count, _, f => (count, f)
  | k + 1, i, count, _buf, f =>
      if i = 512 then (count, f)
      else
        write_loop k (i + 1) (count + 1) _buf
          { f with block_cache := writeByte f.block_cache i (_buf count),
                   curr_poss := f.curr_poss + 1 }

/-- `File::Write`: the returned count, the file system (whose inode holds
`file_length`) and the file afterwards.  The loop runs `i` from `curr_poss`
while `i < _n`. -/
def Write (fs : FileSystem) (f : File) (_n : Nat) (_buf : Nat → Nat) :
    Nat × FileSystem × File :=
  let r := write_loop (_n - f.curr_poss) f.curr_poss 0 _buf f
  let fs1 : FileSystem :=
    if r.2.curr_poss > (fs.inodes r.2.inode).file_length then
      { fs with inodes := setInode fs.inodes r.2.inode
                  { fs.inodes r.2.inode with file_length := r.2.curr_poss } }
    else fs
  (r.1, fs1, r.2)

/-- A file system whose inode 0 is a file of ten bytes in block 2. -/
def tenBytes : FileSystem :=
  { inodes := fun i =>
      if i = 0 then { id := 7, block_num := 2, file_length := 10, val := true }
      else { id := 0, block_num := 0, file_length := 0, val := false },
    free_blocks := fun f => if f < 3 then 49 else 48 }

/-- The file of `tenBytes` open with the cursor at 4; the cache holds the
letters from `A` on. -/
def atFour : File :=
  { inode := 0, block_cache := fun i => 65 + i, curr_poss := 4 }

/-- The characters of `hello`, followed by zeroes. -/
def hello : Nat → Nat := fun i =>
  if i = 0 then 104 else if i = 1 then 101 else if i = 2 then 108
  else if i = 3 then 108 else if i = 4 then 111 else 0

/-- A file just opened on inode 0: an empty cache and the cursor at 0. -/
def opened : File :=
  { inode := 0, block_cache := fun _ => 0, curr_poss := 0 }

/-- The file system after `CreateFile(7)` on a fresh one with four
inodes. -/
def fresh7 : FileSystem :=
  (FileSystem.CreateFile 4 (FileSystem.formatted FileSystem.zeroInodes) 7).2

/-- The file system after `CreateFile(8)` on `reusedSlot`, with four inodes:
the new file has taken inode 0 of the deleted file 7. -/
def reused8 : FileSystem :=
  (FileSystem.CreateFile 4 FileSystem.reusedSlot 8).2

end File

end Mp7

/-! # Theorems -/

namespace Mp2

namespace ContFramePool

/-! ## Info-region bytes -/

theorem land_byte (b m : Nat) (hm : m < 256) : b &&& m = (b % 256) &&& m := by
  apply Nat.eq_of_testBit_eq
  intro i
  simp only [Nat.testBit_and, show (256 : Nat) = 2 ^ 8 by norm_num, Nat.testBit_mod_two_pow]
  by_cases hi : i < 8
  · simp [hi]
  · have hbit : m.testBit i = false := by
      apply Nat.testBit_lt_two_pow
      calc m < 2 ^ 8 := by simpa using hm
        _ ≤ 2 ^ i := Nat.pow_le_pow_right (by norm_num) (by omega)
    simp [hbit]

theorem lor_byte (b m : Nat) (hm : m < 256) : (b ||| m) % 256 = (b % 256) ||| m := by
  apply Nat.eq_of_testBit_eq
  intro i
  simp only [Nat.testBit_or, show (256 : Nat) = 2 ^ 8 by norm_num, Nat.testBit_mod_two_pow]
  by_cases hi : i < 8
  · simp [hi]
  · have hbit : m.testBit i = false := by
      apply Nat.testBit_lt_two_pow
      calc m < 2 ^ 8 := by simpa using hm
        _ ≤ 2 ^ i := Nat.pow_le_pow_right (by norm_num) (by omega)
    simp [hbit, hi]

theorem cellOf_mod (b k : Nat) : cellOf b k = cellOf (b % 256) k := by
  unfold cellOf
  rw [land_byte b _ (Nat.mod_lt _ (by norm_num))]

set_option maxRecDepth 100000 in
theorem byte_clear : ∀ b, b < 256 → ∀ k, k < 4 → ∀ j, j < 4 →
    cellOf (b &&& (255 - (0x3 <<< (k * 2)) % 256)) j = if j = k then 0 else cellOf b j := by
  decide

set_option maxRecDepth 100000 in
theorem byte_or : ∀ b, b < 256 → ∀ k, k < 4 → ∀ j, j < 4 → ∀ v, v < 4 →
    cellOf (b ||| (v <<< (k * 2)) % 256) j = if j = k then cellOf b k ||| v else cellOf b j := by
  decide

theorem cellOf_clear (b k j : Nat) (hk : k < 4) (hj : j < 4) :
    cellOf (b &&& (255 - (0x3 <<< (k * 2)) % 256)) j = if j = k then 0 else cellOf b j := by
  rw [land_byte b _ (by omega), byte_clear (b % 256) (Nat.mod_lt _ (by norm_num)) k hk j hj,
    ← cellOf_mod]

theorem cellOf_or (b k j v : Nat) (hk : k < 4) (hj : j < 4) (hv : v < 4) :
    cellOf (b ||| (v <<< (k * 2)) % 256) j = if j = k then cellOf b k ||| v else cellOf b j := by
  rw [cellOf_mod (b ||| _), lor_byte b _ (Nat.mod_lt _ (by norm_num)),
    byte_or (b % 256) (Nat.mod_lt _ (by norm_num)) k hk j hj v hv, ← cellOf_mod, ← cellOf_mod]

theorem get_state_eq (p : ContFramePool) (mem : Memory) (f : Nat) :
    get_state p mem f = decodeState (cellOf (mem (p.bitmap + f / 4)) (f % 4)) := rfl

theorem decodeState_eq_free (c : Nat) : decodeState c = some FrameState.Free ↔ c = 0 := by
  unfold decodeState
  constructor
  · intro h
    by_contra hc
    simp only [hc, if_false] at h
    split_ifs at h <;> simp at h
  · intro h
    simp [h]

/-- Byte stored by `set_state` at the info byte of the frame. -/
theorem set_state_apply (p : ContFramePool) (mem : Memory) (f : Nat) (s : FrameState) (a : Nat) :
    set_state p mem f s a =
      if a = p.bitmap + f / 4 then
        (match s with
          | FrameState.Free => mem (p.bitmap + f / 4) &&& (255 - (0x3 <<< ((f % 4) * 2)) % 256)
          | FrameState.Used => mem (p.bitmap + f / 4) ||| (0x1 <<< ((f % 4) * 2)) % 256
          | FrameState.HoS => mem (p.bitmap + f / 4) ||| (0x2 <<< ((f % 4) * 2)) % 256)
      else mem a := by
  cases s <;> rfl

/-- Cell of frame `g` after `set_state` on frame `f`. -/
theorem cell_set_state (p : ContFramePool) (mem : Memory) (f g : Nat) (s : FrameState) :
    cellOf (set_state p mem f s (p.bitmap + g / 4)) (g % 4) =
      if g = f then
        (match s with
          | FrameState.Free => 0
          | FrameState.Used => cellOf (mem (p.bitmap + f / 4)) (f % 4) ||| 1
          | FrameState.HoS => cellOf (mem (p.bitmap + f / 4)) (f % 4) ||| 2)
      else cellOf (mem (p.bitmap + g / 4)) (g % 4) := by
  have hf : f % 4 < 4 := Nat.mod_lt _ (by norm_num)
  have hg : g % 4 < 4 := Nat.mod_lt _ (by norm_num)
  rw [set_state_apply]
  by_cases hidx : g / 4 = f / 4
  · rw [if_pos (by rw [hidx])]
    by_cases hfg : g = f
    · subst hfg
      cases s
      · simp only [cellOf_clear _ _ _ hf hf, if_true]
      · simp only [cellOf_or _ _ _ 1 hf hf (by norm_num), if_true]
      · simp only [cellOf_or _ _ _ 2 hf hf (by norm_num), if_true]
    · have hne : g % 4 ≠ f % 4 := by omega
      rw [if_neg hfg, ← hidx]
      cases s
      · simp only [cellOf_clear _ _ _ hf hg, if_neg hne]
      · simp only [cellOf_or _ _ _ 1 hf hg (by norm_num), if_neg hne]
      · simp only [cellOf_or _ _ _ 2 hf hg (by norm_num), if_neg hne]
  · have hfg : g ≠ f := fun h => hidx (by rw [h])
    rw [if_neg (by omega), if_neg hfg]

theorem get_state_set_state_ne (p q : ContFramePool) (hq : q.bitmap = p.bitmap) (mem : Memory)
    (f g : Nat) (s : FrameState) (h : g ≠ f) :
    get_state q (set_state p mem f s) g = get_state q mem g := by
  rw [get_state_eq, get_state_eq, hq, cell_set_state, if_neg h]

theorem get_state_set_free (p q : ContFramePool) (hq : q.bitmap = p.bitmap) (mem : Memory)
    (f : Nat) : get_state q (set_state p mem f FrameState.Free) f = some FrameState.Free := by
  rw [get_state_eq, hq, cell_set_state, if_pos rfl]
  rfl

theorem get_state_set_used (p q : ContFramePool) (hq : q.bitmap = p.bitmap) (mem : Memory)
    (f : Nat) (h : get_state q mem f = some FrameState.Free) :
    get_state q (set_state p mem f FrameState.Used) f = some FrameState.Used := by
  rw [get_state_eq, hq, decodeState_eq_free] at h
  rw [get_state_eq, hq, cell_set_state, if_pos rfl, h]
  rfl

theorem get_state_set_hos (p q : ContFramePool) (hq : q.bitmap = p.bitmap) (mem : Memory)
    (f : Nat) (h : get_state q mem f = some FrameState.Free) :
    get_state q (set_state p mem f FrameState.HoS) f = some FrameState.HoS := by
  rw [get_state_eq, hq, decodeState_eq_free] at h
  rw [get_state_eq, hq, cell_set_state, if_pos rfl, h]
  rfl

/-! ## The loops -/

theorem dec32_of_pos (x : Nat) (h0 : 0 < x) (hx : x < WORD) : dec32 x = x - 1 := by
  unfold dec32 WORD at *
  omega

theorem inc32_of_lt (x : Nat) (hx : x + 1 < WORD) : inc32 x = x + 1 := by
  unfold inc32
  exact Nat.mod_eq_of_lt hx

theorem init_free_outside (p q : ContFramePool) (hq : q.bitmap = p.bitmap) :
    ∀ (k i : Nat) (mem : Memory) (g : Nat), (g < i ∨ i + k ≤ g) →
      get_state q (init_free p k i mem) g = get_state q mem g := by
  intro k
  induction k with
  | zero => intro i mem g _; rfl
  | succ k ih =>
    intro i mem g hg
    rw [init_free, ih (i + 1) _ g (by omega),
      get_state_set_state_ne p q hq mem i g _ (by omega)]

theorem init_free_inside (p q : ContFramePool) (hq : q.bitmap = p.bitmap) :
    ∀ (k i : Nat) (mem : Memory) (g : Nat), i ≤ g → g < i + k →
      get_state q (init_free p k i mem) g = some FrameState.Free := by
  intro k
  induction k with
  | zero => intro i mem g h1 h2; omega
  | succ k ih =>
    intro i mem g h1 h2
    rw [init_free]
    by_cases hgi : g = i
    · subst hgi
      rw [init_free_outside p q hq k (g + 1) _ g (by omega)]
      exact get_state_set_free p q hq mem g
    · exact ih (i + 1) _ g (by omega) (by omega)

theorem dec32_iter (x k : Nat) :
    (dec32 x + k * (WORD - 1)) % WORD = (x + (k + 1) * (WORD - 1)) % WORD := by
  unfold dec32 WORD
  omega

theorem mark_used_counter (k : Nat) : ∀ (i : Nat) (p : ContFramePool) (mem : Memory),
    (mark_used k i p mem).1.nFreeFrames % WORD = (p.nFreeFrames + k * (WORD - 1)) % WORD := by
  induction k with
  | zero => intro i p mem; simp [mark_used]
  | succ k ih =>
    intro i p mem
    rw [mark_used, ih (i + 1) _ _]
    exact dec32_iter _ _

theorem mark_used_bitmap (k : Nat) : ∀ (i : Nat) (p : ContFramePool) (mem : Memory),
    (mark_used k i p mem).1.bitmap = p.bitmap ∧
    (mark_used k i p mem).1.base_frame_no = p.base_frame_no ∧
    (mark_used k i p mem).1.nframes = p.nframes ∧
    (mark_used k i p mem).1.info_frame_no = p.info_frame_no := by
  induction k with
  | zero => intro i p mem; exact ⟨rfl, rfl, rfl, rfl⟩
  | succ k ih =>
    intro i p mem
    rw [mark_used]
    exact ih (i + 1) _ _

theorem mark_used_count (k : Nat) : ∀ (i : Nat) (p : ContFramePool) (mem : Memory),
    k ≤ p.nFreeFrames → p.nFreeFrames < WORD →
    (mark_used k i p mem).1.nFreeFrames = p.nFreeFrames - k := by
  induction k with
  | zero => intro i p mem _ _; rfl
  | succ k ih =>
    intro i p mem h1 h2
    rw [mark_used, ih (i + 1) _ _ (by simp only; rw [dec32_of_pos _ (by omega) h2]; omega)
      (by simp only; rw [dec32_of_pos _ (by omega) h2]; omega)]
    simp only
    rw [dec32_of_pos _ (by omega) h2]
    omega

theorem mark_used_outside (q : ContFramePool) :
    ∀ (k i : Nat) (p : ContFramePool) (mem : Memory) (g : Nat), q.bitmap = p.bitmap →
      (g < i ∨ i + k ≤ g) → get_state q (mark_used k i p mem).2 g = get_state q mem g := by
  intro k
  induction k with
  | zero => intro i p mem g _ _; rfl
  | succ k ih =>
    intro i p mem g hq hg
    rw [mark_used, ih (i + 1) _ _ g (by simpa using hq) (by omega),
      get_state_set_state_ne p q hq mem i g _ (by omega)]

theorem mark_used_inside (q : ContFramePool) :
    ∀ (k i : Nat) (p : ContFramePool) (mem : Memory) (g : Nat), q.bitmap = p.bitmap →
      i ≤ g → g < i + k → get_state q mem g = some FrameState.Free →
      get_state q (mark_used k i p mem).2 g = some FrameState.Used := by
  intro k
  induction k with
  | zero => intro i p mem g _ h1 h2; omega
  | succ k ih =>
    intro i p mem g hq h1 h2 hfree
    rw [mark_used]
    by_cases hgi : g = i
    · subst hgi
      rw [mark_used_outside q k (g + 1) _ _ g (by simpa using hq) (by omega)]
      exact get_state_set_used p q hq mem g hfree
    · apply ih (i + 1) _ _ g (by simpa using hq) (by omega) (by omega)
      rw [get_state_set_state_ne p q hq mem i g _ hgi]
      exact hfree

/-- Result of the search loop: the start of the first run of `n` Free frames
at or after frame `b` that ends by frame `i + k`, or `none` when there is
no such run. -/
theorem find_run_spec (p : ContFramePool) (mem : Memory) (n b : Nat) (hn : 0 < n) :
    ∀ (k i c sp : Nat), sp + c = i → c < n → b ≤ sp → RunFree p mem sp c →
      (∀ s, b ≤ s → s < sp → ¬ RunFree p mem s n) →
      match find_run p mem n k i c sp with
      | some s => b ≤ s ∧ s + n ≤ i + k ∧ RunFree p mem s n ∧
          ∀ t, b ≤ t → t < s → ¬ RunFree p mem t n
      | none => ∀ s, b ≤ s → s + n ≤ i + k → ¬ RunFree p mem s n := by
  intro k
  induction k with
  | zero =>
    intro i c sp hi hc hb hrun hmin
    simp only [find_run]
    intro s hs hle
    exact hmin s hs (by omega)
  | succ k ih =>
    intro i c sp hi hc hb hrun hmin
    rw [find_run]
    by_cases hfree : get_state p mem i = some FrameState.Free
    · rw [if_pos hfree]
      have hrun1 : RunFree p mem sp (c + 1) := by
        intro j hj
        by_cases hjc : j < c
        · exact hrun j hjc
        · have : sp + j = i := by omega
          rw [this]; exact hfree
      by_cases hcn : c + 1 = n
      · rw [if_pos hcn]
        refine ⟨hb, by omega, ?_, hmin⟩
        rw [← hcn]; exact hrun1
      · rw [if_neg hcn]
        have h := ih (i + 1) (c + 1) sp (by omega) (by omega) hb hrun1 hmin
        have e : i + 1 + k = i + (k + 1) := by omega
        rw [e] at h
        exact h
    · rw [if_neg hfree]
      have hmin1 : ∀ s, b ≤ s → s < i + 1 → ¬ RunFree p mem s n := by
        intro s hs hlt hr
        by_cases hsp : s < sp
        · exact hmin s hs hsp hr
        · apply hfree
          have := hr (i - s) (by omega)
          rwa [show s + (i - s) = i by omega] at this
      have h := ih (i + 1) 0 (i + 1) (by omega) hn (by omega) (by intro j hj; omega) hmin1
      have e : i + 1 + k = i + (k + 1) := by omega
      rw [e] at h
      exact h

/-! ## Counting Free frames -/

/-- Two predicates that differ exactly on a block of `m` indices, where the
first holds and the second fails: the filtered lengths differ by `m`. -/
theorem length_filter_range_block (P Q : Nat → Bool) (a : Nat) :
    ∀ (N m : Nat), a + m ≤ N →
      (∀ i, i < N → (i < a ∨ a + m ≤ i) → Q i = P i) →
      (∀ i, a ≤ i → i < a + m → P i = true ∧ Q i = false) →
      ((List.range N).filter Q).length + m = ((List.range N).filter P).length := by
  intro N
  induction N with
  | zero =>
    intro m hm _ _
    have : m = 0 := by omega
    subst this
    simp
  | succ N ih =>
    intro m hm hout hin
    rw [List.range_succ, List.filter_append, List.filter_append, List.length_append,
      List.length_append]
    by_cases hlast : N < a ∨ a + m ≤ N
    · have h2 : Q N = P N := hout N (by omega) hlast
      by_cases hm0 : m = 0
      · subst hm0
        have h1 : (List.range N).filter Q = (List.range N).filter P := by
          apply List.filter_congr
          intro i hi
          rw [List.mem_range] at hi
          exact hout i (by omega) (by omega)
        simp only [List.filter_cons, List.filter_nil, h2, h1]
        omega
      · have h1 := ih m (by omega) (fun i hi hc => hout i (by omega) hc) hin
        simp only [List.filter_cons, List.filter_nil, h2]
        omega
    · have h1 := ih (m - 1) (by omega) (fun i hi hc => hout i (by omega) (by omega))
        (fun i h1 h2 => hin i h1 (by omega))
      have h2 := hin N (by omega) (by omega)
      simp only [List.filter_cons, List.filter_nil, h2.1, h2.2]
      simp only [if_true, List.length_cons, List.length_nil]
      have : (false = true) = False := by simp
      simp only [this, if_false, List.length_nil]
      omega

theorem countFree_le (p : ContFramePool) (mem : Memory) : countFree p mem ≤ p.nframes := by
  unfold countFree
  calc _ ≤ (List.range p.nframes).length := List.length_filter_le _ _
    _ = p.nframes := List.length_range _

/-- The count only depends on the states of the frames of the pool. -/
theorem countFree_congr (p q : ContFramePool) (mem mem2 : Memory)
    (hb : q.base_frame_no = p.base_frame_no) (hn : q.nframes = p.nframes)
    (h : ∀ g, p.base_frame_no ≤ g → g < p.base_frame_no + p.nframes →
      get_state q mem2 g = get_state p mem g) :
    countFree q mem2 = countFree p mem := by
  unfold countFree
  rw [hb, hn]
  congr 1
  apply List.filter_congr
  intro i hi
  rw [List.mem_range] at hi
  rw [h _ (by omega) (by omega)]

/-- Turning a block of `m` Free frames of the pool into non-Free frames
lowers the count by `m`. -/
theorem countFree_block (p q : ContFramePool) (mem mem2 : Memory) (s m : Nat)
    (hb : q.base_frame_no = p.base_frame_no) (hn : q.nframes = p.nframes)
    (hs : p.base_frame_no ≤ s) (he : s + m ≤ p.base_frame_no + p.nframes)
    (hout : ∀ g, (g < s ∨ s + m ≤ g) → get_state q mem2 g = get_state p mem g)
    (hold : ∀ g, s ≤ g → g < s + m → get_state p mem g = some FrameState.Free)
    (hnew : ∀ g, s ≤ g → g < s + m → get_state q mem2 g ≠ some FrameState.Free) :
    countFree q mem2 + m = countFree p mem := by
  unfold countFree
  rw [hb, hn]
  apply length_filter_range_block _ _ (s - p.base_frame_no) p.nframes m (by omega)
  · intro i hi hc
    rw [hout _ (by omega)]
  · intro i h1 h2
    constructor
    · simpa using hold (p.base_frame_no + i) (by omega) (by omega)
    · simpa using hnew (p.base_frame_no + i) (by omega) (by omega)

/-- A run of Free frames inside the pool is counted. -/
theorem countFree_ge_run (p : ContFramePool) (mem : Memory) (n s : Nat)
    (h : FreeRunAt p mem n s) : n ≤ countFree p mem := by
  obtain ⟨h1, h2, h3⟩ := h
  have hb := length_filter_range_block
    (fun i => decide (get_state p mem (p.base_frame_no + i) = some FrameState.Free))
    (fun i => decide (get_state p mem (p.base_frame_no + i) = some FrameState.Free) &&
      !(decide (s - p.base_frame_no ≤ i) && decide (i < s - p.base_frame_no + n)))
    (s - p.base_frame_no) p.nframes n (by omega)
    (by
      intro i hi hc
      have hblk : (decide (s - p.base_frame_no ≤ i) &&
          decide (i < s - p.base_frame_no + n)) = false := by
        rcases hc with hc | hc
        · simp; omega
        · simp; omega
      show (_ && !(decide (s - p.base_frame_no ≤ i) &&
          decide (i < s - p.base_frame_no + n))) = _
      rw [hblk]
      simp)
    (by
      intro i hi1 hi2
      have hf := h3 (p.base_frame_no + i - s) (by omega)
      rw [show s + (p.base_frame_no + i - s) = p.base_frame_no + i by omega] at hf
      constructor
      · simpa using hf
      · simp only [hf, decide_True, Bool.true_and, Bool.not_eq_false', Bool.and_eq_true,
          decide_eq_true_eq, Bool.not_eq_true', Bool.and_eq_false_imp]
        simp
        omega)
  unfold countFree
  omega

/-! ## `get_frames` -/

theorem limit_le (p : ContFramePool) : p.limit ≤ p.base_frame_no + p.nframes :=
  Nat.mod_le _ _

theorem limit_eq (p : ContFramePool) (hwf : p.base_frame_no + p.nframes < WORD) :
    p.limit = p.base_frame_no + p.nframes :=
  Nat.mod_eq_of_lt hwf

theorem mark_used_pool_eq (k : Nat) : ∀ (i : Nat) (p : ContFramePool) (mem : Memory),
    k ≤ p.nFreeFrames → p.nFreeFrames < WORD →
    (mark_used k i p mem).1 = { p with nFreeFrames := p.nFreeFrames - k } := by
  induction k with
  | zero => intro i p mem _ _; rfl
  | succ k ih =>
    intro i p mem h1 h2
    have hd : dec32 p.nFreeFrames = p.nFreeFrames - 1 := dec32_of_pos _ (by omega) h2
    rw [mark_used, ih (i + 1) _ _ (by simp only; omega) (by simp only; omega)]
    simp only [hd]
    rw [show p.nFreeFrames - 1 - k = p.nFreeFrames - (k + 1) by omega]

/-- The search of `get_frames` fails when the pool holds no run of `n` Free
frames. -/
theorem find_run_none (p : ContFramePool) (mem : Memory) (n : Nat) (hn : 0 < n)
    (h : ¬ ∃ s, FreeRunAt p mem n s) :
    find_run p mem n (p.limit - p.base_frame_no) p.base_frame_no 0 p.base_frame_no = none := by
  have hspec := find_run_spec p mem n p.base_frame_no hn (p.limit - p.base_frame_no)
    p.base_frame_no 0 p.base_frame_no rfl hn (le_refl _) (by intro j hj; omega)
    (by intro s h1 h2; omega)
  cases hfr : find_run p mem n (p.limit - p.base_frame_no) p.base_frame_no 0 p.base_frame_no with
  | none => rfl
  | some s =>
    rw [hfr] at hspec
    exfalso
    apply h
    have := limit_le p
    exact ⟨s, hspec.1, by omega, hspec.2.2.1⟩

/-- The search of `get_frames` returns the least start of a run of `n` Free
frames inside the pool, when there is one. -/
theorem find_run_some (p : ContFramePool) (mem : Memory) (n : Nat) (hn : 0 < n)
    (hwf : p.base_frame_no + p.nframes < WORD) (h : ∃ s, FreeRunAt p mem n s) :
    ∃ s, find_run p mem n (p.limit - p.base_frame_no) p.base_frame_no 0 p.base_frame_no = some s
      ∧ FreeRunAt p mem n s ∧ ∀ t, p.base_frame_no ≤ t → t < s → ¬ RunFree p mem t n := by
  have hspec := find_run_spec p mem n p.base_frame_no hn (p.limit - p.base_frame_no)
    p.base_frame_no 0 p.base_frame_no rfl hn (le_refl _) (by intro j hj; omega)
    (by intro s h1 h2; omega)
  have hl := limit_eq p hwf
  cases hfr : find_run p mem n (p.limit - p.base_frame_no) p.base_frame_no 0 p.base_frame_no with
  | none =>
    rw [hfr] at hspec
    exfalso
    obtain ⟨s, h1, h2, h3⟩ := h
    exact hspec s h1 (by omega) h3
  | some s =>
    rw [hfr] at hspec
    exact ⟨s, rfl, ⟨hspec.1, by omega, hspec.2.2.1⟩, hspec.2.2.2⟩

/-- What `get_frames` does once its search has found `s`. -/
theorem get_frames_of_find (p : ContFramePool) (mem : Memory) (n s : Nat) (hn : 0 < n)
    (hwf : p.base_frame_no + p.nframes < WORD) (hle : n ≤ p.nFreeFrames)
    (hW : p.nFreeFrames < WORD)
    (hfind : find_run p mem n (p.limit - p.base_frame_no) p.base_frame_no 0 p.base_frame_no
      = some s)
    (hrun : FreeRunAt p mem n s) :
    (get_frames p mem n).1 = s ∧
    (get_frames p mem n).2.1 = { p with nFreeFrames := p.nFreeFrames - n } ∧
    ∀ q : ContFramePool, q.bitmap = p.bitmap →
      get_state q (get_frames p mem n).2.2 s = some FrameState.HoS ∧
      (∀ g, s < g → g < s + n → get_state q (get_frames p mem n).2.2 g = some FrameState.Used) ∧
      (∀ g, (g < s ∨ s + n ≤ g) → get_state q (get_frames p mem n).2.2 g = get_state q mem g) := by
  obtain ⟨h1, h2, h3⟩ := hrun
  have e1 : (s + 1) % WORD = s + 1 := Nat.mod_eq_of_lt (by omega)
  have e2 : (s + n) % WORD = s + n := Nat.mod_eq_of_lt (by omega)
  have hd : dec32 p.nFreeFrames = p.nFreeFrames - 1 := dec32_of_pos _ (by omega) hW
  have hg : get_frames p mem n = (s,
      (mark_used (s + n - (s + 1)) (s + 1) { p with nFreeFrames := dec32 p.nFreeFrames }
        (set_state p mem s FrameState.HoS)).1,
      (mark_used (s + n - (s + 1)) (s + 1) { p with nFreeFrames := dec32 p.nFreeFrames }
        (set_state p mem s FrameState.HoS)).2) := by
    unfold get_frames
    rw [if_neg (by omega), hfind]
    simp only [e1, e2]
  rw [hg]
  refine ⟨rfl, ?_, ?_⟩
  · simp only
    rw [mark_used_pool_eq _ _ _ _ (by simp only; omega) (by simp only; omega)]
    simp only [hd]
    rw [show p.nFreeFrames - 1 - (s + n - (s + 1)) = p.nFreeFrames - n by omega]
  · intro q hq
    have hqb : ∀ g, get_state q mem g = get_state p mem g := by
      intro g; rw [get_state_eq, get_state_eq, hq]
    simp only
    refine ⟨?_, ?_, ?_⟩
    · rw [mark_used_outside q _ _ _ _ s (by simpa using hq) (by omega)]
      apply get_state_set_hos p q hq
      rw [hqb]
      simpa using h3 0 hn
    · intro g hg1 hg2
      apply mark_used_inside q _ _ _ _ g (by simpa using hq) (by omega) (by omega)
      rw [get_state_set_state_ne p q hq mem s g _ (by omega), hqb]
      have := h3 (g - s) (by omega)
      rwa [show s + (g - s) = g by omega] at this
    · intro g hg
      rw [mark_used_outside q _ _ _ _ g (by simpa using hq) (by omega),
        get_state_set_state_ne p q hq mem s g _ (by omega)]

theorem get_state_bitmap (p q : ContFramePool) (h : q.bitmap = p.bitmap) (mem : Memory)
    (g : Nat) : get_state q mem g = get_state p mem g := by
  rw [get_state_eq, get_state_eq, h]

theorem find_run_zero (p : ContFramePool) (mem : Memory) :
    ∀ (k i c sp : Nat), find_run p mem 0 k i c sp = none := by
  intro k
  induction k with
  | zero => intro i c sp; rfl
  | succ k ih =>
    intro i c sp
    rw [find_run, if_neg (Nat.succ_ne_zero c)]
    split_ifs
    · exact ih _ _ _
    · exact ih _ _ _

/-- The two failure exits of `get_frames`. -/
theorem get_frames_fail (p : ContFramePool) (mem : Memory) (n : Nat) :
    (p.nFreeFrames < n → get_frames p mem n = (0, p, mem)) ∧
    (n ≤ p.nFreeFrames → (¬ ∃ s, FreeRunAt p mem n s) →
      get_frames p mem n = (WORD - 1, p, mem)) := by
  constructor
  · intro h
    unfold get_frames
    rw [if_pos h]
  · intro h hno
    unfold get_frames
    rw [if_neg (by omega)]
    by_cases hn : n = 0
    · subst hn
      rw [find_run_zero]
    · rw [find_run_none p mem n (by omega) hno]

/-- `mark_inaccessible` on a run of Free frames inside the pool. -/
theorem mark_inaccessible_of_free (p : ContFramePool) (mem : Memory) (b n : Nat)
    (hwf : p.base_frame_no + p.nframes < WORD) (hn : 0 < n) (hrun : FreeRunAt p mem n b) :
    (mark_inaccessible p mem b n).1.bitmap = p.bitmap ∧
    (mark_inaccessible p mem b n).1.base_frame_no = p.base_frame_no ∧
    (mark_inaccessible p mem b n).1.nframes = p.nframes ∧
    (mark_inaccessible p mem b n).1.info_frame_no = p.info_frame_no ∧
    ((mark_inaccessible p mem b n).1.nFreeFrames + n) % WORD = p.nFreeFrames % WORD ∧
    (n ≤ p.nFreeFrames → p.nFreeFrames < WORD →
      (mark_inaccessible p mem b n).1.nFreeFrames + n = p.nFreeFrames) ∧
    ∀ q : ContFramePool, q.bitmap = p.bitmap →
      get_state q (mark_inaccessible p mem b n).2 b = some FrameState.HoS ∧
      (∀ g, b < g → g < b + n →
        get_state q (mark_inaccessible p mem b n).2 g = some FrameState.Used) ∧
      (∀ g, (g < b ∨ b + n ≤ g) →
        get_state q (mark_inaccessible p mem b n).2 g = get_state q mem g) := by
  obtain ⟨h1, h2, h3⟩ := hrun
  have e1 : (b + 1) % WORD = b + 1 := Nat.mod_eq_of_lt (by omega)
  have e2 : (b + n) % WORD = b + n := Nat.mod_eq_of_lt (by omega)
  have hm : mark_inaccessible p mem b n =
      mark_used (b + n - (b + 1)) (b + 1) { p with nFreeFrames := dec32 p.nFreeFrames }
        (set_state p mem b FrameState.HoS) := by
    unfold mark_inaccessible
    rw [e1, e2]
  rw [hm]
  obtain ⟨hb1, hb2, hb3, hb4⟩ := mark_used_bitmap (b + n - (b + 1)) (b + 1)
    { p with nFreeFrames := dec32 p.nFreeFrames } (set_state p mem b FrameState.HoS)
  refine ⟨hb1, hb2, hb3, hb4, ?_, ?_, ?_⟩
  · have hc := mark_used_counter (b + n - (b + 1)) (b + 1)
      { p with nFreeFrames := dec32 p.nFreeFrames } (set_state p mem b FrameState.HoS)
    simp only at hc
    have hk : b + n - (b + 1) = n - 1 := by omega
    rw [hk] at hc ⊢
    have hi := dec32_iter p.nFreeFrames (n - 1)
    rw [hi, show n - 1 + 1 = n by omega] at hc
    rw [Nat.add_mod, hc]
    unfold WORD
    omega
  · intro hle hW
    have hd : dec32 p.nFreeFrames = p.nFreeFrames - 1 := dec32_of_pos _ (by omega) hW
    rw [mark_used_count _ _ _ _ (by simp only; omega) (by simp only; omega)]
    simp only [hd]
    omega
  · intro q hq
    refine ⟨?_, ?_, ?_⟩
    · rw [mark_used_outside q _ _ _ _ b (by simpa using hq) (by omega)]
      apply get_state_set_hos p q hq
      rw [get_state_bitmap p q hq]
      simpa using h3 0 hn
    · intro g hg1 hg2
      apply mark_used_inside q _ _ _ _ g (by simpa using hq) (by omega) (by omega)
      rw [get_state_set_state_ne p q hq mem b g _ (by omega), get_state_bitmap p q hq]
      have := h3 (g - b) (by omega)
      rwa [show b + (g - b) = g by omega] at this
    · intro g hg
      rw [mark_used_outside q _ _ _ _ g (by simpa using hq) (by omega),
        get_state_set_state_ne p q hq mem b g _ (by omega)]

/-! ## `release_frames` -/

/-- Freeing one allocated frame of the pool keeps the invariant. -/
theorem consistent_free_step (p : ContFramePool) (mem : Memory) (f : Nat)
    (hc : Consistent p mem) (h1 : p.base_frame_no ≤ f) (h2 : f < p.base_frame_no + p.nframes)
    (hs : get_state p mem f ≠ some FrameState.Free) :
    Consistent { p with nFreeFrames := inc32 p.nFreeFrames }
      (set_state p mem f FrameState.Free) := by
  obtain ⟨hwf, hcnt, hstop⟩ := hc
  have hnew : countFree p mem + 1 =
      countFree { p with nFreeFrames := inc32 p.nFreeFrames }
        (set_state p mem f FrameState.Free) := by
    apply countFree_block _ p _ mem f 1 rfl rfl h1 (by simpa using h2)
    · intro g hg
      exact (get_state_set_state_ne p _ rfl mem f g _ (by omega)).symm
    · intro g hg1 hg2
      have : g = f := by omega
      subst this
      exact get_state_set_free p _ rfl mem g
    · intro g hg1 hg2
      have : g = f := by omega
      subst this
      exact hs
  have hle := countFree_le { p with nFreeFrames := inc32 p.nFreeFrames }
    (set_state p mem f FrameState.Free)
  simp only at hle
  refine ⟨hwf, ?_, ?_⟩
  · simp only
    rw [inc32_of_lt _ (by omega), hcnt]
    exact hnew
  · have hne := get_state_set_state_ne p { p with nFreeFrames := inc32 p.nFreeFrames } rfl mem f
      (p.base_frame_no + p.nframes) FrameState.Free (by omega)
    simp only at hne ⊢
    rw [hne]
    exact hstop

/-- From a consistent pool the sweep ends inside the pool and keeps the
invariant. -/
theorem release_sweep_consistent :
    ∀ (fuel : Nat) (p : ContFramePool) (mem : Memory) (curr : Nat),
      Consistent p mem → p.base_frame_no ≤ curr → curr ≤ p.base_frame_no + p.nframes →
      p.base_frame_no + p.nframes - curr < fuel →
      ∃ p2 mem2, release_sweep fuel p mem curr = some (p2, mem2) ∧ Consistent p2 mem2 ∧
        p2.base_frame_no = p.base_frame_no ∧ p2.nframes = p.nframes ∧
        p2.bitmap = p.bitmap ∧ p2.info_frame_no = p.info_frame_no := by
  intro fuel
  induction fuel with
  | zero => intro p mem curr _ _ _ h; omega
  | succ k ih =>
    intro p mem curr hc h1 h2 h3
    rw [release_sweep]
    by_cases hcond : get_state p mem curr ≠ some FrameState.HoS
        ∧ get_state p mem curr ≠ some FrameState.Free
    · rw [if_pos hcond]
      have hlt : curr < p.base_frame_no + p.nframes := by
        rcases Nat.lt_or_ge curr (p.base_frame_no + p.nframes) with h | h
        · exact h
        · have : curr = p.base_frame_no + p.nframes := by omega
          subst this
          rcases hc.2.2 with h | h
          · exact absurd h hcond.2
          · exact absurd h hcond.1
      have hwf := hc.1
      have hstep := consistent_free_step p mem curr hc h1 hlt hcond.2
      have e : (curr + 1) % WORD = curr + 1 := Nat.mod_eq_of_lt (by omega)
      rw [e]
      obtain ⟨p2, mem2, hr, hc2, hb, hn, hbm, hinf⟩ :=
        ih _ _ (curr + 1) hstep (by simp only; omega) (by simp only; omega)
          (by simp only; omega)
      exact ⟨p2, mem2, hr, hc2, hb, hn, hbm, hinf⟩
    · rw [if_neg hcond]
      exact ⟨p, mem, rfl, hc, rfl, rfl, rfl, rfl⟩

theorem owns_iff (p : ContFramePool) (f : Nat) :
    p.owns f = true ↔ p.base_frame_no ≤ f ∧ f < p.limit := by
  unfold owns
  simp

/-- The release of a frame of a consistent pool returns and keeps the
invariant. -/
theorem release_in_consistent (p : ContFramePool) (mem : Memory) (f : Nat)
    (hc : Consistent p mem) (ho : p.owns f = true) :
    ∃ p2 mem2, release_in p mem f = some (p2, mem2) ∧ Consistent p2 mem2 ∧
      p2.base_frame_no = p.base_frame_no ∧ p2.nframes = p.nframes ∧
      p2.bitmap = p.bitmap ∧ p2.info_frame_no = p.info_frame_no := by
  rw [owns_iff, limit_eq p hc.1] at ho
  unfold release_in
  by_cases hh : get_state p mem f = some FrameState.HoS
  · rw [if_pos hh]
    have hstep := consistent_free_step p mem f hc ho.1 ho.2 (by rw [hh]; simp)
    have hwf := hc.1
    have e : (f + 1) % WORD = f + 1 := Nat.mod_eq_of_lt (by omega)
    rw [e]
    apply release_sweep_consistent WORD _ _ (f + 1) hstep (by simp only; omega)
      (by simp only; omega) (by simp only; omega)
  · rw [if_neg hh]
    exact ⟨p, mem, rfl, hc, rfl, rfl, rfl, rfl⟩

theorem release_frames_single (p : ContFramePool) (mem : Memory) (f : Nat) :
    release_frames [p] mem f =
      if p.owns f then (release_in p mem f).map (fun r => ([r.1], r.2))
      else some ([p], mem) := by
  unfold release_frames
  simp only [List.reverse_cons, List.reverse_nil, List.nil_append, release_walk]
  split_ifs
  · cases release_in p mem f <;> simp
  · simp

/-- The release of any frame number keeps the invariant of a consistent
pool that is alone in the registry. -/
theorem release_frames_consistent (p : ContFramePool) (mem : Memory) (f : Nat)
    (hc : Consistent p mem) :
    ∃ p2 mem2, release_frames [p] mem f = some ([p2], mem2) ∧ Consistent p2 mem2 := by
  rw [release_frames_single]
  by_cases ho : p.owns f = true
  · rw [if_pos ho]
    obtain ⟨p2, mem2, hr, hc2, _⟩ := release_in_consistent p mem f hc ho
    exact ⟨p2, mem2, by rw [hr]; rfl, hc2⟩
  · rw [if_neg ho]
    exact ⟨p, mem, rfl, hc⟩

/-! ## The constructor -/

theorem countFree_all_free (p : ContFramePool) (mem : Memory)
    (h : ∀ g, p.base_frame_no ≤ g → g < p.base_frame_no + p.nframes →
      get_state p mem g = some FrameState.Free) :
    countFree p mem = p.nframes := by
  have hb := length_filter_range_block
    (fun i => decide (get_state p mem (p.base_frame_no + i) = some FrameState.Free))
    (fun _ => false) 0 p.nframes p.nframes (by omega)
    (by intro i hi hc; omega)
    (by
      intro i _ hi
      refine ⟨?_, rfl⟩
      simpa using h (p.base_frame_no + i) (by omega) (by omega))
  unfold countFree
  simp only [List.filter_false, List.length_nil] at hb
  omega

/-- One marking step of the constructor (`set_state` to Used or HoS on frame
`i`, with the counter lowered when `i >= base_frame_no`) on a frame below
the end of the pool. -/
theorem mark_step (p : ContFramePool) (mem : Memory) (i : Nat) (s : FrameState)
    (hs : s = FrameState.Used ∨ s = FrameState.HoS)
    (hwf : p.base_frame_no + p.nframes < WORD) (hi : i < p.base_frame_no + p.nframes)
    (hcnt : p.nFreeFrames = countFree p mem)
    (hfree : ∀ g, i ≤ g → p.base_frame_no ≤ g → g < p.base_frame_no + p.nframes →
      get_state p mem g = some FrameState.Free) :
    (if i ≥ p.base_frame_no then { p with nFreeFrames := dec32 p.nFreeFrames } else p).nFreeFrames
      = countFree (if i ≥ p.base_frame_no then { p with nFreeFrames := dec32 p.nFreeFrames }
          else p) (set_state p mem i s) := by
  by_cases hib : i ≥ p.base_frame_no
  · rw [if_pos hib]
    have hfi := hfree i (le_refl _) hib hi
    have hq : ∀ (m : Memory) (g : Nat),
        get_state { p with nFreeFrames := dec32 p.nFreeFrames } m g = get_state p m g :=
      fun m g => get_state_bitmap p { p with nFreeFrames := dec32 p.nFreeFrames } rfl m g
    have hnf : get_state { p with nFreeFrames := dec32 p.nFreeFrames } (set_state p mem i s) i
        ≠ some FrameState.Free := by
      rw [hq]
      rcases hs with hs | hs
      · subst hs
        rw [get_state_set_used p p rfl mem i hfi]
        simp
      · subst hs
        rw [get_state_set_hos p p rfl mem i hfi]
        simp
    have he : i + 1 ≤ p.base_frame_no + p.nframes := hi
    have hblk := countFree_block p { p with nFreeFrames := dec32 p.nFreeFrames } mem
      (set_state p mem i s) i 1 rfl rfl hib he
      (by
        intro g hg
        rw [hq]
        exact get_state_set_state_ne p p rfl mem i g s (by omega))
      (by
        intro g h1 h2
        have : g = i := by omega
        subst this
        exact hfi)
      (by
        intro g h1 h2
        have : g = i := by omega
        subst this
        exact hnf)
    have hle := countFree_le p mem
    have hd : dec32 p.nFreeFrames = p.nFreeFrames - 1 :=
      dec32_of_pos _ (by omega) (by omega)
    exact hd.trans (by omega)
  · rw [if_neg hib]
    rw [hcnt]
    symm
    apply countFree_congr p p _ _ rfl rfl
    intro g h1 h2
    exact get_state_set_state_ne p p rfl mem i g s (by omega)

theorem mark_info_spec : ∀ (k i : Nat) (p : ContFramePool) (mem : Memory),
    p.base_frame_no + p.nframes < WORD → i + k ≤ p.base_frame_no + p.nframes →
    p.nFreeFrames = countFree p mem →
    (∀ g, i ≤ g → p.base_frame_no ≤ g → g < p.base_frame_no + p.nframes →
      get_state p mem g = some FrameState.Free) →
    (mark_info k i p mem).1.nFreeFrames = countFree (mark_info k i p mem).1 (mark_info k i p mem).2
    ∧ (mark_info k i p mem).1.base_frame_no = p.base_frame_no
    ∧ (mark_info k i p mem).1.nframes = p.nframes
    ∧ (mark_info k i p mem).1.bitmap = p.bitmap
    ∧ (mark_info k i p mem).1.info_frame_no = p.info_frame_no
    ∧ ∀ g, (g < i ∨ i + k ≤ g) →
        get_state p (mark_info k i p mem).2 g = get_state p mem g := by
  intro k
  induction k with
  | zero =>
    intro i p mem _ _ hcnt _
    exact ⟨hcnt, rfl, rfl, rfl, rfl, fun _ _ => rfl⟩
  | succ k ih =>
    intro i p mem hwf hik hcnt hfree
    rw [mark_info]
    have hstep := mark_step p mem i FrameState.Used (Or.inl rfl) hwf (by omega) hcnt hfree
    have hfields : (if i ≥ p.base_frame_no then { p with nFreeFrames := dec32 p.nFreeFrames }
          else p).base_frame_no = p.base_frame_no ∧
        (if i ≥ p.base_frame_no then { p with nFreeFrames := dec32 p.nFreeFrames }
          else p).nframes = p.nframes ∧
        (if i ≥ p.base_frame_no then { p with nFreeFrames := dec32 p.nFreeFrames }
          else p).bitmap = p.bitmap ∧
        (if i ≥ p.base_frame_no then { p with nFreeFrames := dec32 p.nFreeFrames }
          else p).info_frame_no = p.info_frame_no := by
      split_ifs <;> exact ⟨rfl, rfl, rfl, rfl⟩
    obtain ⟨hf1, hf2, hf3, hf4⟩ := hfields
    have hrec := ih (i + 1)
      (if i ≥ p.base_frame_no then { p with nFreeFrames := dec32 p.nFreeFrames } else p)
      (set_state p mem i FrameState.Used) (by rw [hf1, hf2]; exact hwf)
      (by rw [hf1, hf2]; omega) hstep
      (by
        intro g h1 h2 h3
        rw [hf1] at h2
        rw [hf1, hf2] at h3
        rw [get_state_set_state_ne p _ hf3 mem i g _ (by omega), get_state_bitmap p _ hf3]
        exact hfree g (by omega) h2 h3)
    obtain ⟨r1, r2, r3, r4, r5, r6⟩ := hrec
    refine ⟨r1, by rw [r2, hf1], by rw [r3, hf2], by rw [r4, hf3], by rw [r5, hf4], ?_⟩
    intro g hg
    have h6 := r6 g (by omega)
    rw [get_state_bitmap p _ hf3, get_state_bitmap p _ hf3,
      get_state_set_state_ne p p rfl mem i g _ (by omega)] at h6
    exact h6

/-- The constructor on a pool inside the 32-bit frame space whose marked
info frames all lie below the end of the pool: the fields, the counter
invariant, the frames left Free and the cells left untouched. -/
theorem construct_spec (mem : Memory) (base n info : Nat) (hwf : base + n < WORD)
    (hi : info < base + n) (hk : info + needed_info_frames n ≤ base + n) :
    (construct mem base n info).1.base_frame_no = base ∧
    (construct mem base n info).1.nframes = n ∧
    (construct mem base n info).1.info_frame_no = info ∧
    (construct mem base n info).1.bitmap =
      (if info = 0 then (base * FRAME_SIZE) % WORD else (info * FRAME_SIZE) % WORD) ∧
    (construct mem base n info).1.nFreeFrames =
      countFree (construct mem base n info).1 (construct mem base n info).2 ∧
    (∀ g, info < g → info + needed_info_frames n ≤ g → base ≤ g → g < base + n →
      get_state (construct mem base n info).1 (construct mem base n info).2 g
        = some FrameState.Free) ∧
    (∀ g, base + n ≤ g →
      get_state (construct mem base n info).1 (construct mem base n info).2 g
        = get_state (construct mem base n info).1 mem g) := by
  let p0 : ContFramePool :=
    { base_frame_no := base, nframes := n, nFreeFrames := n, info_frame_no := info,
      bitmap := if info = 0 then (base * FRAME_SIZE) % WORD else (info * FRAME_SIZE) % WORD }
  let mem1 : Memory := init_free p0 n base mem
  let p1 : ContFramePool :=
    if info ≥ p0.base_frame_no then { p0 with nFreeFrames := dec32 p0.nFreeFrames } else p0
  let mem2 : Memory := set_state p0 mem1 info FrameState.HoS
  have hwf0 : p0.base_frame_no + p0.nframes < WORD := hwf
  have hlim : p0.limit - p0.base_frame_no = n := by
    rw [limit_eq p0 hwf0]
    show base + n - base = n
    omega
  have e1 : (info + 1) % WORD = info + 1 := Nat.mod_eq_of_lt (by omega)
  have e2 : (info + needed_info_frames n) % WORD = info + needed_info_frames n :=
    Nat.mod_eq_of_lt (by omega)
  have hc : construct mem base n info =
      mark_info (info + needed_info_frames n - (info + 1)) (info + 1) p1 mem2 := by
    unfold construct
    simp only [e1, e2]
    rw [hlim]
  have hfree1 : ∀ g, base ≤ g → g < base + n → get_state p0 mem1 g = some FrameState.Free :=
    fun g h1 h2 => init_free_inside p0 p0 rfl n base mem g h1 h2
  have hcnt1 : p0.nFreeFrames = countFree p0 mem1 :=
    (countFree_all_free p0 mem1 hfree1).symm
  have hstep : p1.nFreeFrames = countFree p1 mem2 :=
    mark_step p0 mem1 info FrameState.HoS (Or.inr rfl) hwf0 hi hcnt1
      (fun g _ h2 h3 => hfree1 g h2 h3)
  have hf : p1.base_frame_no = base ∧ p1.nframes = n ∧ p1.bitmap = p0.bitmap ∧
      p1.info_frame_no = info := by
    by_cases h : info ≥ p0.base_frame_no
    · have hp : p1 = { p0 with nFreeFrames := dec32 p0.nFreeFrames } := if_pos h
      rw [hp]
      exact ⟨rfl, rfl, rfl, rfl⟩
    · have hp : p1 = p0 := if_neg h
      rw [hp]
      exact ⟨rfl, rfl, rfl, rfl⟩
  obtain ⟨hf1, hf2, hf3, hf4⟩ := hf
  have hfree2 : ∀ g, info + 1 ≤ g → p1.base_frame_no ≤ g → g < p1.base_frame_no + p1.nframes →
      get_state p1 mem2 g = some FrameState.Free := by
    intro g h1 h2 h3
    rw [hf1] at h2
    rw [hf1, hf2] at h3
    rw [get_state_bitmap p0 p1 hf3]
    show get_state p0 (set_state p0 mem1 info FrameState.HoS) g = _
    rw [get_state_set_state_ne p0 p0 rfl mem1 info g _ (by omega)]
    exact hfree1 g h2 h3
  obtain ⟨r1, r2, r3, r4, r5, r6⟩ := mark_info_spec (info + needed_info_frames n - (info + 1))
    (info + 1) p1 mem2 (by rw [hf1, hf2]; exact hwf) (by rw [hf1, hf2]; omega) hstep hfree2
  rw [hc]
  refine ⟨by rw [r2, hf1], by rw [r3, hf2], by rw [r5, hf4], by rw [r4, hf3], r1, ?_, ?_⟩
  · intro g h1 h2 h3 h4
    rw [get_state_bitmap p1 _ r4, r6 g (by omega)]
    exact hfree2 g (by omega) (by rw [hf1]; exact h3) (by rw [hf1, hf2]; exact h4)
  · intro g hg
    rw [get_state_bitmap p1 _ r4, r6 g (by omega), get_state_bitmap p1 _ r4,
      get_state_bitmap p0 p1 hf3, get_state_bitmap p0 p1 hf3]
    show get_state p0 (set_state p0 mem1 info FrameState.HoS) g = _
    rw [get_state_set_state_ne p0 p0 rfl mem1 info g _ (by omega)]
    exact init_free_outside p0 p0 rfl n base mem g (by omega)

theorem get_frames_consistent (p : ContFramePool) (mem : Memory) (n : Nat)
    (hc : Consistent p mem) :
    Consistent (get_frames p mem n).2.1 (get_frames p mem n).2.2 := by
  obtain ⟨hwf, hcnt, hstop⟩ := hc
  by_cases hlt : p.nFreeFrames < n
  · rw [(get_frames_fail p mem n).1 hlt]
    exact ⟨hwf, hcnt, hstop⟩
  · by_cases hex : 0 < n ∧ ∃ s, FreeRunAt p mem n s
    · obtain ⟨hn, hex⟩ := hex
      obtain ⟨s, hfind, hrun, _⟩ := find_run_some p mem n hn hwf hex
      have hle := countFree_le p mem
      obtain ⟨_, g2, g3⟩ := get_frames_of_find p mem n s hn hwf (by omega) (by omega) hfind hrun
      obtain ⟨hr1, hr2, hr3⟩ := hrun
      have hb : (get_frames p mem n).2.1.bitmap = p.bitmap := by rw [g2]
      have hbase : (get_frames p mem n).2.1.base_frame_no = p.base_frame_no := by rw [g2]
      have hnf : (get_frames p mem n).2.1.nframes = p.nframes := by rw [g2]
      obtain ⟨s1, s2, s3⟩ := g3 (get_frames p mem n).2.1 hb
      have hblk := countFree_block p (get_frames p mem n).2.1 mem (get_frames p mem n).2.2 s n
        hbase hnf hr1 hr2
        (by
          intro g hg
          rw [s3 g hg]
          exact get_state_bitmap p _ hb mem g)
        (by
          intro g h1 h2
          have := hr3 (g - s) (by omega)
          rwa [show s + (g - s) = g by omega] at this)
        (by
          intro g h1 h2
          by_cases hgs : g = s
          · subst hgs
            rw [s1]; simp
          · rw [s2 g (by omega) h2]; simp)
      refine ⟨by rw [hbase, hnf]; exact hwf, ?_, ?_⟩
      · have : (get_frames p mem n).2.1.nFreeFrames = p.nFreeFrames - n := by rw [g2]
        omega
      · rw [hbase, hnf, s3 _ (by omega), get_state_bitmap p _ hb]
        exact hstop
    · have hfail : get_frames p mem n = (WORD - 1, p, mem) := by
        rcases Nat.eq_zero_or_pos n with h0 | h0
        · subst h0
          unfold get_frames
          rw [if_neg hlt, find_run_zero]
        · exact (get_frames_fail p mem n).2 (by omega) (fun h => hex ⟨h0, h⟩)
      rw [hfail]
      exact ⟨hwf, hcnt, hstop⟩

theorem mark_inaccessible_consistent (p : ContFramePool) (mem : Memory) (b n : Nat)
    (hc : Consistent p mem) (hn : 0 < n) (hrun : FreeRunAt p mem n b) :
    Consistent (mark_inaccessible p mem b n).1 (mark_inaccessible p mem b n).2 := by
  obtain ⟨hwf, hcnt, hstop⟩ := hc
  have hge := countFree_ge_run p mem n b hrun
  have hle := countFree_le p mem
  obtain ⟨hb, hbase, hnf, _, _, hcount, hst⟩ := mark_inaccessible_of_free p mem b n hwf hn hrun
  obtain ⟨hr1, hr2, hr3⟩ := hrun
  obtain ⟨s1, s2, s3⟩ := hst (mark_inaccessible p mem b n).1 hb
  have hblk := countFree_block p (mark_inaccessible p mem b n).1 mem
    (mark_inaccessible p mem b n).2 b n hbase hnf hr1 hr2
    (by
      intro g hg
      rw [s3 g hg]
      exact get_state_bitmap p _ hb mem g)
    (by
      intro g h1 h2
      have := hr3 (g - b) (by omega)
      rwa [show b + (g - b) = g by omega] at this)
    (by
      intro g h1 h2
      by_cases hgs : g = b
      · subst hgs
        rw [s1]; simp
      · rw [s2 g (by omega) h2]; simp)
  have hcc := hcount (by omega) (by omega)
  refine ⟨by rw [hbase, hnf]; exact hwf, by omega, ?_⟩
  rw [hbase, hnf, s3 _ (by omega), get_state_bitmap p _ hb]
  exact hstop

theorem reachable_consistent (p : ContFramePool) (mem : Memory) (h : Reachable p mem) :
    Consistent p mem := by
  induction h with
  | construct mem base n info hwf hi hk hstop =>
    obtain ⟨c1, c2, _, _, c5, _, _⟩ := construct_spec mem base n info hwf hi hk
    refine ⟨by rw [c1, c2]; exact hwf, c5, ?_⟩
    rw [c1, c2]
    exact hstop
  | get_frames p mem n _ ih => exact get_frames_consistent p mem n ih
  | mark_inaccessible p mem b n _ hn hrun ih =>
    exact mark_inaccessible_consistent p mem b n ih hn hrun
  | release_frames p mem f p2 mem2 _ hrel ih =>
    obtain ⟨p3, mem3, hr, hc3⟩ := release_frames_consistent p mem f ih
    rw [hr] at hrel
    simp only [Option.some.injEq, Prod.mk.injEq, List.cons.injEq, and_true] at hrel
    obtain ⟨h1, h2⟩ := hrel
    subst h1 h2
    exact hc3

/-- `get_frames` when the first fit is known to be `s`. -/
theorem get_frames_at (p : ContFramePool) (mem : Memory) (n s : Nat) (hn : 0 < n)
    (hwf : p.base_frame_no + p.nframes < WORD) (hle : n ≤ p.nFreeFrames)
    (hW : p.nFreeFrames < WORD) (hrun : FreeRunAt p mem n s)
    (hmin : ∀ t, p.base_frame_no ≤ t → t < s → ¬ RunFree p mem t n) :
    (get_frames p mem n).1 = s ∧
    (get_frames p mem n).2.1 = { p with nFreeFrames := p.nFreeFrames - n } ∧
    ∀ q : ContFramePool, q.bitmap = p.bitmap →
      get_state q (get_frames p mem n).2.2 s = some FrameState.HoS ∧
      (∀ g, s < g → g < s + n → get_state q (get_frames p mem n).2.2 g = some FrameState.Used) ∧
      (∀ g, (g < s ∨ s + n ≤ g) → get_state q (get_frames p mem n).2.2 g = get_state q mem g) := by
  obtain ⟨s0, hfind, hrun0, hmin0⟩ := find_run_some p mem n hn hwf ⟨s, hrun⟩
  have hs : s0 = s := by
    rcases Nat.lt_trichotomy s0 s with h | h | h
    · exact absurd hrun0.2.2 (hmin s0 hrun0.1 h)
    · exact h
    · exact absurd hrun.2.2 (hmin0 s hrun.1 h)
  subst hs
  exact get_frames_of_find p mem n s0 hn hwf hle hW hfind hrun

/-- The sweep over `m` Used frames followed by a Free or HoS frame. -/
theorem release_sweep_run : ∀ (m fuel : Nat) (p : ContFramePool) (mem : Memory) (curr : Nat),
    m < fuel → curr + m < WORD → p.nFreeFrames + m < WORD →
    (∀ g, curr ≤ g → g < curr + m → get_state p mem g = some FrameState.Used) →
    (get_state p mem (curr + m) = some FrameState.Free ∨
      get_state p mem (curr + m) = some FrameState.HoS) →
    ∃ mem2, release_sweep fuel p mem curr
        = some ({ p with nFreeFrames := p.nFreeFrames + m }, mem2) ∧
      ∀ q : ContFramePool, q.bitmap = p.bitmap →
        (∀ g, curr ≤ g → g < curr + m → get_state q mem2 g = some FrameState.Free) ∧
        (∀ g, (g < curr ∨ curr + m ≤ g) → get_state q mem2 g = get_state q mem g) := by
  intro m
  induction m with
  | zero =>
    intro fuel p mem curr hf _ _ _ hstop
    obtain ⟨k, rfl⟩ : ∃ k, fuel = k + 1 := ⟨fuel - 1, by omega⟩
    refine ⟨mem, ?_, fun q _ => ⟨fun g h1 h2 => by omega, fun g _ => rfl⟩⟩
    rw [release_sweep, if_neg]
    · rfl
    · intro hc
      rcases hstop with h | h
      · exact hc.2 h
      · exact hc.1 h
  | succ m ih =>
    intro fuel p mem curr hf hcw hnw hused hstop
    obtain ⟨k, rfl⟩ : ∃ k, fuel = k + 1 := ⟨fuel - 1, by omega⟩
    have hcur := hused curr (le_refl _) (by omega)
    have e : (curr + 1) % WORD = curr + 1 := Nat.mod_eq_of_lt (by omega)
    have hinc : inc32 p.nFreeFrames = p.nFreeFrames + 1 := inc32_of_lt _ (by omega)
    have hq : ∀ (x : Memory) (g : Nat),
        get_state { p with nFreeFrames := inc32 p.nFreeFrames } x g = get_state p x g :=
      fun x g => get_state_bitmap p { p with nFreeFrames := inc32 p.nFreeFrames } rfl x g
    obtain ⟨mem2, hr, hst⟩ := ih k { p with nFreeFrames := inc32 p.nFreeFrames }
      (set_state p mem curr FrameState.Free) (curr + 1) (by omega) (by omega)
      (by simp only [hinc]; omega)
      (by
        intro g h1 h2
        rw [hq, get_state_set_state_ne p p rfl mem curr g _ (by omega)]
        exact hused g (by omega) (by omega))
      (by
        rw [hq, get_state_set_state_ne p p rfl mem curr _ _ (by omega)]
        rw [show curr + 1 + m = curr + (m + 1) by omega]
        exact hstop)
    refine ⟨mem2, ?_, ?_⟩
    · rw [release_sweep, if_pos (by rw [hcur]; simp), e, hr]
      simp only [hinc]
      rw [show p.nFreeFrames + 1 + m = p.nFreeFrames + (m + 1) by omega]
    · intro q hqb
      obtain ⟨h1, h2⟩ := hst q (by simpa using hqb)
      refine ⟨?_, ?_⟩
      · intro g hg1 hg2
        by_cases hgc : g = curr
        · subst hgc
          rw [h2 g (by omega)]
          exact get_state_set_free p q hqb mem g
        · exact h1 g (by omega) (by omega)
      · intro g hg
        rw [h2 g (by omega)]
        exact get_state_set_state_ne p q hqb mem curr g _ (by omega)

/-- The release of a HoS frame `f` followed by `m` Used frames and then a
Free or HoS frame: `m + 1` frames are freed and counted. -/
theorem release_in_run (p : ContFramePool) (mem : Memory) (f m : Nat)
    (hfw : f + 1 + m < WORD) (hnw : p.nFreeFrames + 1 + m < WORD)
    (hhos : get_state p mem f = some FrameState.HoS)
    (hused : ∀ g, f < g → g < f + 1 + m → get_state p mem g = some FrameState.Used)
    (hstop : get_state p mem (f + 1 + m) = some FrameState.Free ∨
      get_state p mem (f + 1 + m) = some FrameState.HoS) :
    ∃ mem2, release_in p mem f = some ({ p with nFreeFrames := p.nFreeFrames + (m + 1) }, mem2) ∧
      ∀ q : ContFramePool, q.bitmap = p.bitmap →
        (∀ g, f ≤ g → g < f + 1 + m → get_state q mem2 g = some FrameState.Free) ∧
        (∀ g, (g < f ∨ f + 1 + m ≤ g) → get_state q mem2 g = get_state q mem g) := by
  have e : (f + 1) % WORD = f + 1 := Nat.mod_eq_of_lt (by omega)
  have hinc : inc32 p.nFreeFrames = p.nFreeFrames + 1 := inc32_of_lt _ (by omega)
  have hq : ∀ (x : Memory) (g : Nat),
      get_state { p with nFreeFrames := inc32 p.nFreeFrames } x g = get_state p x g :=
    fun x g => get_state_bitmap p { p with nFreeFrames := inc32 p.nFreeFrames } rfl x g
  obtain ⟨mem2, hr, hst⟩ := release_sweep_run m WORD { p with nFreeFrames := inc32 p.nFreeFrames }
    (set_state p mem f FrameState.Free) (f + 1) (by omega) hfw
    (by simp only [hinc]; exact hnw)
    (by
      intro g h1 h2
      rw [hq, get_state_set_state_ne p p rfl mem f g _ (by omega)]
      exact hused g (by omega) h2)
    (by
      rw [hq, get_state_set_state_ne p p rfl mem f _ _ (by omega)]
      exact hstop)
  refine ⟨mem2, ?_, ?_⟩
  · unfold release_in
    rw [if_pos hhos, e, hr]
    simp only [hinc]
    rw [show p.nFreeFrames + 1 + m = p.nFreeFrames + (m + 1) by omega]
  · intro q hqb
    obtain ⟨h1, h2⟩ := hst q (by simpa using hqb)
    refine ⟨?_, ?_⟩
    · intro g hg1 hg2
      by_cases hgc : g = f
      · subst hgc
        rw [h2 g (by omega)]
        exact get_state_set_free p q hqb mem g
      · exact h1 g (by omega) hg2
    · intro g hg
      rw [h2 g (by omega)]
      exact get_state_set_state_ne p q hqb mem f g _ (by omega)

/-! ## Scenario helpers -/

theorem release_walk_noop (mem : Memory) (f : Nat) : ∀ (l : List ContFramePool),
    (∀ p, l.find? (fun p => p.owns f) = some p → get_state p mem f ≠ some FrameState.HoS) →
    release_walk l mem f = some (l, mem) := by
  intro l
  induction l with
  | nil => intro _; rfl
  | cons pool prevs ih =>
    intro h
    rw [release_walk]
    by_cases ho : pool.owns f = true
    · rw [if_pos ho]
      have hne := h pool (by simp [List.find?, ho])
      unfold release_in
      rw [if_neg hne]
      rfl
    · rw [if_neg ho]
      rw [ih (fun p hp => h p (by
        have hf : pool.owns f = false := by simpa using ho
        simp only [List.find?, hf]
        exact hp))]
      rfl

theorem free_frames_mk (a b c d e : Nat) :
    free_frames (ContFramePool.mk a b c d e) = c := rfl

/-- The constructor when all marked info frames lie below the pool: every
frame of the pool is Free, the counter is the frame count, and the cells
from the end of the pool on are untouched. -/
theorem construct_below (mem : Memory) (base n info : Nat) (hwf : base + n < WORD)
    (hi : info < base) (hk : info + needed_info_frames n ≤ base) :
    (construct mem base n info).1.base_frame_no = base ∧
    (construct mem base n info).1.nframes = n ∧
    (construct mem base n info).1.nFreeFrames = n ∧
    (∀ g, base ≤ g → g < base + n →
      get_state (construct mem base n info).1 (construct mem base n info).2 g
        = some FrameState.Free) ∧
    (∀ g, base + n ≤ g →
      get_state (construct mem base n info).1 (construct mem base n info).2 g
        = get_state (construct mem base n info).1 mem g) := by
  obtain ⟨c1, c2, _, _, c5, c6, c7⟩ := construct_spec mem base n info hwf (by omega) (by omega)
  have hall : ∀ g, base ≤ g → g < base + n →
      get_state (construct mem base n info).1 (construct mem base n info).2 g
        = some FrameState.Free := fun g h1 h2 => c6 g (by omega) (by omega) h1 h2
  refine ⟨c1, c2, ?_, hall, c7⟩
  rw [c5, countFree_all_free _ _ (by rw [c1, c2]; exact hall), c2]

theorem construct_bitmap (mem : Memory) (base n info : Nat) :
    (construct mem base n info).1.bitmap =
      (if info = 0 then (base * FRAME_SIZE) % WORD else (info * FRAME_SIZE) % WORD) := by
  have h : ∀ (k i : Nat) (p : ContFramePool) (m : Memory),
      (mark_info k i p m).1.bitmap = p.bitmap := by
    intro k
    induction k with
    | zero => intro i p m; rfl
    | succ k ih =>
      intro i p m
      rw [mark_info, ih]
      split_ifs <;> rfl
  unfold construct
  simp only
  rw [h]
  split_ifs <;> rfl

/-- The small pool over frames 8..15 right after construction on
`strayMem`. -/
theorem stray_pool :
    (construct strayMem 8 8 2).1.base_frame_no = 8 ∧
    (construct strayMem 8 8 2).1.nframes = 8 ∧
    (construct strayMem 8 8 2).1.nFreeFrames = 8 ∧
    (∀ g, 8 ≤ g → g < 16 →
      get_state (construct strayMem 8 8 2).1 (construct strayMem 8 8 2).2 g
        = some FrameState.Free) ∧
    get_state (construct strayMem 8 8 2).1 (construct strayMem 8 8 2).2 16
      = some FrameState.Used ∧
    get_state (construct strayMem 8 8 2).1 (construct strayMem 8 8 2).2 17
      = some FrameState.Free := by
  obtain ⟨c1, c2, c3, c4, c5⟩ := construct_below strayMem 8 8 2 (by decide) (by decide)
    (by decide)
  have cb : (construct strayMem 8 8 2).1.bitmap = 8192 := by
    rw [construct_bitmap]; decide
  refine ⟨c1, c2, c3, c4, ?_, ?_⟩
  · rw [c5 16 (by decide), get_state_eq, cb]; decide
  · rw [c5 17 (by decide), get_state_eq, cb]; decide

/-- What the code does in scenario 2. -/
theorem scenario2_eval (mem : Memory) : scenario2 mem = (4096, 1024, 0) := by
  have hn1 : needed_info_frames 7168 = 1 := by decide
  have hk1 : KERNEL_POOL_START_FRAME = 512 := by decide
  have hk2 : KERNEL_POOL_SIZE = 512 := by decide
  have hp1 : PROCESS_POOL_START_FRAME = 1024 := by decide
  have hp2 : PROCESS_POOL_SIZE = 7168 := by decide
  have hm1 : MEM_HOLE_START_FRAME = 3840 := by decide
  have hm2 : MEM_HOLE_SIZE = 256 := by decide
  unfold scenario2 test_max_alloc setup_pools
  simp only [hn1, hk1, hk2, hp1, hp2, hm1, hm2]
  -- the kernel pool
  obtain ⟨c1, c2, c3, c4, _⟩ :=
    construct_below mem 512 512 0 (by decide) (by decide) (by decide)
  generalize construct mem 512 512 0 = K at *
  obtain ⟨kp, km⟩ := K
  simp only at c1 c2 c3 c4 ⊢
  -- the info frame of the process pool
  obtain ⟨g1, _, _⟩ := get_frames_at kp km 1 512 (by decide) (by rw [c1, c2]; decide)
    (by rw [c3]; decide) (by rw [c3]; decide)
    ⟨by rw [c1], by rw [c1, c2]; decide, fun j hj => c4 _ (by omega) (by omega)⟩
    (by intro t h1 h2; rw [c1] at h1; omega)
  generalize get_frames kp km 1 = G at *
  obtain ⟨r, gp, gm⟩ := G
  simp only at g1 ⊢
  subst g1
  -- the process pool
  obtain ⟨d1, d2, d3, d4, _⟩ :=
    construct_below gm 1024 7168 512 (by decide) (by decide) (by decide)
  generalize construct gm 1024 7168 512 = P at *
  obtain ⟨pp, pm⟩ := P
  simp only at d1 d2 d3 d4 ⊢
  have hwf : pp.base_frame_no + pp.nframes < WORD := by rw [d1, d2]; decide
  -- the memory hole
  obtain ⟨e1, e2, e3, _, _, e6, e7⟩ := mark_inaccessible_of_free pp pm 3840 256 hwf (by decide)
    ⟨by rw [d1]; decide, by rw [d1, d2]; decide, fun j hj => d4 _ (by omega) (by omega)⟩
  have e6 := e6 (by rw [d3]; decide) (by rw [d3]; decide)
  generalize mark_inaccessible pp pm 3840 256 = H at *
  obtain ⟨hp, hm⟩ := H
  simp only at e1 e2 e3 e6 e7 ⊢
  obtain ⟨t1, t2, t3⟩ := e7 hp e1
  have hfreeH : ∀ g, 1024 ≤ g → g < 8192 → (g < 3840 ∨ 4096 ≤ g) →
      get_state hp hm g = some FrameState.Free := by
    intro g h1 h2 h3
    rw [t3 g (by omega), get_state_bitmap pp hp e1]
    exact d4 g h1 h2
  have hcntH : hp.nFreeFrames = 6912 := by omega
  have hwfH : hp.base_frame_no + hp.nframes < WORD := by rw [e2, e3]; exact hwf
  -- get_frames(4096)
  obtain ⟨a1, a2, a3⟩ := get_frames_at hp hm 4096 4096 (by decide) hwfH
    (by rw [hcntH]; decide) (by rw [hcntH]; decide)
    ⟨by rw [e2, d1]; decide, by rw [e2, e3, d1, d2],
      fun j hj => hfreeH _ (by omega) (by omega) (by omega)⟩
    (by
      intro t h1 h2 hr
      rw [e2, d1] at h1
      by_cases ht : t ≤ 3840
      · have := hr (3840 - t) (by omega)
        rw [show t + (3840 - t) = 3840 by omega, t1] at this
        simp at this
      · have := hr 0 (by decide)
        rw [Nat.add_zero, t2 t (by omega) (by omega)] at this
        simp at this)
  obtain ⟨u1, u2, u3⟩ := a3 hp rfl
  generalize get_frames hp hm 4096 = A at *
  obtain ⟨ar, ap, am⟩ := A
  simp only at a1 a2 u1 u2 u3 ⊢
  subst a1 a2
  -- get_frames(2816)
  obtain ⟨b1, b2, _⟩ := get_frames_at { hp with nFreeFrames := hp.nFreeFrames - 4096 } am 2816 1024
    (by decide) hwfH (by simp only; omega) (by simp only; unfold WORD; omega)
    ⟨by show hp.base_frame_no ≤ 1024; rw [e2, d1],
      by show 1024 + 2816 ≤ hp.base_frame_no + hp.nframes; omega,
      fun j hj => by
        rw [get_state_bitmap hp { hp with nFreeFrames := hp.nFreeFrames - 4096 } rfl,
          u3 _ (by omega)]
        exact hfreeH _ (by omega) (by omega) (by omega)⟩
    (by
      intro t h1 h2
      have : hp.base_frame_no ≤ t := h1
      rw [e2, d1] at this
      omega)
  generalize get_frames { hp with nFreeFrames := hp.nFreeFrames - 4096 } am 2816 = B at *
  obtain ⟨br, bp, bm⟩ := B
  simp only at b1 b2 ⊢
  subst b1 b2
  have hz : hp.nFreeFrames - 4096 - 2816 = 0 := by omega
  rw [free_frames_mk, hz]

/-! ## The claims on the frame pool -/

/-- C1: `get_frames` is first-fit.  For a pool inside the 32-bit frame space
whose free counter equals the number of Free frames, and `n >= 1` such that
some run of `n` Free frames lies inside the pool, `get_frames(n)` returns the
smallest frame number `s` of the pool such that frames `s..s+n-1` are all
Free; afterwards frame `s` is HoS, frames `s+1..s+n-1` are Used, the state of
every other frame is unchanged and `free_frames()` is lower by exactly `n`. -/
theorem get_frames_first_fit (p : ContFramePool) (mem : Memory) (n : Nat)
    (hwf : p.base_frame_no + p.nframes < WORD) (hcnt : p.nFreeFrames = countFree p mem)
    (hn : 1 ≤ n) (hrun : ∃ s, FreeRunAt p mem n s) :
    FreeRunAt p mem n (get_frames p mem n).1 ∧
    (∀ t, p.base_frame_no ≤ t → RunFree p mem t n → (get_frames p mem n).1 ≤ t) ∧
    get_state (get_frames p mem n).2.1 (get_frames p mem n).2.2 (get_frames p mem n).1
      = some FrameState.HoS ∧
    (∀ g, (get_frames p mem n).1 < g → g < (get_frames p mem n).1 + n →
      get_state (get_frames p mem n).2.1 (get_frames p mem n).2.2 g = some FrameState.Used) ∧
    (∀ g, (g < (get_frames p mem n).1 ∨ (get_frames p mem n).1 + n ≤ g) →
      get_state (get_frames p mem n).2.1 (get_frames p mem n).2.2 g = get_state p mem g) ∧
    free_frames (get_frames p mem n).2.1 + n = free_frames p := by
  obtain ⟨s, hfind, hfr, hmin⟩ := find_run_some p mem n hn hwf hrun
  have hge := countFree_ge_run p mem n s hfr
  have hle := countFree_le p mem
  obtain ⟨g1, g2, g3⟩ := get_frames_of_find p mem n s hn hwf (by omega) (by omega) hfind hfr
  have hb : (get_frames p mem n).2.1.bitmap = p.bitmap := by rw [g2]
  obtain ⟨s1, s2, s3⟩ := g3 (get_frames p mem n).2.1 hb
  rw [g1]
  refine ⟨hfr, ?_, s1, s2, ?_, ?_⟩
  · intro t ht hrt
    by_contra hlt
    exact hmin t ht (by omega) hrt
  · intro g hg
    rw [s3 g hg]
    exact get_state_bitmap p _ hb mem g
  · rw [g2]
    show p.nFreeFrames - n + n = p.nFreeFrames
    omega

/-- Witness of C1 on `demoPool`: three frames are found at frame 10. -/
theorem get_frames_first_fit_witness :
    FreeRunAt demoPool demoMem 3 (get_frames demoPool demoMem 3).1 ∧
    free_frames (get_frames demoPool demoMem 3).2.1 + 3 = free_frames demoPool :=
  have h := get_frames_first_fit demoPool demoMem 3 (by decide) (by decide) (by decide)
    ⟨10, by unfold FreeRunAt RunFree; decide⟩
  ⟨h.1, h.2.2.2.2.2⟩

/-- C2 at the failing input: on a pool over frames 8..15 constructed on
`strayMem` (info region in frame 2, the cell past the pool reading Used),
`free_frames()` is 8, `get_frames(8)` returns 8, and `release_frames(8)`
right afterwards leaves `free_frames()` at 9 instead of 8: the sweep frees
and counts the cell of frame 16, past the end of the pool. -/
theorem release_after_get_overcounts : alloc_release strayMem = (8, 8, some [9]) := by
  obtain ⟨c1, c2, c3, c4, c5, c6⟩ := stray_pool
  unfold alloc_release
  simp only
  generalize construct strayMem 8 8 2 = K at *
  obtain ⟨kp, km⟩ := K
  simp only at c1 c2 c3 c4 c5 c6 ⊢
  have hwf : kp.base_frame_no + kp.nframes < WORD := by rw [c1, c2]; decide
  obtain ⟨g1, g2, g3⟩ := get_frames_at kp km 8 8 (by decide) hwf
    (by rw [c3]) (by rw [c3]; decide)
    ⟨by rw [c1], by rw [c1, c2], fun j hj => c4 _ (by omega) (by omega)⟩
    (by intro t h1 h2; rw [c1] at h1; omega)
  obtain ⟨s1, s2, s3⟩ := g3 kp rfl
  generalize get_frames kp km 8 = G at *
  obtain ⟨r, gp, gm⟩ := G
  simp only at g1 g2 s1 s2 s3 ⊢
  subst g1 g2
  have hq : ∀ (x : Memory) (g : Nat),
      get_state { kp with nFreeFrames := kp.nFreeFrames - 8 } x g = get_state kp x g :=
    fun x g => get_state_bitmap kp { kp with nFreeFrames := kp.nFreeFrames - 8 } rfl x g
  have hown : owns { kp with nFreeFrames := kp.nFreeFrames - 8 } 8 = true := by
    rw [owns_iff, limit_eq { kp with nFreeFrames := kp.nFreeFrames - 8 } hwf]
    show kp.base_frame_no ≤ 8 ∧ 8 < kp.base_frame_no + kp.nframes
    rw [c1, c2]
    decide
  obtain ⟨mem2, hr, _⟩ := release_in_run { kp with nFreeFrames := kp.nFreeFrames - 8 } gm 8 8
    (by decide) (by simp only; rw [c3]; decide) (by rw [hq]; exact s1)
    (by
      intro g h1 h2
      rw [hq]
      by_cases hg : g < 16
      · exact s2 g h1 (by omega)
      · have : g = 16 := by omega
        subst this
        rw [s3 16 (by omega)]
        exact c5)
    (by
      left
      rw [hq, s3 17 (by omega)]
      exact c6)
  rw [release_frames_single, if_pos hown, hr]
  simp only [Option.map, List.map, free_frames_mk, free_frames, c3]

/-- C3 at the failing input: on the same pool, two successful
`get_frames(4)` calls followed by the release of both returned frames leave
`free_frames()` at 9, whereas it was 8 before the first call. -/
theorem round_trip_overcounts : round_trip strayMem = (8, some [9]) := by
  obtain ⟨c1, c2, c3, c4, c5, c6⟩ := stray_pool
  unfold round_trip
  simp only
  generalize construct strayMem 8 8 2 = K at *
  obtain ⟨kp, km⟩ := K
  simp only at c1 c2 c3 c4 c5 c6 ⊢
  have hwf : kp.base_frame_no + kp.nframes < WORD := by rw [c1, c2]; decide
  -- first allocation: frames 8..11
  obtain ⟨a1, a2, a3⟩ := get_frames_at kp km 4 8 (by decide) hwf
    (by rw [c3]; decide) (by rw [c3]; decide)
    ⟨by rw [c1], by rw [c1, c2]; decide, fun j hj => c4 _ (by omega) (by omega)⟩
    (by intro t h1 h2; rw [c1] at h1; omega)
  obtain ⟨s1, s2, s3⟩ := a3 kp rfl
  generalize get_frames kp km 4 = A at *
  obtain ⟨ar, ap, am⟩ := A
  simp only at a1 a2 s1 s2 s3 ⊢
  subst a1 a2
  have hqa : ∀ (x : Memory) (g : Nat),
      get_state { kp with nFreeFrames := kp.nFreeFrames - 4 } x g = get_state kp x g :=
    fun x g => get_state_bitmap kp { kp with nFreeFrames := kp.nFreeFrames - 4 } rfl x g
  -- second allocation: frames 12..15
  obtain ⟨b1, b2, b3⟩ := get_frames_at { kp with nFreeFrames := kp.nFreeFrames - 4 } am 4 12
    (by decide) hwf (by simp only; omega) (by simp only; rw [c3]; decide)
    ⟨by show kp.base_frame_no ≤ 12; omega,
      by show 12 + 4 ≤ kp.base_frame_no + kp.nframes; omega,
      fun j hj => by
        rw [hqa, s3 _ (by omega)]
        exact c4 _ (by omega) (by omega)⟩
    (by
      intro t h1 h2 hr
      have hb : kp.base_frame_no ≤ t := h1
      rw [c1] at hb
      have h0 := hr 0 (by decide)
      rw [Nat.add_zero, hqa] at h0
      by_cases ht : t = 8
      · subst ht
        rw [s1] at h0
        simp at h0
      · rw [s2 t (by omega) (by omega)] at h0
        simp at h0)
  obtain ⟨u1, u2, u3⟩ := b3 kp rfl
  generalize get_frames { kp with nFreeFrames := kp.nFreeFrames - 4 } am 4 = B at *
  obtain ⟨br, bp, bm⟩ := B
  simp only at b1 b2 u1 u2 u3 ⊢
  subst b1 b2
  -- release of frame 12: frames 12..15 and the stray cell of frame 16
  have hqb : ∀ (x : Memory) (g : Nat),
      get_state { kp with nFreeFrames := kp.nFreeFrames - 4 - 4 } x g = get_state kp x g :=
    fun x g => get_state_bitmap kp { kp with nFreeFrames := kp.nFreeFrames - 4 - 4 } rfl x g
  have hown1 : owns { kp with nFreeFrames := kp.nFreeFrames - 4 - 4 } 12 = true := by
    rw [owns_iff, limit_eq { kp with nFreeFrames := kp.nFreeFrames - 4 - 4 } hwf]
    show kp.base_frame_no ≤ 12 ∧ 12 < kp.base_frame_no + kp.nframes
    omega
  obtain ⟨mem2, hr1, hst1⟩ := release_in_run { kp with nFreeFrames := kp.nFreeFrames - 4 - 4 }
    bm 12 4 (by decide) (by simp only; rw [c3]; decide) (by rw [hqb]; exact u1)
    (by
      intro g h1 h2
      rw [hqb]
      by_cases hg : g < 16
      · exact u2 g h1 (by omega)
      · have : g = 16 := by omega
        subst this
        rw [u3 16 (by omega), s3 16 (by omega)]
        exact c5)
    (by
      left
      rw [hqb, u3 17 (by omega), s3 17 (by omega)]
      exact c6)
  obtain ⟨v1, v2⟩ := hst1 kp rfl
  rw [release_frames_single, if_pos hown1, hr1]
  simp only [Option.map, Option.bind]
  -- release of frame 8: frames 8..11
  have hqc : ∀ (x : Memory) (g : Nat),
      get_state { kp with nFreeFrames := kp.nFreeFrames - 4 - 4 + (4 + 1) } x g
        = get_state kp x g :=
    fun x g => get_state_bitmap kp
      { kp with nFreeFrames := kp.nFreeFrames - 4 - 4 + (4 + 1) } rfl x g
  have hown2 : owns { kp with nFreeFrames := kp.nFreeFrames - 4 - 4 + (4 + 1) } 8 = true := by
    rw [owns_iff, limit_eq { kp with nFreeFrames := kp.nFreeFrames - 4 - 4 + (4 + 1) } hwf]
    show kp.base_frame_no ≤ 8 ∧ 8 < kp.base_frame_no + kp.nframes
    omega
  obtain ⟨mem3, hr2, _⟩ := release_in_run
    { kp with nFreeFrames := kp.nFreeFrames - 4 - 4 + (4 + 1) } mem2 8 3 (by decide)
    (by simp only; rw [c3]; decide)
    (by rw [hqc, v2 8 (by omega), u3 8 (by omega)]; exact s1)
    (by
      intro g h1 h2
      rw [hqc, v2 g (by omega), u3 g (by omega)]
      exact s2 g h1 (by omega))
    (by
      left
      rw [hqc]
      exact v1 12 (by omega) (by omega))
  rw [release_frames_single, if_pos hown2, hr2]
  simp only [Option.map, List.map, free_frames_mk, free_frames, c3]

/-- Counterexample to C4: marking frame 8 of a fresh pool over frames 8..15
inaccessible twice lowers the counter twice (to 6) while seven frames are
still Free. -/
theorem free_counter_broken_by_double_mark :
    (mark_twice (fun _ => 0)).1 ≠ (mark_twice (fun _ => 0)).2 := by
  decide

/-- C4 (amended): in every state reached from a constructor call (pool
inside the 32-bit frame space, every frame the constructor marks below
`base + nframes`, the cell of frame `base + nframes` reading Free or HoS
afterwards) by any sequence of `get_frames` calls, `mark_inaccessible` calls
on runs of `n >= 1` Free frames inside the pool, and `release_frames` calls
with the pool alone in the registry, `free_frames()` equals the number of
frames of `[base, base+nframes)` whose state is Free. -/
theorem reachable_free_counter (p : ContFramePool) (mem : Memory) (h : Reachable p mem) :
    free_frames p = countFree p mem :=
  (reachable_consistent p mem h).2.1

/-- Witness of C4 (amended): a fresh pool over frames 8..15 after
`get_frames(3)`. -/
theorem reachable_free_counter_witness :
    free_frames (get_frames (construct (fun _ => 0) 8 8 2).1 (construct (fun _ => 0) 8 8 2).2 3).2.1
      = countFree (get_frames (construct (fun _ => 0) 8 8 2).1 (construct (fun _ => 0) 8 8 2).2 3).2.1
          (get_frames (construct (fun _ => 0) 8 8 2).1 (construct (fun _ => 0) 8 8 2).2 3).2.2 :=
  reachable_free_counter _ _
    (Reachable.get_frames _ _ 3
      (Reachable.construct (fun _ => 0) 8 8 2 (by decide) (by decide) (by decide)
        (Or.inl (by decide))))

/-- C5 at the failing input: for a pool constructed with base frame 512, 512
frames and info frame 0, on any memory, `free_frames()` is 512 right after
construction (not 511), `get_frames(10)` returns 512 (not 513) and leaves
`free_frames()` at 502, and `release_frames(513)` changes nothing, frame 513
being Used and not HoS: the constructor marks frame 0 instead of the first
frame of the pool and does not count it. -/
theorem scenario1_actual (mem : Memory) : scenario1 mem = (512, 512, 502, some [502]) := by
  obtain ⟨c1, c2, c3, c4, c5⟩ :=
    construct_below mem 512 512 0 (by decide) (by decide) (by decide)
  unfold scenario1
  simp only
  generalize construct mem 512 512 0 = K at *
  obtain ⟨kp, km⟩ := K
  simp only at c1 c2 c3 c4 c5 ⊢
  obtain ⟨g1, g2, g3⟩ := get_frames_at kp km 10 512 (by decide) (by rw [c1, c2]; decide)
    (by rw [c3]; decide) (by rw [c3]; decide)
    ⟨by rw [c1], by rw [c1, c2]; decide, fun j hj => c4 _ (by omega) (by omega)⟩
    (by intro t h1 h2; rw [c1] at h1; omega)
  obtain ⟨s1, s2, s3⟩ := g3 kp rfl
  generalize get_frames kp km 10 = G at *
  obtain ⟨r, gp, gm⟩ := G
  simp only at g1 g2 s1 s2 s3 ⊢
  subst g1 g2
  have hown : owns { kp with nFreeFrames := kp.nFreeFrames - 10 } 513 = true := by
    rw [owns_iff, limit_eq _ (by show kp.base_frame_no + kp.nframes < WORD; rw [c1, c2]; decide)]
    show kp.base_frame_no ≤ 513 ∧ 513 < kp.base_frame_no + kp.nframes
    rw [c1, c2]
    decide
  have hst : get_state { kp with nFreeFrames := kp.nFreeFrames - 10 } gm 513
      ≠ some FrameState.HoS := by
    rw [get_state_bitmap kp { kp with nFreeFrames := kp.nFreeFrames - 10 } rfl,
      s2 513 (by decide) (by decide)]
    simp
  rw [release_frames_single, if_pos hown]
  unfold release_in
  rw [if_neg hst]
  simp [free_frames, c3]

/-- Counterexample to C6: on zeroed memory the two `get_frames` calls of
scenario 2 do not return 1024 and then 4096. -/
theorem scenario2_not_as_claimed : scenario2 (fun _ => 0) ≠ (1024, 4096, 0) := by
  rw [scenario2_eval]
  decide

/-- C6 (amended): with the kernel pool over frames [512,1024) (info frame 0)
and the process pool over frames [1024,8192) whose info frame comes from the
kernel pool, after `process.mark_inaccessible(3840, 256)` the call
`process.get_frames(4096)` returns 4096, the following
`process.get_frames(2816)` returns 1024, and `process.free_frames()` is then
0, on any memory. -/
theorem scenario2_actual (mem : Memory) : scenario2 mem = (4096, 1024, 0) :=
  scenario2_eval mem

/-- C7: the failure exits of `get_frames` are free of side effects and
report a sentinel.  If `free_frames() < n` the call returns 0; if
`free_frames() >= n` but the pool holds no run of `n` consecutive Free frames
it returns `(unsigned long)-1 = 4294967295`; in both cases the pool object
(free counter included) and the memory (every frame state) are returned
unchanged. -/
theorem get_frames_failure (p : ContFramePool) (mem : Memory) (n : Nat) :
    (free_frames p < n → get_frames p mem n = (0, p, mem)) ∧
    (n ≤ free_frames p → (¬ ∃ s, FreeRunAt p mem n s) →
      get_frames p mem n = (4294967295, p, mem)) :=
  get_frames_fail p mem n

/-- Witness of C7: seven frames from `demoPool` (six Free), and three
frames in a row from `fragPool`. -/
theorem get_frames_failure_witness :
    get_frames demoPool demoMem 7 = (0, demoPool, demoMem) ∧
    get_frames fragPool fragMem 3 = (4294967295, fragPool, fragMem) :=
  ⟨(get_frames_failure demoPool demoMem 7).1 (by decide),
   (get_frames_failure fragPool fragMem 3).2 (by decide) (by
      rintro ⟨s, h1, h2, h3⟩
      have hs : s < 14 := by
        have : fragPool.base_frame_no + fragPool.nframes = 16 := rfl
        omega
      have hall : ∀ t, t < 14 → 8 ≤ t → ¬ (∀ j, j < 3 → get_state fragPool fragMem (t + j)
          = some FrameState.Free) := by decide
      exact hall s hs h1 h3)⟩

/-- C8: `release_frames` is a silent no-op on bad input.  The call returns
with every pool object (free counters included) and the memory (every frame
state) unchanged when the frame lies in the range of no registered pool
(also when the registry is empty), and when the state of the frame in the
pool the registry walk stops at is not HoS. -/
theorem release_frames_noop (pools : List ContFramePool) (mem : Memory) (f : Nat) :
    ((∀ p ∈ pools, ¬ (p.base_frame_no ≤ f ∧ f < p.base_frame_no + p.nframes)) →
      release_frames pools mem f = some (pools, mem)) ∧
    (∀ p, owner pools f = some p → get_state p mem f ≠ some FrameState.HoS →
      release_frames pools mem f = some (pools, mem)) := by
  constructor
  · intro h
    unfold release_frames
    rw [release_walk_noop mem f pools.reverse]
    · simp
    · intro p hp
      exfalso
      have hmem := List.mem_of_find?_eq_some hp
      have hown := List.find?_some hp
      rw [List.mem_reverse] at hmem
      rw [owns_iff] at hown
      have := limit_le p
      exact h p hmem ⟨hown.1, by omega⟩
  · intro p hp hne
    unfold release_frames
    rw [release_walk_noop mem f pools.reverse]
    · simp
    · intro q hq
      unfold owner at hp
      rw [hp] at hq
      cases hq
      exact hne

/-- Witness of C8: an empty registry, a frame of no pool, and a Used
frame. -/
theorem release_frames_noop_witness :
    release_frames [] demoMem 8 = some ([], demoMem) ∧
    release_frames [demoPool] demoMem 100 = some ([demoPool], demoMem) ∧
    release_frames [demoPool] demoMem 9 = some ([demoPool], demoMem) :=
  ⟨(release_frames_noop [] demoMem 8).1 (by simp),
   (release_frames_noop [demoPool] demoMem 100).1 (by decide),
   (release_frames_noop [demoPool] demoMem 9).2 demoPool (by decide) (by decide)⟩

/-- C9: `mark_inaccessible` behaves like an allocation at a chosen base.  For
a pool inside the 32-bit frame space, `n >= 1` and a frame `b` such that
`[b, b+n)` lies inside the pool and all its frames are Free, after
`mark_inaccessible(b, n)` frame `b` is HoS, frames `b+1..b+n-1` are Used,
every other frame's state is unchanged, and the 32-bit free counter is lower
by `n`: modulo `2^32` always, and exactly whenever it was at least `n`. -/
theorem mark_inaccessible_spec (p : ContFramePool) (mem : Memory) (b n : Nat)
    (hwf : p.base_frame_no + p.nframes < WORD) (hn : 1 ≤ n) (hrun : FreeRunAt p mem n b) :
    get_state (mark_inaccessible p mem b n).1 (mark_inaccessible p mem b n).2 b
      = some FrameState.HoS ∧
    (∀ g, b < g → g < b + n →
      get_state (mark_inaccessible p mem b n).1 (mark_inaccessible p mem b n).2 g
        = some FrameState.Used) ∧
    (∀ g, (g < b ∨ b + n ≤ g) →
      get_state (mark_inaccessible p mem b n).1 (mark_inaccessible p mem b n).2 g
        = get_state p mem g) ∧
    (free_frames (mark_inaccessible p mem b n).1 + n) % WORD = free_frames p % WORD ∧
    (n ≤ free_frames p → free_frames p < WORD →
      free_frames (mark_inaccessible p mem b n).1 + n = free_frames p) := by
  obtain ⟨hb, _, _, _, hmod, hexact, hst⟩ := mark_inaccessible_of_free p mem b n hwf hn hrun
  obtain ⟨s1, s2, s3⟩ := hst (mark_inaccessible p mem b n).1 hb
  refine ⟨s1, s2, ?_, hmod, hexact⟩
  intro g hg
  rw [s3 g hg]
  exact get_state_bitmap p _ hb mem g

/-- Witness of C9: frames 12..14 of `demoPool`. -/
theorem mark_inaccessible_spec_witness :
    get_state (mark_inaccessible demoPool demoMem 12 3).1 (mark_inaccessible demoPool demoMem 12 3).2
      12 = some FrameState.HoS ∧
    free_frames (mark_inaccessible demoPool demoMem 12 3).1 + 3 = free_frames demoPool :=
  have h := mark_inaccessible_spec demoPool demoMem 12 3 (by decide) (by decide)
    (by unfold FreeRunAt RunFree; decide)
  ⟨h.1, h.2.2.2.2 (by decide) (by decide)⟩

/-- C10 at the failing input: for 4096 frames the code returns 0 info
frames, whereas `ceil(4096 / (FRAME_SIZE * 4))` is 1; more generally the
result multiplied by 16384 does not reach `n` here. -/
theorem needed_info_frames_4096 :
    needed_info_frames 4096 = 0 ∧ ¬ (needed_info_frames 4096 * (FRAME_SIZE * 4) ≥ 4096) := by
  decide

end ContFramePool

end Mp2

namespace Mp4

namespace PageTable

variable {σ : Type}

theorem testBit_1023 (i : Nat) : (1023 : Nat).testBit i = decide (i < 10) := by
  have := Nat.testBit_two_pow_sub_one 10 i
  simpa using this

theorem testBit_of_lt_word (addr : Nat) (h : addr < WORD) (k : Nat) (hk : 32 ≤ k) :
    addr.testBit k = false := by
  apply Nat.testBit_lt_two_pow
  calc addr < 2 ^ 32 := by simpa [WORD] using h
    _ ≤ 2 ^ k := Nat.pow_le_pow_right (by norm_num) hk

theorem pte_formula (addr : Nat) (h : addr < WORD) :
    PTE_address addr = (1023 <<< 22) ||| ((addr >>> 22) <<< 12) ||| ((addr >>> 12) <<< 2) := by
  unfold PTE_address
  apply Nat.eq_of_testBit_eq
  intro i
  simp only [Nat.testBit_or, Nat.testBit_shiftLeft, Nat.testBit_shiftRight, Nat.testBit_and,
    testBit_1023]
  by_cases h12 : 12 ≤ i
  · by_cases h22 : 22 ≤ i
    · by_cases h32 : 32 ≤ i
      · have e1 := testBit_of_lt_word addr h (22 + (i - 12)) (by omega)
        have e2 := testBit_of_lt_word addr h (12 + (i - 2)) (by omega)
        simp [e1, e2]
      · have d1 : decide (i ≥ 22) = true := by simpa using h22
        have d2 : decide (i - 22 < 10) = true := by simp; omega
        simp [d1, d2]
    · have d1 : decide (i ≥ 22) = false := by simpa using h22
      have d2 : decide (i ≥ 12) = true := by simpa using h12
      have d3 : decide (i - 12 < 10) = true := by simp; omega
      have d4 : decide (i - 2 < 10) = false := by simp; omega
      have d5 : decide (i ≥ 2) = true := by simp; omega
      have e : 12 + (i - 2) = 22 + (i - 12) := by omega
      simp [d1, d2, d3, d4, d5, e]
  · have d1 : decide (i ≥ 22) = false := by simp; omega
    have d2 : decide (i ≥ 12) = false := by simpa using h12
    have d4 : (i ≥ 2) → decide (i - 2 < 10) = true := by intro _; simp; omega
    by_cases h2 : 2 ≤ i
    · simp [d1, d2, d4 h2]
    · have d5 : decide (i ≥ 2) = false := by simpa using h2
      simp [d1, d2, d5]

theorem writeWord_same (mem : Memory) (a v : Nat) : writeWord mem a v a = v := by
  simp [writeWord]

theorem writeWord_ne (mem : Memory) (a v x : Nat) (h : x ≠ a) : writeWord mem a v x = mem x := by
  simp [writeWord, h]

theorem map_first_4mb_spec (pt : Nat) : ∀ (k i address : Nat) (mem : Memory),
    address + 4096 * k < WORD →
    (∀ j, i ≤ j → j < i + k →
      map_first_4mb pt k i address mem (pt + 4 * j) = (address + 4096 * (j - i)) ||| 3) ∧
    (∀ a, (∀ j, i ≤ j → j < i + k → a ≠ pt + 4 * j) →
      map_first_4mb pt k i address mem a = mem a) := by
  intro k
  induction k with
  | zero =>
    intro i address mem _
    exact ⟨fun j h1 h2 => by omega, fun a _ => rfl⟩
  | succ k ih =>
    intro i address mem hw
    have e : (address + 4096) % WORD = address + 4096 := Nat.mod_eq_of_lt (by omega)
    obtain ⟨h1, h2⟩ := ih (i + 1) (address + 4096)
      (writeWord mem (pt + 4 * i) (address ||| 3)) (by omega)
    rw [map_first_4mb, e]
    refine ⟨?_, ?_⟩
    · intro j hj1 hj2
      by_cases hji : j = i
      · subst hji
        rw [h2 _ (by intro j' h3 h4; omega), writeWord_same]
        simp
      · rw [h1 j (by omega) (by omega)]
        rw [show address + 4096 + 4096 * (j - (i + 1)) = address + 4096 * (j - i) by omega]
    · intro a ha
      rw [h2 a (by intro j h3 h4; exact ha j (by omega) (by omega)),
        writeWord_ne _ _ _ _ (ha i (le_refl _) (by omega))]

theorem clear_directory_spec (pd : Nat) : ∀ (k i : Nat) (mem : Memory),
    (∀ j, i ≤ j → j < i + k → clear_directory pd k i mem (pd + 4 * j) = 2) ∧
    (∀ a, (∀ j, i ≤ j → j < i + k → a ≠ pd + 4 * j) → clear_directory pd k i mem a = mem a) := by
  intro k
  induction k with
  | zero =>
    intro i mem
    exact ⟨fun j h1 h2 => by omega, fun a _ => rfl⟩
  | succ k ih =>
    intro i mem
    obtain ⟨h1, h2⟩ := ih (i + 1) (writeWord mem (pd + 4 * i) (0 ||| 2))
    rw [clear_directory]
    refine ⟨?_, ?_⟩
    · intro j hj1 hj2
      by_cases hji : j = i
      · subst hji
        rw [h2 _ (by intro j' h3 h4; omega), writeWord_same]
        rfl
      · exact h1 j (by omega) (by omega)
    · intro a ha
      rw [h2 a (by intro j h3 h4; exact ha j (by omega) (by omega)),
        writeWord_ne _ _ _ _ (ha i (le_refl _) (by omega))]

theorem frame_address_aligned (f : Nat) : ((4096 * f) % WORD) % 4096 = 0 := by
  unfold WORD
  omega

theorem frame_address_lt (f : Nat) : (4096 * f) % WORD + 4096 ≤ WORD := by
  unfold WORD
  omega

theorem init_tables_spec (D T : Nat) (mem : Memory) (hD : D % 4096 = 0) (hT : T % 4096 = 0)
    (hne : D ≠ T) :
    (∀ i, i < 1024 → init_tables D T mem (T + 4 * i) = (i * 4096) ||| 3) ∧
    init_tables D T mem (D + 4 * 0) = T ||| 3 ∧
    init_tables D T mem (D + 4 * 1023) = D ||| 3 ∧
    (∀ i, 1 ≤ i → i ≤ 1022 → init_tables D T mem (D + 4 * i) = 2) := by
  have hsep : ∀ i j, i < 1024 → j < 1024 → D + 4 * i ≠ T + 4 * j := by
    intro i j hi hj
    omega
  obtain ⟨m1, m2⟩ := map_first_4mb_spec T 1024 0 0 mem (by unfold WORD; omega)
  unfold init_tables
  refine ⟨?_, ?_, ?_, ?_⟩
  · intro i hi
    rw [(clear_directory_spec D 1022 1 _).2 _
        (by intro j h1 h2; exact (hsep j i (by omega) hi).symm),
      writeWord_ne _ _ _ _ (hsep 1023 i (by omega) hi).symm,
      writeWord_ne _ _ _ _ (hsep 1023 i (by omega) hi).symm,
      writeWord_ne _ _ _ _ (hsep 0 i (by omega) hi).symm,
      writeWord_ne _ _ _ _ (hsep 0 i (by omega) hi).symm,
      m1 i (by omega) (by omega)]
    simp [Nat.mul_comm]
  · rw [(clear_directory_spec D 1022 1 _).2 _ (by intro j h1 h2; omega),
      writeWord_ne _ _ _ _ (by omega), writeWord_ne _ _ _ _ (by omega),
      writeWord_same, writeWord_same]
  · rw [(clear_directory_spec D 1022 1 _).2 _ (by intro j h1 h2; omega), writeWord_same,
      writeWord_same]
  · intro i h1 h2
    exact (clear_directory_spec D 1022 1 _).1 i h1 (by omega)

theorem construct_mem (pool : FramePool σ) (s : PageTable σ) :
    (construct pool s).mem = init_tables (directory_of pool s) (table_of pool s) s.mem := by
  simp only [construct, directory_of, table_of]

/-- The page number of a frame-aligned entry: `((e >> 12) << 12) / 4096`. -/
theorem frame_of_entry (e : Nat) : ((e >>> 12) <<< 12) / 4096 = e >>> 12 := by
  rw [Nat.shiftLeft_eq]
  exact Nat.mul_div_cancel _ (by norm_num)

/-- Clearing the present bit of an entry in which it is set. -/
theorem xor_one_of_present (e : Nat) (h : e &&& 1 = 1) :
    (e ^^^ 1) &&& 1 = 0 ∧ ∀ i, 0 < i → (e ^^^ 1).testBit i = e.testBit i := by
  constructor
  · rw [Nat.and_one_is_mod] at h ⊢
    have h0 : (e ^^^ 1).testBit 0 = false := by
      rw [Nat.testBit_xor]
      have : e.testBit 0 = true := by
        rw [Nat.testBit_zero]
        simp [h]
      simp [this]
    rw [Nat.testBit_zero] at h0
    simpa using h0
  · intro i hi
    rw [Nat.testBit_xor]
    have : (1 : Nat).testBit i = false := by
      rcases Bool.eq_false_or_eq_true ((1 : Nat).testBit i) with h1 | h1
      · rw [Nat.testBit_one_eq_true_iff_self_eq_zero] at h1
        omega
      · exact h1
    simp [this]

/-- A protection fault (error-code bit 0 set) changes nothing. -/
theorem handle_fault_protection (pool : FramePool σ) (s : PageTable σ)
    (err_code attempted_address : Nat) (h : (err_code &&& (1 <<< 0)) ≠ 0) :
    handle_fault pool s err_code attempted_address = s := by
  unfold handle_fault
  simp only [h, ne_eq, not_false_eq_true, decide_True, Bool.not_true, Bool.false_eq_true,
    if_false, ite_self]

/-- With no pool registered every fault is absorbed without a change. -/
theorem handle_fault_no_pool (pool : FramePool σ) (s : PageTable σ)
    (err_code attempted_address : Nat) (h : s.registry = []) :
    handle_fault pool s err_code attempted_address = s := by
  unfold handle_fault
  simp only [h, in_pool, Bool.not_false, if_true]

/-- The words of `bootMem` are the words that the constructor writes into
its two frames: directory entry `k` is seen at `0xFFFFF000 + 4k`, entry `k`
of the initial page table at `0xFFC00000 + 4k`. -/
theorem bootMem_spec (k : Nat) (hk : k < 1024) :
    bootMem (0xFFFFF000 + 4 * k) = (construct bumpPool rawPaging).mem (0x400000 + 4 * k) ∧
    bootMem (0xFFC00000 + 4 * k) = (construct bumpPool rawPaging).mem (0x401000 + 4 * k) := by
  have hD : directory_of bumpPool rawPaging = 0x400000 := by decide
  have hT : table_of bumpPool rawPaging = 0x401000 := by decide
  obtain ⟨h1, h2, h3, h4⟩ := init_tables_spec 0x400000 0x401000 rawPaging.mem
    (by decide) (by decide) (by decide)
  rw [construct_mem, hD, hT]
  constructor
  · by_cases c0 : k = 0
    · subst c0; rw [h2]; decide
    · by_cases c1 : k = 1023
      · subst c1; rw [h3]; decide
      · rw [h4 k (by omega) (by omega)]
        unfold bootMem
        have a1 : ¬ (0xFFFFF000 + 4 * k = 0xFFFFF000) := by omega
        have a2 : ¬ (0xFFFFF000 + 4 * k = 0xFFFFFFFC) := by omega
        have a3 : 0xFFFFF000 ≤ 0xFFFFF000 + 4 * k := by omega
        rw [if_neg a1, if_neg a2, if_pos a3]
  · rw [h1 k hk]
    unfold bootMem
    have a1 : ¬ (0xFFC00000 + 4 * k = 0xFFFFF000) := by omega
    have a2 : ¬ (0xFFC00000 + 4 * k = 0xFFFFFFFC) := by omega
    have a3 : ¬ (0xFFFFF000 ≤ 0xFFC00000 + 4 * k) := by omega
    have a4 : 0xFFC00000 ≤ 0xFFC00000 + 4 * k ∧ 0xFFC00000 + 4 * k < 0xFFC01000 := by omega
    have a5 : (0xFFC00000 + 4 * k - 0xFFC00000) / 4 = k := by omega
    rw [if_neg a1, if_neg a2, if_neg a3, if_pos a4, a5]

/-- C11 at the failing input: for the address `0x00400000` (top ten bits 1,
low ten bits 0) the code returns `0xFFFFF000`, the address of directory
entry 0, where the formula of the claim gives `0xFFFFF004`, the address of
directory entry 1: the code selects the entry with `addr & 1023`. -/
theorem PDE_address_low_bits :
    PDE_address 0x400000 = 0xFFFFF000 ∧ PDE_slot 0x400000 = 0xFFFFF004 := by
  decide

/-- C12: for every 32-bit address, `PTE_address(addr)` equals
`(1023<<22) | ((addr>>22)<<12) | ((addr>>12)<<2)`; no operand exceeds 32
bits. -/
theorem PTE_address_formula (addr : Nat) (h : addr < WORD) :
    PTE_address addr = (1023 <<< 22) ||| ((addr >>> 22) <<< 12) ||| ((addr >>> 12) <<< 2) ∧
    PTE_address addr < WORD := by
  refine ⟨pte_formula addr h, ?_⟩
  unfold PTE_address
  have h1 : (1023 <<< 22 : Nat) < 2 ^ 32 := by decide
  have h2 : ((addr >>> 22) &&& 1023) <<< 12 < 2 ^ 32 := by
    have : (addr >>> 22) &&& 1023 ≤ 1023 := Nat.and_le_right
    rw [Nat.shiftLeft_eq]
    omega
  have h3 : ((addr >>> 12) &&& 1023) <<< 2 < 2 ^ 32 := by
    have : (addr >>> 12) &&& 1023 ≤ 1023 := Nat.and_le_right
    rw [Nat.shiftLeft_eq]
    omega
  exact Nat.or_lt_two_pow (Nat.or_lt_two_pow h1 h2) h3

/-- Witness of C12 at the address `0x40002345`. -/
theorem PTE_address_formula_witness :
    PTE_address 0x40002345 =
      (1023 <<< 22) ||| ((0x40002345 >>> 22) <<< 12) ||| ((0x40002345 >>> 12) <<< 2) :=
  (PTE_address_formula 0x40002345 (by decide)).1

/-- C13 at the failing input: a not-present fault at `0x40000000`, the base
of the registered pool, on the freshly constructed paging structures.  The
directory entry of the address (index 256) is not present and the handler
leaves it as it is; it tests the present entry 0 instead, obtains a single
frame, and stores it with flags 3 in the page-table entry of the address. -/
theorem handle_fault_skips_directory_entry :
    in_pool bootPaging.registry 0x40000000 = true ∧
    bootPaging.mem (PDE_slot 0x40000000) &&& 1 = 0 ∧
    (handle_fault bumpPool bootPaging 2 0x40000000).mem (PDE_slot 0x40000000) = 2 ∧
    PDE_address 0x40000000 = PDE_slot 0 ∧
    (handle_fault bumpPool bootPaging 2 0x40000000).process_mem_pool
      = (bumpPool.get_frames bootPaging.process_mem_pool 1).2 ∧
    (handle_fault bumpPool bootPaging 2 0x40000000).mem (PTE_address 0x40000000)
      = (4096 * 1026) ||| 3 := by
  decide

/-- C14 at the failing input: a not-present fault at `0x20000000`, which
lies outside the range of the only registered pool.  `is_legitimate`
accepts the address, and the handler obtains a frame and stores it in the
page-table entry of the address. -/
theorem handle_fault_maps_outside_pools :
    (∀ p ∈ bootPaging.registry,
      ¬ (p.base_address ≤ 0x20000000 ∧ 0x20000000 < p.base_address + p.size)) ∧
    (handle_fault bumpPool bootPaging 0 0x20000000).process_mem_pool
      ≠ bootPaging.process_mem_pool ∧
    bootPaging.mem (PTE_address 0x20000000) = 0 ∧
    (handle_fault bumpPool bootPaging 0 0x20000000).mem (PTE_address 0x20000000)
      = (4096 * 1026) ||| 3 := by
  decide

/-- C15: after constructing a `PageTable` whose directory and initial page
table are two different frames, entry `i` of the initial page table is
`i*4096 | 3` for every `i` in 0..1023; directory entry 0 is the address of
the initial page table with the flags 3 (present, writable); directory entry
1023 is the directory's own address with the flags 3; and every directory
entry 1..1022 is 2, present bit clear. -/
theorem construct_entries (pool : FramePool σ) (s : PageTable σ)
    (hne : directory_of pool s ≠ table_of pool s) :
    (construct pool s).page_directory = directory_of pool s ∧
    (∀ i, i < 1024 → (construct pool s).mem (table_of pool s + 4 * i) = (i * 4096) ||| 3) ∧
    (construct pool s).mem (directory_of pool s + 4 * 0) = table_of pool s ||| 3 ∧
    (construct pool s).mem (directory_of pool s + 4 * 1023) = directory_of pool s ||| 3 ∧
    (∀ i, 1 ≤ i → i ≤ 1022 →
      (construct pool s).mem (directory_of pool s + 4 * i) = 2 ∧
      (construct pool s).mem (directory_of pool s + 4 * i) &&& 1 = 0) := by
  obtain ⟨h1, h2, h3, h4⟩ := init_tables_spec (directory_of pool s) (table_of pool s) s.mem
    (frame_address_aligned _) (frame_address_aligned _) hne
  rw [construct_mem]
  refine ⟨by simp only [construct, directory_of], h1, h2, h3, ?_⟩
  intro i hi1 hi2
  rw [h4 i hi1 hi2]
  exact ⟨rfl, by decide⟩

/-- Witness of C15: the constructor on `rawPaging`, which takes frames 1024
and 1025. -/
theorem construct_entries_witness :
    (construct bumpPool rawPaging).page_directory = 0x400000 ∧
    (construct bumpPool rawPaging).mem (0x401000 + 4 * 5) = (5 * 4096) ||| 3 ∧
    (construct bumpPool rawPaging).mem (0x400000 + 4 * 0) = 0x401000 ||| 3 :=
  have h := construct_entries bumpPool rawPaging (by decide)
  ⟨h.1, h.2.1 5 (by decide), h.2.2.1⟩

/-- C16: `free_page(p)` looks at the word at `PTE_address(4096 * p)`.  If
its present bit is set, the frame number stored in it (`entry >> 12`) is
passed to `release_frames`, the present bit of the entry is cleared, all its
other bits and all other words are unchanged (and the directory is loaded
again); if the present bit is clear, the paging system and the frame pool
are unchanged. -/
theorem free_page_spec (pool : FramePool σ) (s : PageTable σ) (p : Nat) :
    (s.mem (PTE_address ((4096 * p) % WORD)) &&& 1 = 1 →
      (free_page pool s p).process_mem_pool
        = pool.release_frames s.process_mem_pool (s.mem (PTE_address ((4096 * p) % WORD)) >>> 12) ∧
      (free_page pool s p).mem (PTE_address ((4096 * p) % WORD)) &&& 1 = 0 ∧
      (∀ i, 0 < i → ((free_page pool s p).mem (PTE_address ((4096 * p) % WORD))).testBit i
        = (s.mem (PTE_address ((4096 * p) % WORD))).testBit i) ∧
      (∀ a, a ≠ PTE_address ((4096 * p) % WORD) → (free_page pool s p).mem a = s.mem a) ∧
      (free_page pool s p).cr3 = s.page_directory) ∧
    (s.mem (PTE_address ((4096 * p) % WORD)) &&& 1 = 0 → free_page pool s p = s) := by
  constructor
  · intro h
    obtain ⟨x1, x2⟩ := xor_one_of_present _ h
    have hf : free_page pool s p = load
        { s with
          process_mem_pool := pool.release_frames s.process_mem_pool
            (((s.mem (PTE_address ((4096 * p) % WORD)) >>> 12) <<< 12) / 4096),
          mem := writeWord s.mem (PTE_address ((4096 * p) % WORD))
            (s.mem (PTE_address ((4096 * p) % WORD)) ^^^ 1) } := by
      unfold free_page
      simp only [h, if_true]
    rw [hf]
    refine ⟨?_, ?_, ?_, ?_, rfl⟩
    · simp only [load, frame_of_entry]
    · simp only [load, writeWord_same]
      exact x1
    · intro i hi
      simp only [load, writeWord_same]
      exact x2 i hi
    · intro a ha
      simp only [load]
      exact writeWord_ne _ _ _ _ ha
  · intro h
    unfold free_page
    simp only [h]
    rfl

/-- Witness of C16: page 5 of the identity map is present, the page at
`0x40000000` is not. -/
theorem free_page_spec_witness :
    (free_page bumpPool bootPaging 5).mem (PTE_address ((4096 * 5) % WORD)) &&& 1 = 0 ∧
    free_page bumpPool bootPaging 0x40000 = bootPaging :=
  ⟨((free_page_spec bumpPool bootPaging 5).1 (by decide)).2.1,
   (free_page_spec bumpPool bootPaging 0x40000).2 (by decide)⟩

end PageTable

end Mp4

namespace Mp4

namespace VMPool

variable {σ : Type}

theorem sum_range_update (f : Nat → Nat) (v : Nat) (k : Nat) :
    ∀ n, k < n →
      ((List.range n).map (fun x => if x = k then v else f x)).sum + f k
        = ((List.range n).map f).sum + v := by
  intro n
  induction n with
  | zero => intro h; omega
  | succ n ih =>
      intro h
      rw [List.range_succ, List.map_append, List.map_append, List.sum_append, List.sum_append]
      simp only [List.map_cons, List.map_nil, List.sum_cons, List.sum_nil, Nat.add_zero]
      by_cases hk : k = n
      · subst hk
        have hpre : (List.range k).map (fun x => if x = k then v else f x)
            = (List.range k).map f := by
          apply List.map_congr_left
          intro x hx
          have : x < k := List.mem_range.mp hx
          have hne : x ≠ k := by omega
          simp only [hne, if_false]
        rw [hpre]
        simp only [if_true]
        omega
      · have hlt : k < n := by omega
        have := ih hlt
        have hne : n ≠ k := fun e => hk e.symm
        simp only [hne, if_false]
        omega

theorem le_sum_range (f : Nat → Nat) (k : Nat) :
    ∀ n, k < n → f k ≤ ((List.range n).map f).sum := by
  intro n
  induction n with
  | zero => intro h; omega
  | succ n ih =>
      intro h
      rw [List.range_succ, List.map_append, List.sum_append]
      simp only [List.map_cons, List.map_nil, List.sum_cons, List.sum_nil, Nat.add_zero]
      by_cases hk : k = n
      · subst hk; omega
      · have := ih (by omega); omega

theorem tableSum_set (w : region → Nat) (t : Nat → region) (k : Nat) (r : region)
    (hk : k < 512) :
    tableSum w (setEntry t k r) + w (t k) = tableSum w t + w r := by
  unfold tableSum
  have h := sum_range_update (fun x => w (t x)) (w r) k 512 hk
  have he : (fun x => w (setEntry t k r x)) = (fun x => if x = k then w r else w (t x)) := by
    funext x
    unfold setEntry
    by_cases hx : x = k
    · simp only [hx, if_true]
    · simp only [hx, if_false]
  rw [he]
  exact h

theorem le_tableSum (w : region → Nat) (t : Nat → region) (k : Nat) (hk : k < 512) :
    w (t k) ≤ tableSum w t :=
  le_sum_range (fun x => w (t x)) k 512 hk

theorem tableSum_congr (w : region → Nat) (t u : Nat → region)
    (h : ∀ k, k < 512 → t k = u k) : tableSum w t = tableSum w u := by
  unfold tableSum
  have he : (List.range 512).map (fun k => w (t k)) = (List.range 512).map (fun k => w (u k)) := by
    apply List.map_congr_left
    intro x hx
    rw [h x (List.mem_range.mp hx)]
  rw [he]

theorem tableSum_zero (w : region → Nat) (t : Nat → region)
    (h : ∀ k, k < 512 → w (t k) = 0) : tableSum w t = 0 := by
  unfold tableSum
  apply List.sum_eq_zero
  intro x hx
  obtain ⟨k, hk, rfl⟩ := List.mem_map.mp hx
  exact h k (List.mem_range.mp hk)

theorem rounded_spec (n : Nat) (h : n ≤ WORD - 4096) :
    rounded n = (max 1 ((n + 4095) / 4096), 4096 * max 1 ((n + 4095) / 4096)) := by
  unfold rounded
  unfold WORD at *
  by_cases h1 : 4096 ≥ n
  · rw [if_pos h1]
    have : (n + 4095) / 4096 ≤ 1 := by omega
    have hm : max 1 ((n + 4095) / 4096) = 1 := by omega
    rw [hm]
  · rw [if_neg h1]
    have hm : max 1 ((n + 4095) / 4096) = (n + 4095) / 4096 := by omega
    rw [hm]
    by_cases h2 : n % 4096 ≠ 0
    · simp only [h2, ne_eq, not_false_eq_true, if_true]
      have e : n / 4096 + 1 = (n + 4095) / 4096 := by omega
      rw [e]
      have : (n + 4095) / 4096 * 4096 < 4294967296 := by omega
      rw [Nat.mod_eq_of_lt this, Nat.mul_comm]
    · have h3 : n % 4096 = 0 := by omega
      simp only [h3, ne_eq, not_true_eq_false, if_false]
      have e : n / 4096 = (n + 4095) / 4096 := by omega
      rw [e]
      have : (n + 4095) / 4096 * 4096 < 4294967296 := by omega
      rw [Nat.mod_eq_of_lt this, Nat.mul_comm]

theorem find_alloc_slot_some (p : VMPool) :
    ∀ k j0 j, find_alloc_slot p k j0 = some j →
      j0 ≤ j ∧ j < j0 + k ∧ (p.alloc_array j).lenght = 0 ∧
      ∀ x, j0 ≤ x → x < j → (p.alloc_array x).lenght ≠ 0 := by
  intro k
  induction k with
  | zero => intro j0 j h; simp [find_alloc_slot] at h
  | succ k ih =>
      intro j0 j h
      unfold find_alloc_slot at h
      by_cases h0 : (p.alloc_array j0).lenght = 0
      · rw [if_pos h0] at h
        have e : j0 = j := Option.some.inj h
        subst e
        exact ⟨Nat.le_refl _, by omega, h0, fun x hx1 hx2 => by omega⟩
      · rw [if_neg h0] at h
        obtain ⟨a, b, c, d⟩ := ih (j0 + 1) j h
        refine ⟨by omega, by omega, c, ?_⟩
        intro x hx1 hx2
        by_cases hx : x = j0
        · subst hx; exact h0
        · exact d x (by omega) hx2

theorem find_alloc_slot_none (p : VMPool) :
    ∀ k j0, find_alloc_slot p k j0 = none →
      ∀ x, j0 ≤ x → x < j0 + k → (p.alloc_array x).lenght ≠ 0 := by
  intro k
  induction k with
  | zero => intro j0 _ x h1 h2; omega
  | succ k ih =>
      intro j0 h x hx1 hx2
      unfold find_alloc_slot at h
      by_cases h0 : (p.alloc_array j0).lenght = 0
      · rw [if_pos h0] at h; exact absurd h (by simp)
      · rw [if_neg h0] at h
        by_cases hx : x = j0
        · subst hx; exact h0
        · exact ih (j0 + 1) h x (by omega) (by omega)

theorem find_alloc_slot_first (p : VMPool) (j : Nat) (hj : j < 512)
    (h0 : (p.alloc_array j).lenght = 0)
    (hfirst : ∀ x, x < j → (p.alloc_array x).lenght ≠ 0) :
    find_alloc_slot p 512 0 = some j := by
  cases h : find_alloc_slot p 512 0 with
  | none => exact absurd h0 (find_alloc_slot_none p 512 0 h j (Nat.zero_le _) (by omega))
  | some j1 =>
      obtain ⟨_, _, c, d⟩ := find_alloc_slot_some p 512 0 j1 h
      have : j1 = j := by
        rcases Nat.lt_trichotomy j1 j with hlt | heq | hgt
        · exact absurd c (hfirst j1 hlt)
        · exact heq
        · exact absurd h0 (d j (Nat.zero_le _) hgt)
      rw [this]

theorem find_free_slot_some (p : VMPool) :
    ∀ k j0 j, find_free_slot p k j0 = some j →
      j0 ≤ j ∧ j < j0 + k ∧ (p.free_array j).lenght = 0 ∧
      ∀ x, j0 ≤ x → x < j → (p.free_array x).lenght ≠ 0 := by
  intro k
  induction k with
  | zero => intro j0 j h; simp [find_free_slot] at h
  | succ k ih =>
      intro j0 j h
      unfold find_free_slot at h
      by_cases h0 : (p.free_array j0).lenght = 0
      · rw [if_pos h0] at h
        have e : j0 = j := Option.some.inj h
        subst e
        exact ⟨Nat.le_refl _, by omega, h0, fun x hx1 hx2 => by omega⟩
      · rw [if_neg h0] at h
        obtain ⟨a, b, c, d⟩ := ih (j0 + 1) j h
        refine ⟨by omega, by omega, c, ?_⟩
        intro x hx1 hx2
        by_cases hx : x = j0
        · subst hx; exact h0
        · exact d x (by omega) hx2

theorem allocate_from_none (p : VMPool) (n : Nat) (h : find_alloc_slot p 512 0 = none) :
    ∀ k i0, allocate_from p n k i0 = (0, p) := by
  intro k
  induction k with
  | zero => intro i0; rfl
  | succ k ih =>
      intro i0
      unfold allocate_from
      simp only [h, ih (i0 + 1), ite_self]

theorem allocate_from_skip (p : VMPool) (n : Nat) :
    ∀ k i0, (∀ x, i0 ≤ x → x < i0 + k → (p.free_array x).lenght < (rounded n).2) →
      allocate_from p n k i0 = (0, p) := by
  intro k
  induction k with
  | zero => intro i0 _; rfl
  | succ k ih =>
      intro i0 h
      unfold allocate_from
      have h0 : ¬ (p.free_array i0).lenght ≥ (rounded n).2 := by
        have := h i0 (Nat.le_refl _) (by omega)
        omega
      simp only [h0, if_false]
      exact ih (i0 + 1) (fun x hx1 hx2 => h x (by omega) (by omega))

theorem allocate_from_hit (p : VMPool) (n i j : Nat) (hj : find_alloc_slot p 512 0 = some j)
    (hfit : (p.free_array i).lenght ≥ (rounded n).2) :
    ∀ k i0, i0 ≤ i → i < i0 + k →
      (∀ x, i0 ≤ x → x < i → (p.free_array x).lenght < (rounded n).2) →
      allocate_from p n k i0 = allocate_at p (rounded n).1 (rounded n).2 i j := by
  intro k
  induction k with
  | zero => intro i0 h1 h2; omega
  | succ k ih =>
      intro i0 h1 h2 hfirst
      unfold allocate_from
      by_cases hi : i0 = i
      · subst hi
        simp only [hfit, if_true, hj]
      · have h0 : ¬ (p.free_array i0).lenght ≥ (rounded n).2 := by
          have := hfirst i0 (Nat.le_refl _) (by omega)
          omega
        simp only [h0, if_false]
        exact ih (i0 + 1) (by omega) (by omega) (fun x hx1 hx2 => hfirst x (by omega) hx2)

theorem exists_first (P : Nat → Prop) [DecidablePred P] (i : Nat) (h : P i) :
    ∃ m, m ≤ i ∧ P m ∧ ∀ x, x < m → ¬ P x :=
  ⟨Nat.find ⟨i, h⟩, Nat.find_min' ⟨i, h⟩ h, Nat.find_spec ⟨i, h⟩,
    fun _ hx => Nat.find_min ⟨i, h⟩ hx⟩

/-- The two ways `allocate` can end: with 0 and the pool unchanged, or in
the innermost `if` at the first fitting free entry and the first empty
allocated entry. -/
theorem allocate_cases (p : VMPool) (n : Nat) :
    ((∀ i, i < 512 → (p.free_array i).lenght < (rounded n).2) ∨
      (∀ j, j < 512 → (p.alloc_array j).lenght ≠ 0)) ∧ allocate p n = (0, p) ∨
    ∃ i j, i < 512 ∧ j < 512 ∧ (p.free_array i).lenght ≥ (rounded n).2 ∧
      (∀ x, x < i → (p.free_array x).lenght < (rounded n).2) ∧
      (p.alloc_array j).lenght = 0 ∧ (∀ x, x < j → (p.alloc_array x).lenght ≠ 0) ∧
      allocate p n = allocate_at p (rounded n).1 (rounded n).2 i j := by
  unfold allocate
  cases hs : find_alloc_slot p 512 0 with
  | none =>
      left
      refine ⟨Or.inr ?_, allocate_from_none p n hs 512 0⟩
      intro j hj
      exact find_alloc_slot_none p 512 0 hs j (Nat.zero_le _) (by omega)
  | some j =>
      obtain ⟨_, hj, hj0, hjf⟩ := find_alloc_slot_some p 512 0 j hs
      by_cases hex : ∃ i, i < 512 ∧ (p.free_array i).lenght ≥ (rounded n).2
      · right
        obtain ⟨i, hi⟩ := hex
        obtain ⟨m, hm1, hm2, hm3⟩ :=
          exists_first (fun i => i < 512 ∧ (p.free_array i).lenght ≥ (rounded n).2) i hi
        refine ⟨m, j, hm2.1, by omega, hm2.2, ?_, hj0, fun x hx => hjf x (Nat.zero_le _) hx, ?_⟩
        · intro x hx
          have := hm3 x hx
          have hx512 : x < 512 := by omega
          by_contra hc
          exact this ⟨hx512, by omega⟩
        · apply allocate_from_hit p n m j hs hm2.2 512 0 (Nat.zero_le _) (by omega)
          intro x _ hx
          have := hm3 x hx
          have hx512 : x < 512 := by omega
          by_contra hc
          exact this ⟨hx512, by omega⟩
      · left
        have hall : ∀ i, i < 512 → (p.free_array i).lenght < (rounded n).2 := by
          intro i hi
          by_contra hc
          exact hex ⟨i, hi, by omega⟩
        exact ⟨Or.inl hall,
          allocate_from_skip p n 512 0 (fun x _ hx => hall x (by omega))⟩

theorem release_from_cases (pool : FramePool σ) (p : VMPool) (page_no : Nat) :
    ∀ k i0 (s : PageTable σ),
      (release_from pool p page_no k i0 s).1 = p ∨
      ∃ i j, i < i0 + k ∧ j < 512 ∧ (p.free_array j).lenght = 0 ∧
        (release_from pool p page_no k i0 s).1 = release_at p i j := by
  intro k
  induction k with
  | zero => intro i0 s; left; rfl
  | succ k ih =>
      intro i0 s
      unfold release_from
      by_cases hm : (p.alloc_array i0).base_page = page_no
      · simp only [hm, if_true]
        cases hs : find_free_slot p 512 0 with
        | none =>
            simp only
            rcases ih (i0 + 1) (free_pages pool p page_no ((p.alloc_array i0).lenght / 4096) 0 s)
              with h | ⟨i, j, h1, h2, h3, h4⟩
            · left; exact h
            · right; exact ⟨i, j, by omega, h2, h3, h4⟩
        | some j =>
            right
            obtain ⟨_, hj, hj0, _⟩ := find_free_slot_some p 512 0 j hs
            exact ⟨i0, j, by omega, by omega, hj0, rfl⟩
      · simp only [hm, if_false]
        rcases ih (i0 + 1) s with h | ⟨i, j, h1, h2, h3, h4⟩
        · left; exact h
        · right; exact ⟨i, j, by omega, h2, h3, h4⟩

theorem release_cases (pool : FramePool σ) (p : VMPool) (s : PageTable σ) (a : Nat) :
    (release pool p s a).1 = p ∨
    ∃ i j, i < 512 ∧ j < 512 ∧ (p.free_array j).lenght = 0 ∧
      (release pool p s a).1 = release_at p i j := by
  unfold release
  by_cases hl : p.is_legitimate a = true
  · simp only [hl, if_true]
    rcases release_from_cases pool p _ 512 0 s with h | ⟨i, j, h1, h2, h3, h4⟩
    · left; exact h
    · right; exact ⟨i, j, by omega, h2, h3, h4⟩
  · left
    simp only [hl]
    rfl

theorem clear_tables_spec :
    ∀ k i (t : (Nat → region) × (Nat → region)) x,
      (clear_tables k i t).1 x
        = (if i ≤ x ∧ x < i + k then { base_page := 0, lenght := 0 } else t.1 x) ∧
      (clear_tables k i t).2 x
        = (if i ≤ x ∧ x < i + k then { base_page := 0, lenght := 0 } else t.2 x) := by
  intro k
  induction k with
  | zero =>
      intro i t x
      have : ¬ (i ≤ x ∧ x < i + 0) := by omega
      simp only [clear_tables, this, if_false, and_self]
  | succ k ih =>
      intro i t x
      unfold clear_tables
      obtain ⟨h1, h2⟩ := ih (i + 1) (setEntry t.1 i { base_page := 0, lenght := 0 },
         setEntry t.2 i { base_page := 0, lenght := 0 }) x
      rw [h1, h2]
      unfold setEntry
      by_cases c1 : i + 1 ≤ x ∧ x < i + 1 + k
      · have c2 : i ≤ x ∧ x < i + (k + 1) := by omega
        simp only [c1, c2, and_self, if_true]
      · simp only [c1, if_false]
        by_cases c3 : x = i
        · have c2 : i ≤ x ∧ x < i + (k + 1) := by omega
          simp only [c3, if_true, c2, and_self]
          simp
        · have c2 : ¬ (i ≤ x ∧ x < i + (k + 1)) := by omega
          simp only [c3, if_false, c2, and_self]

/-- The tables right after construction: `{0, 8192}` and `{2, size - 8192}`
in entry 0, zeroes in entries 1 to 511. -/
theorem construct_tables (b sz : Nat) (pt : PageTable σ) (a0 f0 : Nat → region)
    (h1 : 8192 ≤ sz) (h2 : sz < WORD) (k : Nat) (hk : k < 512) :
    (construct b sz pt a0 f0).1.alloc_array k
      = (if k = 0 then { base_page := 0, lenght := 8192 } else { base_page := 0, lenght := 0 }) ∧
    (construct b sz pt a0 f0).1.free_array k
      = (if k = 0 then { base_page := 2, lenght := sz - 8192 }
          else { base_page := 0, lenght := 0 }) := by
  have e : (sz + (WORD - 8192)) % WORD = sz - 8192 := by
    unfold WORD at *
    omega
  simp only [construct]
  obtain ⟨c1, c2⟩ := clear_tables_spec 511 1
    (setEntry a0 0 { base_page := 0, lenght := 8192 },
     setEntry f0 0 { base_page := 2, lenght := (sz + (WORD - 8192)) % WORD }) k
  rw [c1, c2, e]
  unfold setEntry
  by_cases hk0 : k = 0
  · subst hk0
    simp
  · have : 1 ≤ k ∧ k < 1 + 511 := by omega
    simp only [this, and_self, if_true, hk0, if_false]

theorem pagesOf_zero (q : Nat) (r : region) (h : r.lenght = 0) : pagesOf q r = 0 := by
  unfold pagesOf
  rw [h]
  have : ¬ (r.base_page ≤ q ∧ q < r.base_page + 0 / 4096) := by omega
  rw [if_neg this]

theorem pagesOf_le_one (q : Nat) (r : region) : pagesOf q r ≤ 1 := by
  unfold pagesOf
  split <;> omega

theorem pagesOf_split (q bp len P : Nat) (h : 4096 * P ≤ len) :
    pagesOf q { base_page := bp, lenght := len }
      = pagesOf q { base_page := bp, lenght := 4096 * P }
        + pagesOf q { base_page := bp + P, lenght := len - 4096 * P } := by
  unfold pagesOf
  simp only
  have e1 : 4096 * P / 4096 = P := by omega
  have e2 : (len - 4096 * P) / 4096 = len / 4096 - P := by omega
  have e3 : P ≤ len / 4096 := by omega
  rw [e1, e2]
  by_cases c1 : bp ≤ q ∧ q < bp + P
  · have c2 : bp ≤ q ∧ q < bp + len / 4096 := by omega
    have c3 : ¬ (bp + P ≤ q ∧ q < bp + P + (len / 4096 - P)) := by omega
    rw [if_pos c1, if_pos c2, if_neg c3]
  · by_cases c2 : bp ≤ q ∧ q < bp + len / 4096
    · have c3 : bp + P ≤ q ∧ q < bp + P + (len / 4096 - P) := by omega
      rw [if_neg c1, if_pos c2, if_pos c3]
    · have c3 : ¬ (bp + P ≤ q ∧ q < bp + P + (len / 4096 - P)) := by omega
      rw [if_neg c1, if_neg c2, if_neg c3]

theorem region_eta (r : region) : r = { base_page := r.base_page, lenght := r.lenght } := rfl

/-- Under the invariant a free region of non-zero length lies inside the
pool. -/
theorem free_region_bound (p : VMPool) (h : Invariant p) (k : Nat) (hk : k < 512)
    (hn : (p.free_array k).lenght ≠ 0) :
    (p.free_array k).base_page + (p.free_array k).lenght / 4096 ≤ p.size / 4096 := by
  obtain ⟨_, h1, h2, _⟩ := h
  obtain ⟨m, hm⟩ := (h1 k hk).2
  have hm1 : 1 ≤ m := by omega
  have hq := h2 ((p.free_array k).base_page + (p.free_array k).lenght / 4096 - 1)
  have hin : pagesOf ((p.free_array k).base_page + (p.free_array k).lenght / 4096 - 1)
      (p.free_array k) = 1 := by
    unfold pagesOf
    have : (p.free_array k).base_page
          ≤ (p.free_array k).base_page + (p.free_array k).lenght / 4096 - 1 ∧
        (p.free_array k).base_page + (p.free_array k).lenght / 4096 - 1
          < (p.free_array k).base_page + (p.free_array k).lenght / 4096 := by omega
    rw [if_pos this]
  have hle := le_tableSum
    (pagesOf ((p.free_array k).base_page + (p.free_array k).lenght / 4096 - 1))
    p.free_array k hk
  unfold cover at hq
  by_cases c : (p.free_array k).base_page + (p.free_array k).lenght / 4096 - 1 < p.size / 4096
  · omega
  · rw [if_neg c] at hq
    omega

/-- Under the invariant an allocated region of non-zero length lies inside
the pool. -/
theorem alloc_region_bound (p : VMPool) (h : Invariant p) (k : Nat) (hk : k < 512)
    (hn : (p.alloc_array k).lenght ≠ 0) :
    (p.alloc_array k).base_page + (p.alloc_array k).lenght / 4096 ≤ p.size / 4096 := by
  obtain ⟨_, h1, h2, _⟩ := h
  obtain ⟨m, hm⟩ := (h1 k hk).1
  have hm1 : 1 ≤ m := by omega
  have hq := h2 ((p.alloc_array k).base_page + (p.alloc_array k).lenght / 4096 - 1)
  have hin : pagesOf ((p.alloc_array k).base_page + (p.alloc_array k).lenght / 4096 - 1)
      (p.alloc_array k) = 1 := by
    unfold pagesOf
    have : (p.alloc_array k).base_page
          ≤ (p.alloc_array k).base_page + (p.alloc_array k).lenght / 4096 - 1 ∧
        (p.alloc_array k).base_page + (p.alloc_array k).lenght / 4096 - 1
          < (p.alloc_array k).base_page + (p.alloc_array k).lenght / 4096 := by omega
    rw [if_pos this]
  have hle := le_tableSum
    (pagesOf ((p.alloc_array k).base_page + (p.alloc_array k).lenght / 4096 - 1))
    p.alloc_array k hk
  unfold cover at hq
  by_cases c : (p.alloc_array k).base_page + (p.alloc_array k).lenght / 4096 - 1 < p.size / 4096
  · omega
  · rw [if_neg c] at hq
    omega

/-- Under the invariant no page lies both in a free region and in an
allocated region. -/
theorem free_alloc_disjoint (p : VMPool) (h : Invariant p) (i k q : Nat)
    (hi : i < 512) (hk : k < 512)
    (h1 : pagesOf q (p.free_array i) = 1) (h2 : pagesOf q (p.alloc_array k) = 1) : False := by
  have hq := h.2.2.1 q
  unfold cover at hq
  have a := le_tableSum (pagesOf q) p.free_array i hi
  have b := le_tableSum (pagesOf q) p.alloc_array k hk
  by_cases c : q < p.size / 4096
  · rw [if_pos c] at hq; omega
  · rw [if_neg c] at hq; omega

theorem invariant_construct (b sz : Nat) (pt : PageTable σ) (a0 f0 : Nat → region)
    (h0 : sz % 4096 = 0) (h1 : 8192 ≤ sz) (h2 : sz < WORD) :
    Invariant (construct b sz pt a0 f0).1 := by
  have hA : ∀ w : region → Nat, w { base_page := 0, lenght := 0 } = 0 →
      tableSum w (construct b sz pt a0 f0).1.alloc_array
        = w { base_page := 0, lenght := 8192 } := by
    intro w hw
    have e := tableSum_congr w (construct b sz pt a0 f0).1.alloc_array
      (setEntry zeroTable 0 { base_page := 0, lenght := 8192 })
      (fun k hk => by
        rw [(construct_tables b sz pt a0 f0 h1 h2 k hk).1]
        unfold setEntry zeroTable
        rfl)
    rw [e]
    have s := tableSum_set w zeroTable 0 { base_page := 0, lenght := 8192 } (by decide)
    have z := tableSum_zero w zeroTable (fun _ _ => hw)
    have z2 : w (zeroTable 0) = 0 := hw
    omega
  have hF : ∀ w : region → Nat, w { base_page := 0, lenght := 0 } = 0 →
      tableSum w (construct b sz pt a0 f0).1.free_array
        = w { base_page := 2, lenght := sz - 8192 } := by
    intro w hw
    have e := tableSum_congr w (construct b sz pt a0 f0).1.free_array
      (setEntry zeroTable 0 { base_page := 2, lenght := sz - 8192 })
      (fun k hk => by
        rw [(construct_tables b sz pt a0 f0 h1 h2 k hk).2]
        unfold setEntry zeroTable
        rfl)
    rw [e]
    have s := tableSum_set w zeroTable 0 { base_page := 2, lenght := sz - 8192 } (by decide)
    have z := tableSum_zero w zeroTable (fun _ _ => hw)
    have z2 : w (zeroTable 0) = 0 := hw
    omega
  have hsize : (construct b sz pt a0 f0).1.size = sz := rfl
  refine ⟨by rw [hsize]; exact h2, ?_, ?_, ?_⟩
  · intro k hk
    obtain ⟨c1, c2⟩ := construct_tables b sz pt a0 f0 h1 h2 k hk
    rw [c1, c2]
    by_cases hk0 : k = 0
    · simp only [hk0, if_true]
      exact ⟨⟨2, rfl⟩, by omega⟩
    · simp only [hk0, if_false]
      exact ⟨⟨0, rfl⟩, ⟨0, rfl⟩⟩
  · intro q
    unfold cover
    rw [hA (pagesOf q) (pagesOf_zero q _ rfl), hF (pagesOf q) (pagesOf_zero q _ rfl), hsize]
    unfold pagesOf
    simp only
    have e1 : (8192 : Nat) / 4096 = 2 := by decide
    rw [e1]
    by_cases c1 : 0 ≤ q ∧ q < 0 + 2
    · have c2 : ¬ (2 ≤ q ∧ q < 2 + (sz - 8192) / 4096) := by omega
      have c3 : q < sz / 4096 := by omega
      rw [if_pos c1, if_neg c2, if_pos c3]
    · by_cases c2 : 2 ≤ q ∧ q < 2 + (sz - 8192) / 4096
      · have c3 : q < sz / 4096 := by omega
        rw [if_neg c1, if_pos c2, if_pos c3]
      · have c3 : ¬ q < sz / 4096 := by omega
        rw [if_neg c1, if_neg c2, if_neg c3]
  · unfold total
    rw [hA region.lenght rfl, hF region.lenght rfl, hsize]
    simp only
    omega

theorem invariant_allocate_at (p : VMPool) (h : Invariant p) (P i j : Nat)
    (hi : i < 512) (hj : j < 512) (hP : 1 ≤ P)
    (hfit : (p.free_array i).lenght ≥ 4096 * P) (hj0 : (p.alloc_array j).lenght = 0) :
    Invariant (allocate_at p P (4096 * P) i j).2 := by
  have hb := free_region_bound p h i hi (by omega)
  obtain ⟨hs, h1, h2, h3⟩ := h
  have hP2 : P ≤ (p.free_array i).lenght / 4096 := by omega
  have hw : ((p.free_array i).base_page + P) % WORD = (p.free_array i).base_page + P := by
    apply Nat.mod_eq_of_lt
    unfold WORD at *
    omega
  simp only [allocate_at, hw]
  refine ⟨hs, ?_, ?_, ?_⟩
  · intro k hk
    simp only [setEntry]
    obtain ⟨m, hm⟩ := (h1 i hi).2
    constructor
    · by_cases c : k = j
      · simp only [c, if_true]; exact ⟨P, rfl⟩
      · simp only [c, if_false]; exact (h1 k hk).1
    · by_cases c : k = i
      · simp only [c, if_true]; exact ⟨m - P, by omega⟩
      · simp only [c, if_false]; exact (h1 k hk).2
  · intro q
    have hq := h2 q
    unfold cover at hq ⊢
    simp only
    have s1 := tableSum_set (pagesOf q) p.alloc_array j
      { base_page := (p.free_array i).base_page, lenght := 4096 * P } hj
    have s2 := tableSum_set (pagesOf q) p.free_array i
      { base_page := (p.free_array i).base_page + P,
        lenght := (p.free_array i).lenght - 4096 * P } hi
    have z := pagesOf_zero q (p.alloc_array j) hj0
    have sp := pagesOf_split q (p.free_array i).base_page (p.free_array i).lenght P hfit
    rw [← region_eta] at sp
    rw [← hq]
    omega
  · unfold total at h3 ⊢
    simp only
    have s1 := tableSum_set region.lenght p.alloc_array j
      { base_page := (p.free_array i).base_page, lenght := 4096 * P } hj
    have s2 := tableSum_set region.lenght p.free_array i
      { base_page := (p.free_array i).base_page + P,
        lenght := (p.free_array i).lenght - 4096 * P } hi
    simp only at s1 s2
    omega

theorem invariant_release_at (p : VMPool) (h : Invariant p) (i j : Nat)
    (hi : i < 512) (hj : j < 512) (hj0 : (p.free_array j).lenght = 0) :
    Invariant (release_at p i j) := by
  obtain ⟨hs, h1, h2, h3⟩ := h
  simp only [release_at]
  refine ⟨hs, ?_, ?_, ?_⟩
  · intro k hk
    simp only [setEntry]
    constructor
    · by_cases c : k = i
      · simp only [c, if_true]; exact ⟨0, rfl⟩
      · simp only [c, if_false]; exact (h1 k hk).1
    · by_cases c : k = j
      · simp only [c, if_true]; exact (h1 i hi).1
      · simp only [c, if_false]; exact (h1 k hk).2
  · intro q
    have hq := h2 q
    unfold cover at hq ⊢
    simp only
    have s1 := tableSum_set (pagesOf q) p.alloc_array i { base_page := 0, lenght := 0 } hi
    have s2 := tableSum_set (pagesOf q) p.free_array j
      { base_page := (p.alloc_array i).base_page, lenght := (p.alloc_array i).lenght } hj
    have z := pagesOf_zero q (p.free_array j) hj0
    have z2 := pagesOf_zero q { base_page := 0, lenght := 0 } rfl
    have e : pagesOf q
        { base_page := (p.alloc_array i).base_page, lenght := (p.alloc_array i).lenght }
        = pagesOf q (p.alloc_array i) := rfl
    rw [← hq]
    omega
  · unfold total at h3 ⊢
    simp only
    have s1 := tableSum_set region.lenght p.alloc_array i { base_page := 0, lenght := 0 } hi
    have s2 := tableSum_set region.lenght p.free_array j
      { base_page := (p.alloc_array i).base_page, lenght := (p.alloc_array i).lenght } hj
    simp only at s1 s2
    omega

/-- Every reachable pool state satisfies the region-table invariant. -/
theorem reachable_invariant (p : VMPool) (h : Reachable p) : Invariant p := by
  induction h with
  | construct b sz pt a0 f0 h0 h1 h2 => exact invariant_construct b sz pt a0 f0 h0 h1 h2
  | allocate p n _ hn ih =>
      rcases allocate_cases p n with ⟨_, h⟩ | ⟨i, j, hi, hj, hfit, _, hj0, _, h⟩
      · rw [h]; exact ih
      · rw [h]
        rw [rounded_spec n hn] at hfit ⊢
        exact invariant_allocate_at p ih _ i j hi hj (Nat.le_max_left _ _) hfit hj0
  | release pool p s a _ ih =>
      rcases release_cases pool p s a with h | ⟨i, j, hi, hj, hj0, h⟩
      · rw [h]; exact ih
      · rw [h]; exact invariant_release_at p ih i j hi hj hj0

end VMPool

end Mp4

namespace Mp4

namespace VMPool

variable {σ : Type}

set_option maxRecDepth 100000

theorem allocate_at_fst (p : VMPool) (P S i j : Nat) :
    (allocate_at p P S i j).1
      = (p.base_address + ((p.free_array i).base_page * 4096) % WORD) % WORD := by
  simp only [allocate_at, setEntry, if_true]

theorem freshPool_tables (k : Nat) (hk : k < 512) :
    freshPool.alloc_array k
      = (if k = 0 then { base_page := 0, lenght := 8192 } else { base_page := 0, lenght := 0 }) ∧
    freshPool.free_array k
      = (if k = 0 then { base_page := 2, lenght := 0x100000 - 8192 }
          else { base_page := 0, lenght := 0 }) :=
  construct_tables 0x40000000 0x100000 PageTable.rawPaging zeroTable zeroTable
    (by decide) (by decide) k hk

theorem freshPool_free_lt (k : Nat) (hk : k < 512) :
    (freshPool.free_array k).lenght < 0x100000 := by
  rw [(freshPool_tables k hk).2]
  by_cases h : k = 0
  · rw [if_pos h]; decide
  · rw [if_neg h]; decide

theorem reachable_freshPool : Reachable freshPool :=
  Reachable.construct 0x40000000 0x100000 PageTable.rawPaging zeroTable zeroTable
    (by decide) (by decide) (by decide)

theorem reachable_liveState : Reachable liveState :=
  Reachable.release bumpPool _ smallPool.2 0x40002000
    (Reachable.allocate _ 4096
      (Reachable.allocate _ 4096
        (Reachable.construct 0x40000000 16384 PageTable.bootPaging zeroTable zeroTable
          (by decide) (by decide) (by decide))
        (by decide))
      (by decide))

/-- C17: for every 32-bit `size >= 1`, with `rounded = 4096 * ceil(size /
4096)`: if `i` is the first free-table entry with length at least `rounded`
and `j` is the first allocated-table entry with length 0, then
`allocate(size)` sets `allocated[j]` to `(old free[i].base_page, rounded)`,
sets `free[i]` to `(old base_page + rounded/4096, old length - rounded)`,
changes no other entry, and returns `base_address + 4096 * (old
free[i].base_page)`, both sums taken in 32-bit arithmetic.  On the fresh
pool of 1 MiB at `0x40000000`, whose tables hold `{0, 8192}` and `{2, size -
8192}`, `allocate(4096)` returns `0x40002000` and the next `allocate(8192)`
returns `0x40003000`. -/
theorem allocate_first_fit (p : VMPool) (_size i j : Nat) (hs : 1 ≤ _size)
    (hi : i < 512) (hty : (p.free_array i).lenght < WORD)
    (hfit : (p.free_array i).lenght ≥ 4096 * ((_size + 4095) / 4096))
    (hfirst : ∀ k, k < i → (p.free_array k).lenght < 4096 * ((_size + 4095) / 4096))
    (hj : j < 512) (hj0 : (p.alloc_array j).lenght = 0)
    (hjfirst : ∀ k, k < j → (p.alloc_array k).lenght ≠ 0) :
    ((allocate p _size).2.alloc_array j
        = { base_page := (p.free_array i).base_page,
            lenght := 4096 * ((_size + 4095) / 4096) } ∧
      (allocate p _size).2.free_array i
        = { base_page := ((p.free_array i).base_page + 4096 * ((_size + 4095) / 4096) / 4096)
              % WORD,
            lenght := (p.free_array i).lenght - 4096 * ((_size + 4095) / 4096) } ∧
      (∀ k, k ≠ j → (allocate p _size).2.alloc_array k = p.alloc_array k) ∧
      (∀ k, k ≠ i → (allocate p _size).2.free_array k = p.free_array k) ∧
      (allocate p _size).2.base_address = p.base_address ∧
      (allocate p _size).2.size = p.size ∧
      (allocate p _size).1 = (p.base_address + 4096 * (p.free_array i).base_page) % WORD) ∧
    (freshPool.alloc_array 0 = { base_page := 0, lenght := 8192 } ∧
      freshPool.free_array 0 = { base_page := 2, lenght := 0x100000 - 8192 } ∧
      (allocate freshPool 4096).1 = 0x40002000 ∧
      (allocate (allocate freshPool 4096).2 8192).1 = 0x40003000) := by
  refine ⟨?_, by decide⟩
  have hn : _size ≤ WORD - 4096 := by
    unfold WORD at *
    omega
  have hm : max 1 ((_size + 4095) / 4096) = (_size + 4095) / 4096 := by omega
  have hr : rounded _size = ((_size + 4095) / 4096, 4096 * ((_size + 4095) / 4096)) := by
    rw [rounded_spec _size hn, hm]
  have hslot := find_alloc_slot_first p j hj hj0 hjfirst
  have hall : allocate p _size
      = allocate_at p ((_size + 4095) / 4096) (4096 * ((_size + 4095) / 4096)) i j := by
    unfold allocate
    have h := allocate_from_hit p _size i j hslot (by rw [hr]; exact hfit) 512 0
      (Nat.zero_le _) (by omega) (fun x _ hx => by rw [hr]; exact hfirst x hx)
    rw [h, hr]
  have hdiv : 4096 * ((_size + 4095) / 4096) / 4096 = (_size + 4095) / 4096 := by omega
  rw [hall, hdiv]
  refine ⟨?_, ?_, ?_, ?_, rfl, rfl, ?_⟩
  · simp only [allocate_at, setEntry, if_true]
  · simp only [allocate_at, setEntry, if_true]
  · intro k hk
    simp only [allocate_at, setEntry, hk, if_false]
  · intro k hk
    simp only [allocate_at, setEntry, hk, if_false]
  · rw [allocate_at_fst, Nat.add_mod_mod, Nat.mul_comm]

/-- Witness of C17: the first `allocate(4096)` on the fresh 1 MiB pool takes
free entry 0 and allocated entry 1. -/
theorem allocate_first_fit_witness :
    (allocate freshPool 4096).2.alloc_array 1 = { base_page := 2, lenght := 4096 } ∧
    (allocate freshPool 4096).1 = 0x40002000 :=
  have h := (allocate_first_fit freshPool 4096 0 1 (by decide) (by decide) (by decide)
    (by decide) (fun k hk => absurd hk (Nat.not_lt_zero k)) (by decide) (by decide)
    (fun k hk => by
      have e : k = 0 := by omega
      subst e
      decide)).1
  ⟨h.1, h.2.2.2.2.2.2⟩

/-- C18 at the failing input: in the state `liveState` of a four-page pool
(reached by two `allocate(4096)` calls and one `release`), where the page at
`0x40003000` is recorded as allocated, `allocate(4294967295)` succeeds with
the address `0x40002000`, and the range of `rounded n = 2^32` bytes from
there contains the allocated page. -/
theorem allocate_overlaps_live_region :
    Reachable liveState ∧
    (liveState.alloc_array 2).lenght ≠ 0 ∧
    (allocate liveState 4294967295).1 ≠ 0 ∧
    (allocate liveState 4294967295).1
      ≤ liveState.base_address + 4096 * (liveState.alloc_array 2).base_page ∧
    liveState.base_address + 4096 * (liveState.alloc_array 2).base_page
      < (allocate liveState 4294967295).1 + 4096 * ((4294967295 + 4095) / 4096) :=
  ⟨reachable_liveState, by decide, by decide, by decide, by decide⟩

/-- Disjointness when the rounding does not wrap (the part of C18 that
holds): in every state reachable from construction (size a
multiple of 4096, at least 8192) by `release` calls and `allocate` calls of
at most `2^32 - 4096` bytes, of a pool that lies inside the 32-bit address
space, a successful `allocate(n)` with `n <= 2^32 - 4096` returns an address
`a` such that no address of `[a, a + rounded n)` lies in the range of a
region recorded with non-zero length in the allocated table at the time of
the call. -/
theorem allocate_disjoint (p : VMPool) (n : Nat) (hr : Reachable p)
    (hn : n ≤ WORD - 4096) (hb : p.base_address + p.size ≤ WORD)
    (hsucc : (allocate p n).1 ≠ 0) :
    ∀ k, k < 512 → (p.alloc_array k).lenght ≠ 0 →
      ∀ x, (allocate p n).1 ≤ x →
        x < (allocate p n).1 + 4096 * max 1 ((n + 4095) / 4096) →
        ¬ (p.base_address + 4096 * (p.alloc_array k).base_page ≤ x ∧
            x < p.base_address + 4096 * (p.alloc_array k).base_page
                + (p.alloc_array k).lenght) := by
  have hinv := reachable_invariant p hr
  intro k hk hlen x hx1 hx2 hin
  rcases allocate_cases p n with ⟨_, h⟩ | ⟨i, j, hi, hj, hfit, _, hj0, _, h⟩
  · rw [h] at hsucc; exact hsucc rfl
  · rw [rounded_spec n hn] at hfit h
    simp only at hfit
    have hP : 1 ≤ max 1 ((n + 4095) / 4096) := Nat.le_max_left _ _
    generalize max 1 ((n + 4095) / 4096) = P at *
    have hbi := free_region_bound p hinv i hi (by omega)
    have hbk := alloc_region_bound p hinv k hk hlen
    obtain ⟨mi, hmi⟩ := (hinv.2.1 i hi).2
    obtain ⟨mk, hmk⟩ := (hinv.2.1 k hk).1
    have ha : (allocate p n).1 = p.base_address + 4096 * (p.free_array i).base_page := by
      rw [h, allocate_at_fst]
      unfold WORD at *
      omega
    rw [ha] at hx1 hx2
    apply free_alloc_disjoint p hinv i k ((x - p.base_address) / 4096) hi hk
    · unfold pagesOf
      rw [if_pos]
      omega
    · unfold pagesOf
      rw [if_pos]
      omega

/-- Instance of `allocate_disjoint`: `allocate(4096)` in `liveState` returns
`0x40002000`, which is not in the allocated page at `0x40003000`. -/
theorem allocate_disjoint_witness :
    ¬ (liveState.base_address + 4096 * (liveState.alloc_array 2).base_page
          ≤ (allocate liveState 4096).1 ∧
        (allocate liveState 4096).1
          < liveState.base_address + 4096 * (liveState.alloc_array 2).base_page
              + (liveState.alloc_array 2).lenght) :=
  allocate_disjoint liveState 4096 reachable_liveState (by decide) (by decide) (by decide)
    2 (by decide) (by decide) (allocate liveState 4096).1 (Nat.le_refl _) (by decide)

/-- C19 at the failing input: after `allocate(4294967295)` on the fresh
1 MiB pool the free table's entry 0 is `{1048578, 1040384}`, a region of
non-zero length that starts beyond the 256 pages of the pool, so page
1048578 lies in a recorded region although it is no page of the pool. -/
theorem overflow_breaks_cover :
    overflowed.size = 0x100000 ∧
    overflowed.free_array 0 = { base_page := 1048578, lenght := 1040384 } ∧
    overflowed.alloc_array 1 = { base_page := 2, lenght := 0 } ∧
    cover overflowed 1048578 ≠ (if 1048578 < overflowed.size / 4096 then 1 else 0) := by
  refine ⟨by decide, by decide, by decide, ?_⟩
  have h := le_tableSum (pagesOf 1048578) overflowed.free_array 0 (by decide)
  have e : pagesOf 1048578 (overflowed.free_array 0) = 1 := by decide
  have c : ¬ (1048578 < overflowed.size / 4096) := by decide
  rw [if_neg c]
  unfold cover
  omega

/-- The region-table invariant when the rounding does not wrap (the part of
C19 that holds): in every state reachable from construction (size a
multiple of 4096, at least 8192) by `release` calls and `allocate` calls of
at most `2^32 - 4096` bytes, every recorded region length is a multiple of
4096, every page `0 .. size/4096 - 1` of the pool lies in exactly one
recorded region and no other page lies in any, and the recorded lengths sum
to `size`. -/
theorem region_tables_cover (p : VMPool) (h : Reachable p) :
    (∀ k, k < 512 → 4096 ∣ (p.alloc_array k).lenght ∧ 4096 ∣ (p.free_array k).lenght) ∧
    (∀ q, cover p q = if q < p.size / 4096 then 1 else 0) ∧
    total p = p.size :=
  (reachable_invariant p h).2

/-- Instance of `region_tables_cover` in the state `liveState`. -/
theorem region_tables_cover_witness :
    cover liveState 3 = 1 ∧ cover liveState 4 = 0 ∧ total liveState = 16384 :=
  have h := region_tables_cover liveState reachable_liveState
  ⟨h.2.1 3, h.2.1 4, h.2.2⟩

/-- C20 at the failing input: on the fresh 1 MiB pool no free-table entry
has a length of at least `rounded(4294967295) = 2^32`, yet
`allocate(4294967295)` returns the non-zero address `0x40002000` and changes
both tables. -/
theorem allocate_overflow_succeeds :
    (∀ i, i < 512 → (freshPool.free_array i).lenght < 4096 * ((4294967295 + 4095) / 4096)) ∧
    (allocate freshPool 4294967295).1 = 0x40002000 ∧
    (allocate freshPool 4294967295).2.free_array 0 ≠ freshPool.free_array 0 ∧
    (allocate freshPool 4294967295).2.alloc_array 1 ≠ freshPool.alloc_array 1 := by
  refine ⟨?_, by decide, by decide, by decide⟩
  intro i hi
  have h := freshPool_free_lt i hi
  have e : 4096 * ((4294967295 + 4095) / 4096) = 4294967296 := by decide
  omega

/-- The failure exits when the rounding does not wrap (the part of C20 that
holds): for a request of at most `2^32 - 4096` bytes, with
`rounded = 4096 * max 1 (ceil(size / 4096))`: `allocate(size)` returns 0 and
leaves the pool unchanged whenever no free-table entry has length at least
`rounded`, or the allocated table has no entry of length 0; otherwise, in a
reachable state of a pool with `base_address > 0` that lies inside the
32-bit address space, it returns a non-zero address. -/
theorem allocate_failure (p : VMPool) (n : Nat) (hn : n ≤ WORD - 4096) :
    (((∀ i, i < 512 → (p.free_array i).lenght < 4096 * max 1 ((n + 4095) / 4096)) ∨
        (∀ j, j < 512 → (p.alloc_array j).lenght ≠ 0)) →
      allocate p n = (0, p)) ∧
    (Reachable p → 0 < p.base_address → p.base_address + p.size ≤ WORD →
      (∃ i, i < 512 ∧ (p.free_array i).lenght ≥ 4096 * max 1 ((n + 4095) / 4096)) →
      (∃ j, j < 512 ∧ (p.alloc_array j).lenght = 0) →
      (allocate p n).1 ≠ 0) := by
  have hr := rounded_spec n hn
  constructor
  · intro hc
    rcases allocate_cases p n with ⟨_, h⟩ | ⟨i, j, hi, hj, hfit, _, hj0, _, _⟩
    · exact h
    · rw [hr] at hfit
      rcases hc with hc | hc
      · have := hc i hi
        simp only at hfit
        omega
      · exact absurd hj0 (hc j hj)
  · intro hreach hb0 hb ⟨i0, hi0, hfit0⟩ ⟨j0, hj0, hz0⟩
    have hinv := reachable_invariant p hreach
    rcases allocate_cases p n with ⟨hc, _⟩ | ⟨i, j, hi, hj, hfit, _, _, _, h⟩
    · rw [hr] at hc
      rcases hc with hc | hc
      · have := hc i0 hi0
        simp only at this
        omega
      · exact absurd hz0 (hc j0 hj0)
    · rw [hr] at hfit h
      simp only at hfit
      have hP : 1 ≤ max 1 ((n + 4095) / 4096) := Nat.le_max_left _ _
      generalize max 1 ((n + 4095) / 4096) = P at *
      have hbi := free_region_bound p hinv i hi (by omega)
      rw [h, allocate_at_fst]
      unfold WORD at *
      omega

/-- Instance of `allocate_failure`: on the fresh 1 MiB pool a request of 2 MiB
fails and a request of 4096 bytes succeeds. -/
theorem allocate_failure_witness :
    allocate freshPool 0x200000 = (0, freshPool) ∧ (allocate freshPool 4096).1 ≠ 0 :=
  ⟨(allocate_failure freshPool 0x200000 (by decide)).1
      (Or.inl (fun i hi => by
        have h := freshPool_free_lt i hi
        have e : 4096 * max 1 ((0x200000 + 4095) / 4096) = 0x200000 := by decide
        omega)),
   (allocate_failure freshPool 4096 (by decide)).2 reachable_freshPool (by decide) (by decide)
      ⟨0, by decide, by decide⟩ ⟨1, by decide, by decide⟩⟩

/-- C21 at the failing input: in the state `slotZeroEmpty`, reached by
`allocate` and `release` calls on a four-page pool, the address `0x40000000`
was returned by `allocate` and its page 0 is the base page of allocated
entry 2, of length 4096.  `release(0x40000000)` stops at the empty entry 0,
whose base page is 0 as well: entry 2 is left as it is and its region
reaches no free-table entry. -/
theorem release_stops_at_empty_slot :
    pageZeroTaken.1 = 0x40000000 ∧
    slotZeroEmpty.1.alloc_array 0 = { base_page := 0, lenght := 0 } ∧
    slotZeroEmpty.1.alloc_array 2 = { base_page := 0, lenght := 4096 } ∧
    (0x40000000 - slotZeroEmpty.1.base_address) / 4096
      = (slotZeroEmpty.1.alloc_array 2).base_page ∧
    (release bumpPool slotZeroEmpty.1 slotZeroEmpty.2 0x40000000).1.alloc_array 2
      = { base_page := 0, lenght := 4096 } ∧
    (release bumpPool slotZeroEmpty.1 slotZeroEmpty.2 0x40000000).1.free_array 0
      = { base_page := 3, lenght := 4096 } ∧
    (release bumpPool slotZeroEmpty.1 slotZeroEmpty.2 0x40000000).1.free_array 1
      = { base_page := 1, lenght := 4096 } ∧
    (release bumpPool slotZeroEmpty.1 slotZeroEmpty.2 0x40000000).1.free_array 2
      = { base_page := 0, lenght := 0 } ∧
    (release bumpPool slotZeroEmpty.1 slotZeroEmpty.2 0x40000000).1.free_array 3
      = { base_page := 0, lenght := 0 } := by
  decide

end VMPool

end Mp4

theorem Outcome.bind_ok {α β : Type} (x : Outcome α) (f : α → Outcome β) (b : β)
    (h : x.bind f = Outcome.ok b) : ∃ a, x = Outcome.ok a ∧ f a = Outcome.ok b := by
  cases x with
  | ok a => exact ⟨a, rfl, h⟩
  | fault => exact absurd h (by simp [Outcome.bind])
  | timeout => exact absurd h (by simp [Outcome.bind])

namespace Thread

theorem setnextthread_same (next : Nat → Option Nat) (t : Nat) (v : Option Nat) :
    setnextthread next t v t = v := by
  simp only [setnextthread, if_true]

theorem setnextthread_ne (next : Nat → Option Nat) (t : Nat) (v : Option Nat) (x : Nat)
    (h : x ≠ t) : setnextthread next t v x = next x := by
  simp only [setnextthread, h, if_false]

theorem chain_unique (next : Nat → Option Nat) :
    ∀ (l l1 : List Nat) (h : Option Nat), Chain next l h → Chain next l1 h → l = l1 := by
  intro l
  induction l with
  | nil =>
      intro l1 h h1 h2
      cases l1 with
      | nil => rfl
      | cons b l1 =>
          simp only [Chain] at h1 h2
          rw [h1] at h2
          exact absurd h2.1 (by simp)
  | cons a l ih =>
      intro l1 h h1 h2
      cases l1 with
      | nil =>
          simp only [Chain] at h1 h2
          rw [h2] at h1
          exact absurd h1.1 (by simp)
      | cons b l1 =>
          simp only [Chain] at h1 h2
          have e : a = b := by
            have := h1.1.symm.trans h2.1
            exact Option.some.inj this
          subst e
          rw [ih l1 (next a) h1.2 h2.2]

theorem chain_congr (next next1 : Nat → Option Nat) :
    ∀ (l : List Nat) (h : Option Nat), (∀ a, a ∈ l → next1 a = next a) →
      Chain next l h → Chain next1 l h := by
  intro l
  induction l with
  | nil => intro h _ hc; exact hc
  | cons a l ih =>
      intro h hn hc
      simp only [Chain] at hc ⊢
      refine ⟨hc.1, ?_⟩
      rw [hn a (List.mem_cons_self a l)]
      exact ih (next a) (fun b hb => hn b (List.mem_cons_of_mem a hb)) hc.2

theorem chain_setnext (next : Nat → Option Nat) (l : List Nat) (h : Option Nat) (t : Nat)
    (v : Option Nat) (ht : t ∉ l) (hc : Chain next l h) :
    Chain (setnextthread next t v) l h := by
  apply chain_congr next _ l h _ hc
  intro a ha
  apply setnextthread_ne
  intro e
  exact ht (e ▸ ha)

theorem chain_cut (next : Nat → Option Nat) (x t : Nat) :
    ∀ (l : List Nat) (h : Option Nat), t ∉ l → Chain next l h →
      Chain (setnextthread (setnextthread next x (some t)) t none) (cut x t l) h := by
  intro l
  induction l with
  | nil => intro h _ hc; exact hc
  | cons a l ih =>
      intro h ht hc
      simp only [Chain] at hc
      have hat : a ≠ t := fun e => ht (e ▸ List.mem_cons_self a l)
      have htl : t ∉ l := fun e => ht (List.mem_cons_of_mem a e)
      unfold cut
      by_cases hax : a = x
      · rw [if_pos hax]
        simp only [Chain]
        refine ⟨hc.1, ?_, ?_⟩
        · rw [setnextthread_ne _ _ _ _ hat, hax, setnextthread_same]
        · rw [setnextthread_same]
      · rw [if_neg hax]
        simp only [Chain]
        refine ⟨hc.1, ?_⟩
        rw [setnextthread_ne _ _ _ _ hat, setnextthread_ne _ _ _ _ hax]
        exact ih (next a) htl hc.2

theorem cut_of_not_mem (x t : Nat) : ∀ l : List Nat, x ∉ l → cut x t l = l := by
  intro l
  induction l with
  | nil => intro _; rfl
  | cons a l ih =>
      intro hx
      have hax : a ≠ x := fun e => hx (e ▸ List.mem_cons_self a l)
      unfold cut
      rw [if_neg hax, ih (fun e => hx (List.mem_cons_of_mem a e))]

theorem cut_last (x t : Nat) :
    ∀ l : List Nat, l.Nodup → l.getLast? = some x → cut x t l = l ++ [t] := by
  intro l
  induction l with
  | nil => intro _ h; simp at h
  | cons a l ih =>
      intro hn hl
      unfold cut
      cases l with
      | nil =>
          simp only [List.getLast?_singleton, Option.some.injEq] at hl
          rw [if_pos hl]
          rfl
      | cons b l =>
          have hl1 : (b :: l).getLast? = some x := by
            rw [List.getLast?_cons_cons] at hl
            exact hl
          have hxm : x ∈ b :: l := List.mem_of_getLast?_eq_some hl1
          have hax : a ≠ x := by
            intro e
            subst e
            exact (List.nodup_cons.mp hn).1 hxm
          rw [if_neg hax, ih (List.nodup_cons.mp hn).2 hl1]
          rfl

theorem mem_cut (x t a : Nat) : ∀ l : List Nat, a ∈ cut x t l → a ∈ l ∨ a = t := by
  intro l
  induction l with
  | nil => intro h; simp [cut] at h
  | cons b l ih =>
      intro h
      unfold cut at h
      by_cases hbx : b = x
      · rw [if_pos hbx] at h
        simp only [List.mem_cons, List.mem_singleton, List.not_mem_nil, or_false] at h
        rcases h with h | h
        · left; rw [h]; exact List.mem_cons_self b l
        · right; exact h
      · rw [if_neg hbx] at h
        rcases List.mem_cons.mp h with h | h
        · left; rw [h]; exact List.mem_cons_self b l
        · rcases ih h with h1 | h1
          · left; exact List.mem_cons_of_mem b h1
          · right; exact h1

theorem cut_sublist (x t : Nat) : ∀ l : List Nat, (cut x t l).Sublist (l ++ [t]) := by
  intro l
  induction l with
  | nil => exact List.nil_sublist _
  | cons a l ih =>
      unfold cut
      by_cases hax : a = x
      · rw [if_pos hax]
        apply List.Sublist.cons₂
        exact List.sublist_append_right l [t]
      · rw [if_neg hax]
        exact List.Sublist.cons₂ a ih

theorem nodup_cut_append (x t : Nat) (l m : List Nat) (h : (l ++ m).Nodup)
    (hl : t ∉ l) (hm : t ∉ m) : (cut x t l ++ cut x t m).Nodup := by
  have hbig : (l ++ t :: m).Nodup := by
    rw [List.nodup_middle, List.nodup_cons]
    refine ⟨?_, h⟩
    intro e
    rcases List.mem_append.mp e with e | e
    · exact hl e
    · exact hm e
  have hbig2 : (l ++ (m ++ [t])).Nodup := by
    rw [← List.append_assoc]
    apply List.Nodup.append h (List.nodup_singleton t)
    intro a ha hat
    rw [List.mem_singleton] at hat
    subst hat
    rcases List.mem_append.mp ha with e | e
    · exact hl e
    · exact hm e
  by_cases hx : x ∈ l
  · have hxm : x ∉ m := fun e => (List.disjoint_of_nodup_append h) hx e
    rw [cut_of_not_mem x t m hxm]
    have hs : (cut x t l ++ m).Sublist ((l ++ [t]) ++ m) :=
      List.Sublist.append (cut_sublist x t l) (List.Sublist.refl m)
    have e : (l ++ [t]) ++ m = l ++ t :: m := by simp
    rw [e] at hs
    exact List.Nodup.sublist hs hbig
  · rw [cut_of_not_mem x t l hx]
    have hs : (l ++ cut x t m).Sublist (l ++ (m ++ [t])) :=
      List.Sublist.append (List.Sublist.refl l) (cut_sublist x t m)
    exact List.Nodup.sublist hs hbig2

end Thread

namespace Mp5

namespace Scheduler

open Thread

theorem mp5_resume_spec (s : Scheduler) (l : List Nat) (t : Nat)
    (hc : Chain s.next l s.head) (hn : l.Nodup) (ht : s.tail = l.getLast?) (hm : t ∉ l) :
    ∃ s1, resume s t = Outcome.ok s1 ∧ Chain s1.next (l ++ [t]) s1.head ∧
      s1.tail = some t ∧ s1.dispatched = s.dispatched := by
  cases l with
  | nil =>
      simp only [Chain] at hc
      refine ⟨{ s with head := some t, next := setnextthread s.next t none, tail := some t },
        by simp only [resume, hc, if_true], ?_, rfl, rfl⟩
      simp only [List.nil_append, Chain, setnextthread_same, and_self]
  | cons a l =>
      have hh : s.head = some a := hc.1
      obtain ⟨x, hx⟩ : ∃ x, (a :: l).getLast? = some x :=
        ⟨(a :: l).getLast (by simp), List.getLast?_eq_getLast _ _⟩
      have hne : ¬ (s.head = none) := by rw [hh]; simp
      rw [hx] at ht
      refine ⟨{ s with next := setnextthread (setnextthread s.next x (some t)) t none,
                       tail := some t },
        by simp only [resume, hne, if_false, ht], ?_, rfl, rfl⟩
      have := chain_cut s.next x t (a :: l) s.head hm hc
      rw [cut_last x t (a :: l) hn hx] at this
      exact this

theorem mp5_yield_spec (s : Scheduler) (h : Nat) (l : List Nat)
    (hc : Chain s.next (h :: l) s.head) :
    ∃ s1, yield s = Outcome.ok s1 ∧ Chain s1.next l s1.head ∧ s1.next = s.next ∧
      s1.dispatched = s.dispatched ++ [h] ∧
      (l = [] → s1.tail = none) ∧ (l ≠ [] → s1.tail = s.tail) := by
  have hh : s.head = some h := hc.1
  have hc2 : Chain s.next l (s.next h) := hc.2
  by_cases hn : s.next h = none
  · refine ⟨{ s with head := s.next h, tail := none, dispatched := s.dispatched ++ [h] },
      by simp only [yield, hh, hn, if_true], ?_, rfl, rfl, fun _ => rfl, ?_⟩
    · rw [hn] at hc2
      cases l with
      | nil => exact hn
      | cons b l => exact absurd hc2.1 (by simp)
    · intro hl
      rw [hn] at hc2
      cases l with
      | nil => exact absurd rfl hl
      | cons b l => exact absurd hc2.1 (by simp)
  · refine ⟨{ s with head := s.next h, dispatched := s.dispatched ++ [h] },
      by simp only [yield, hh, hn, if_false], hc2, rfl, rfl, ?_, fun _ => rfl⟩
    intro hl
    rw [hl] at hc2
    exact absurd hc2 hn

theorem mp5_adds_spec : ∀ (ts l : List Nat) (s : Scheduler),
    Chain s.next l s.head → (l ++ ts).Nodup → s.tail = l.getLast? →
    ∃ s1, adds ts s = Outcome.ok s1 ∧ Chain s1.next (l ++ ts) s1.head ∧
      s1.tail = (l ++ ts).getLast? ∧ s1.dispatched = s.dispatched := by
  intro ts
  induction ts with
  | nil =>
      intro l s hc _ ht
      exact ⟨s, rfl, by rw [List.append_nil]; exact hc, by rw [List.append_nil]; exact ht, rfl⟩
  | cons t ts ih =>
      intro l s hc hn ht
      have hn1 : l.Nodup := (List.nodup_append.mp hn).1
      have htl : t ∉ l := by
        intro e
        exact (List.disjoint_of_nodup_append hn) e (List.mem_cons_self t ts)
      obtain ⟨s1, h1, h2, h3, h4⟩ := mp5_resume_spec s l t hc hn1 ht htl
      have hn2 : ((l ++ [t]) ++ ts).Nodup := by
        rw [List.append_assoc]; exact hn
      have ht2 : s1.tail = (l ++ [t]).getLast? := by
        rw [h3, List.getLast?_append, List.getLast?_singleton]
        rfl
      obtain ⟨s2, g1, g2, g3, g4⟩ := ih (l ++ [t]) s1 h2 hn2 ht2
      refine ⟨s2, ?_, ?_, ?_, ?_⟩
      · simp only [adds, add, h1, Outcome.bind]
        exact g1
      · rw [List.append_assoc] at g2; exact g2
      · rw [List.append_assoc] at g3; exact g3
      · rw [g4, h4]

theorem mp5_yields_spec : ∀ (l : List Nat) (s : Scheduler),
    Chain s.next l s.head → s.tail = l.getLast? →
    ∃ s1, yields l.length s = Outcome.ok s1 ∧ s1.head = none ∧ s1.tail = none ∧
      s1.dispatched = s.dispatched ++ l := by
  intro l
  induction l with
  | nil =>
      intro s hc ht
      exact ⟨s, rfl, hc, ht, by rw [List.append_nil]⟩
  | cons h l ih =>
      intro s hc ht
      obtain ⟨s1, h1, h2, _, h4, h5, h6⟩ := mp5_yield_spec s h l hc
      have ht1 : s1.tail = l.getLast? := by
        cases l with
        | nil => exact h5 rfl
        | cons b l =>
            rw [h6 (by simp), ht, List.getLast?_cons_cons]
      obtain ⟨s2, g1, g2, g3, g4⟩ := ih s1 h2 ht1
      refine ⟨s2, ?_, g2, g3, ?_⟩
      · simp only [List.length_cons, yields, h1, Outcome.bind]
        exact g1
      · rw [g4, h4, List.append_assoc]
        rfl

/-- The loop of `terminate` on a queue: entered at the thread `c` with the
rest `l` of the queue behind it, it either runs out of iterations, or
unlinks `_thread` from `l` and changes no next-pointer of a thread outside
the queue. -/
theorem terminate_loop_spec (t : Nat) :
    ∀ (l : List Nat) (c fuel : Nat) (next : Nat → Option Nat),
      Chain next l (next c) → (c :: l).Nodup → t ≠ c →
      (terminate_loop t fuel next (some c) true = Outcome.timeout ∧ fuel < l.length) ∨
      ∃ next1, terminate_loop t fuel next (some c) true = Outcome.ok next1 ∧
        Chain next1 (l.erase t) (next1 c) ∧ (∀ x, x ∉ c :: l → next1 x = next x) ∧
        (t ∉ l → next1 = next) := by
  intro l
  induction l with
  | nil =>
      intro c fuel next hc _ _
      right
      have hc0 : next c = none := hc
      refine ⟨next, ?_, ?_, fun _ _ => rfl, fun _ => rfl⟩
      · unfold terminate_loop
        simp only [hc0, Bool.true_eq_false, if_false]
      · rw [List.erase_nil]; exact hc
  | cons n l ih =>
      intro c fuel next hc hn htc
      have hcn : next c = some n := hc.1
      have hc2 : Chain next l (next n) := hc.2
      have hn2 : (n :: l).Nodup := (List.nodup_cons.mp hn).2
      have hcl : c ∉ n :: l := (List.nodup_cons.mp hn).1
      cases fuel with
      | zero =>
          left
          refine ⟨?_, by simp⟩
          unfold terminate_loop
          simp only [hcn, Bool.true_eq_false, if_false]
      | succ k =>
          by_cases htn : t = n
          · right
            refine ⟨setnextthread next c (next n), ?_, ?_, ?_, ?_⟩
            · unfold terminate_loop
              simp only [hcn, Bool.true_eq_false, if_false, htn, if_true]
              unfold terminate_loop
              simp only [if_true]
            · rw [htn, List.erase_cons_head, setnextthread_same]
              exact chain_setnext next l (next n) c (next n)
                (fun e => hcl (List.mem_cons_of_mem n e)) hc2
            · intro x hx
              apply setnextthread_ne
              intro e
              exact hx (e ▸ List.mem_cons_self c (n :: l))
            · intro hx
              exact absurd (htn ▸ List.mem_cons_self n l) hx
          · rcases ih n k next hc2 hn2 htn with ⟨h1, h2⟩ | ⟨next1, h1, h2, h3, h4⟩
            · left
              refine ⟨?_, by simp only [List.length_cons]; omega⟩
              unfold terminate_loop
              simp only [hcn, Bool.true_eq_false, if_false, htn]
              exact h1
            · right
              refine ⟨next1, ?_, ?_, ?_, ?_⟩
              · unfold terminate_loop
                simp only [hcn, Bool.true_eq_false, if_false, htn]
                exact h1
              · have hne : ¬ (n == t) = true := by
                  simp only [beq_iff_eq]
                  exact fun e => htn e.symm
                rw [List.erase_cons_tail hne]
                have e1 : next1 c = some n := by rw [h3 c hcl, hcn]
                exact ⟨e1, h2⟩
              · intro x hx
                apply h3
                intro e
                exact hx (List.mem_cons_of_mem c e)
              · intro hx
                exact h4 (fun e => hx (List.mem_cons_of_mem n e))

/-- On a non-empty queue of distinct threads whose `tail` is not a thread
before the last, `terminate` with enough iterations removes `_thread` and
keeps the others in order; a thread that is not in the queue changes
nothing. -/
theorem terminate_spec (s : Scheduler) (l : List Nat) (t fuel : Nat)
    (hc : Chain s.next l s.head) (hn : l.Nodup) (hne : l ≠ [])
    (ht : s.tail = s.head → l.length ≤ 1) (hf : l.length ≤ fuel) :
    ∃ s1, terminate fuel s t = Outcome.ok s1 ∧ Chain s1.next (l.erase t) s1.head ∧
      (t ∉ l → s1 = s) := by
  cases l with
  | nil => exact absurd rfl hne
  | cons a l =>
      have hh : s.head = some a := hc.1
      have hc2 : Chain s.next l (s.next a) := hc.2
      by_cases hta : t = a
      · subst hta
        by_cases htl : s.tail = s.head
        · have hl : l = [] := by
            have := ht htl
            simp only [List.length_cons] at this
            exact List.length_eq_zero.mp (by omega)
          subst hl
          refine ⟨{ s with head := none, tail := none }, ?_, ?_, ?_⟩
          · simp only [terminate, hh, htl, if_true]
          · rw [List.erase_cons_head]; rfl
          · intro hx; exact absurd (List.mem_cons_self t []) hx
        · refine ⟨{ s with head := s.next t }, ?_, ?_, ?_⟩
          · simp only [terminate, hh, if_true]
            rw [hh] at htl
            simp only [htl, if_false]
          · rw [List.erase_cons_head]; exact hc2
          · intro hx; exact absurd (List.mem_cons_self t l) hx
      · have hne2 : ¬ (some t = some a) := by
          intro e
          exact hta (Option.some.inj e)
        rcases terminate_loop_spec t l a fuel s.next hc2 hn hta with
          ⟨_, h2⟩ | ⟨next1, h1, h2, _, h4⟩
        · simp only [List.length_cons] at hf
          omega
        · refine ⟨{ s with next := next1 }, ?_, ?_, ?_⟩
          · simp only [terminate, hne2, if_false, hh, h1, Outcome.bind]
          · have hne3 : ¬ (a == t) = true := by
              simp only [beq_iff_eq]
              exact fun e => hta e.symm
            rw [List.erase_cons_tail hne3]
            exact ⟨hh, h2⟩
          · intro hx
            rw [h4 (fun e => hx (List.mem_cons_of_mem a e))]

end Scheduler

end Mp5

namespace Mp6

namespace Scheduler

open Thread

theorem terminate_loop_eq (t : Nat) :
    ∀ (fuel : Nat) (next : Nat → Option Nat) (c : Option Nat) (b : Bool),
      terminate_loop t fuel next c b = Mp5.Scheduler.terminate_loop t fuel next c b := by
  intro fuel
  induction fuel with
  | zero =>
      intro next c b
      unfold terminate_loop Mp5.Scheduler.terminate_loop
      rfl
  | succ k ih =>
      intro next c b
      unfold terminate_loop Mp5.Scheduler.terminate_loop
      simp only [ih]

/-- The first part of `resume` on any two queues: the queues stay queues of
distinct threads, and only `_thread` can join them. -/
theorem append_ready_inv (s s1 : Scheduler) (l m : List Nat) (t : Nat)
    (hl : Chain s.next l s.head) (hm : Chain s.next m s.iohead) (hn : (l ++ m).Nodup)
    (htl : t ∉ l) (htm : t ∉ m) (h : append_ready s t = Outcome.ok s1) :
    ∃ l1 m1, Chain s1.next l1 s1.head ∧ Chain s1.next m1 s1.iohead ∧ (l1 ++ m1).Nodup ∧
      (∀ a, a ∈ l1 ++ m1 → a ∈ l ++ m ∨ a = t) ∧ s1.dispatched = s.dispatched := by
  unfold append_ready at h
  by_cases hh : s.head = none
  · rw [if_pos hh] at h
    have e := Outcome.ok.inj h
    subst e
    have hl0 : l = [] := by
      cases l with
      | nil => rfl
      | cons a l => rw [hh] at hl; exact absurd hl.1 (by simp)
    subst hl0
    refine ⟨[t], m, ?_, ?_, ?_, ?_, rfl⟩
    · simp only [Chain, setnextthread_same, and_self]
    · exact chain_setnext s.next m s.iohead t none htm hm
    · simp only [List.singleton_append, List.nodup_cons]
      exact ⟨htm, by simpa using hn⟩
    · intro a ha
      simp only [List.singleton_append, List.mem_cons] at ha
      rcases ha with ha | ha
      · right; exact ha
      · left; simpa using ha
  · rw [if_neg hh] at h
    cases hx : s.tail with
    | none => rw [hx] at h; exact absurd h (by simp)
    | some x =>
        rw [hx] at h
        have e := Outcome.ok.inj h
        subst e
        refine ⟨cut x t l, cut x t m, chain_cut s.next x t l s.head htl hl,
          chain_cut s.next x t m s.iohead htm hm, nodup_cut_append x t l m hn htl htm, ?_, rfl⟩
        intro a ha
        rcases List.mem_append.mp ha with ha | ha
        · rcases mem_cut x t a l ha with h1 | h1
          · left; exact List.mem_append_left m h1
          · right; exact h1
        · rcases mem_cut x t a m ha with h1 | h1
          · left; exact List.mem_append_right l h1
          · right; exact h1

/-- The first part of `add_to_ioqueue` on any two queues. -/
theorem append_waiting_inv (s s1 : Scheduler) (l m : List Nat) (t : Nat)
    (hl : Chain s.next l s.head) (hm : Chain s.next m s.iohead) (hn : (l ++ m).Nodup)
    (htl : t ∉ l) (htm : t ∉ m) (h : append_waiting s t = Outcome.ok s1) :
    ∃ l1 m1, Chain s1.next l1 s1.head ∧ Chain s1.next m1 s1.iohead ∧ (l1 ++ m1).Nodup ∧
      (∀ a, a ∈ l1 ++ m1 → a ∈ l ++ m ∨ a = t) ∧ s1.dispatched = s.dispatched := by
  unfold append_waiting at h
  by_cases hh : s.iohead = none
  · rw [if_pos hh] at h
    have e := Outcome.ok.inj h
    subst e
    have hm0 : m = [] := by
      cases m with
      | nil => rfl
      | cons a m => rw [hh] at hm; exact absurd hm.1 (by simp)
    subst hm0
    refine ⟨l, [t], ?_, ?_, ?_, ?_, rfl⟩
    · exact chain_setnext s.next l s.head t none htl hl
    · simp only [Chain, setnextthread_same, and_self]
    · rw [List.append_nil] at hn
      apply List.Nodup.append hn (List.nodup_singleton t)
      intro a ha hat
      rw [List.mem_singleton] at hat
      exact htl (hat ▸ ha)
    · intro a ha
      rcases List.mem_append.mp ha with ha | ha
      · left; exact List.mem_append_left [] ha
      · right; simpa using ha
  · rw [if_neg hh] at h
    cases hx : s.iotail with
    | none => rw [hx] at h; exact absurd h (by simp)
    | some x =>
        rw [hx] at h
        have e := Outcome.ok.inj h
        subst e
        refine ⟨cut x t l, cut x t m, chain_cut s.next x t l s.head htl hl,
          chain_cut s.next x t m s.iohead htm hm, nodup_cut_append x t l m hn htl htm, ?_, rfl⟩
        intro a ha
        rcases List.mem_append.mp ha with ha | ha
        · rcases mem_cut x t a l ha with h1 | h1
          · left; exact List.mem_append_left m h1
          · right; exact h1
        · rcases mem_cut x t a m ha with h1 | h1
          · left; exact List.mem_append_right l h1
          · right; exact h1

/-- The second part of `resume` on any two queues: no thread joins them. -/
theorem drain_inv (s s1 : Scheduler) (l m : List Nat) (status : Nat)
    (hl : Chain s.next l s.head) (hm : Chain s.next m s.iohead) (hn : (l ++ m).Nodup)
    (h : drain s status = Outcome.ok s1) :
    ∃ l1 m1, Chain s1.next l1 s1.head ∧ Chain s1.next m1 s1.iohead ∧ (l1 ++ m1).Nodup ∧
      (∀ a, a ∈ l1 ++ m1 → a ∈ l ++ m) ∧ s1.dispatched = s.dispatched := by
  unfold drain at h
  cases m with
  | nil =>
      have hi : s.iohead = none := hm
      rw [hi] at h
      have e := Outcome.ok.inj h
      subst e
      exact ⟨l, [], hl, hm, hn, fun a ha => ha, rfl⟩
  | cons i rest =>
      have hi : s.iohead = some i := hm.1
      have hrest : Chain s.next rest (s.next i) := hm.2
      rw [hi] at h
      by_cases hb : (status &&& 0x08) ≠ 0
      · simp only [hb, ne_eq, not_false_eq_true, if_true] at h
        have hil : i ∉ l := fun e =>
          (List.disjoint_of_nodup_append hn) e (List.mem_cons_self i rest)
        have hn2 : (i :: rest).Nodup := (List.nodup_append.mp hn).2.1
        have hir : i ∉ rest := (List.nodup_cons.mp hn2).1
        have hn3 : (l ++ rest).Nodup := by
          have hs : (l ++ rest).Sublist (l ++ i :: rest) :=
            List.Sublist.append (List.Sublist.refl l) (List.sublist_cons_self i rest)
          exact List.Nodup.sublist hs hn
        have hmem : ∀ x a, a ∈ cut x i l ++ cut x i rest → a ∈ l ++ i :: rest := by
          intro x a ha
          rcases List.mem_append.mp ha with ha | ha
          · rcases mem_cut x i a l ha with h1 | h1
            · exact List.mem_append_left _ h1
            · exact List.mem_append_right l (h1 ▸ List.mem_cons_self i rest)
          · rcases mem_cut x i a rest ha with h1 | h1
            · exact List.mem_append_right l (List.mem_cons_of_mem i h1)
            · exact List.mem_append_right l (h1 ▸ List.mem_cons_self i rest)
        by_cases hni : s.next i = none
        · simp only [hni, if_true] at h
          cases hx : s.tail with
          | none => rw [hx] at h; exact absurd h (by simp)
          | some x =>
              rw [hx] at h
              have e := Outcome.ok.inj h
              subst e
              refine ⟨cut x i l, cut x i rest, chain_cut s.next x i l s.head hil hl, ?_,
                nodup_cut_append x i l rest hn3 hil hir, hmem x, rfl⟩
              have := chain_cut s.next x i rest (s.next i) hir hrest
              rw [hni] at this
              exact this
        · simp only [hni, if_false] at h
          cases hx : s.tail with
          | none => rw [hx] at h; exact absurd h (by simp)
          | some x =>
              rw [hx] at h
              have e := Outcome.ok.inj h
              subst e
              exact ⟨cut x i l, cut x i rest, chain_cut s.next x i l s.head hil hl,
                chain_cut s.next x i rest (s.next i) hir hrest,
                nodup_cut_append x i l rest hn3 hil hir, hmem x, rfl⟩
      · simp only [hb, if_false] at h
        have e := Outcome.ok.inj h
        subst e
        exact ⟨l, i :: rest, hl, hm, hn, fun a ha => ha, rfl⟩

/-- The method `yield` on a non-empty ready queue removes its head and
dispatches to it. -/
theorem yield_spec (s : Scheduler) (h : Nat) (l : List Nat)
    (hc : Chain s.next (h :: l) s.head) :
    ∃ s1, yield s = Outcome.ok s1 ∧ Chain s1.next l s1.head ∧ s1.next = s.next ∧
      s1.iohead = s.iohead ∧ s1.iotail = s.iotail ∧
      s1.dispatched = s.dispatched ++ [h] ∧
      (l = [] → s1.tail = none) ∧ (l ≠ [] → s1.tail = s.tail) := by
  have hh : s.head = some h := hc.1
  have hc2 : Chain s.next l (s.next h) := hc.2
  by_cases hn : s.next h = none
  · refine ⟨{ s with head := s.next h, tail := none, dispatched := s.dispatched ++ [h] },
      by simp only [yield, hh, hn, if_true], ?_, rfl, rfl, rfl, rfl, fun _ => rfl, ?_⟩
    · rw [hn] at hc2
      cases l with
      | nil => exact hn
      | cons b l => exact absurd hc2.1 (by simp)
    · intro hl
      rw [hn] at hc2
      cases l with
      | nil => exact absurd rfl hl
      | cons b l => exact absurd hc2.1 (by simp)
  · refine ⟨{ s with head := s.next h, dispatched := s.dispatched ++ [h] },
      by simp only [yield, hh, hn, if_false], hc2, rfl, rfl, rfl, rfl, ?_, fun _ => rfl⟩
    intro hl
    rw [hl] at hc2
    exact absurd hc2 hn

theorem yield_fault (s : Scheduler) (h : s.head = none) : yield s = Outcome.fault := by
  simp only [yield, h]

/-- Whatever `tail` is and however many iterations it is given, a
`terminate` that returns leaves a ready queue that is part of the old one,
and the I/O queue as it is. -/
theorem terminate_inv (s s1 : Scheduler) (l m : List Nat) (t fuel : Nat)
    (hl : Chain s.next l s.head) (hm : Chain s.next m s.iohead) (hn : (l ++ m).Nodup)
    (h : terminate fuel s t = Outcome.ok s1) :
    ∃ l1, Chain s1.next l1 s1.head ∧ Chain s1.next m s1.iohead ∧ l1.Sublist l ∧
      s1.dispatched = s.dispatched := by
  unfold terminate at h
  cases l with
  | nil =>
      have hh : s.head = none := hl
      simp only [hh] at h
      unfold terminate_loop at h
      simp only [Bool.true_eq_false, if_false, Outcome.bind] at h
      exact absurd h (by simp)
  | cons a l =>
      have hh : s.head = some a := hl.1
      have hc2 : Chain s.next l (s.next a) := hl.2
      have hnl : (a :: l).Nodup := (List.nodup_append.mp hn).1
      by_cases hta : t = a
      · subst hta
        simp only [hh, if_true] at h
        by_cases htl : s.tail = some t
        · simp only [htl, if_true] at h
          have e := Outcome.ok.inj h
          subst e
          exact ⟨[], rfl, hm, List.nil_sublist _, rfl⟩
        · simp only [htl, if_false] at h
          have e := Outcome.ok.inj h
          subst e
          exact ⟨l, hc2, hm, List.sublist_cons_self t l, rfl⟩
      · have hne2 : ¬ (some t = some a) := fun e => hta (Option.some.inj e)
        simp only [hh, hne2, if_false] at h
        rw [terminate_loop_eq] at h
        rcases Mp5.Scheduler.terminate_loop_spec t l a fuel s.next hc2 hnl hta with
          ⟨h1, _⟩ | ⟨next1, h1, h2, h3, _⟩
        · rw [h1] at h
          exact absurd h (by simp [Outcome.bind])
        · rw [h1] at h
          simp only [Outcome.bind] at h
          have e := Outcome.ok.inj h
          subst e
          refine ⟨a :: l.erase t, ⟨rfl, h2⟩, ?_, ?_, rfl⟩
          · apply chain_congr s.next next1 m s.iohead _ hm
            intro x hx
            apply h3
            intro e
            exact (List.disjoint_of_nodup_append hn) e hx
          · exact List.Sublist.cons₂ a (List.erase_sublist t l)

/-- The first part of `resume` when `tail` is the last thread of the ready
queue: `_thread` becomes the last thread, the I/O queue is untouched. -/
theorem append_ready_spec (s : Scheduler) (l m : List Nat) (t : Nat)
    (hl : Chain s.next l s.head) (hm : Chain s.next m s.iohead) (hn : (l ++ m).Nodup)
    (ht : s.tail = l.getLast?) (htl : t ∉ l) (htm : t ∉ m) :
    ∃ s1, append_ready s t = Outcome.ok s1 ∧ Chain s1.next (l ++ [t]) s1.head ∧
      Chain s1.next m s1.iohead ∧ s1.tail = some t ∧ s1.iohead = s.iohead ∧
      s1.iotail = s.iotail ∧ s1.dispatched = s.dispatched := by
  cases l with
  | nil =>
      have hh : s.head = none := hl
      refine ⟨{ s with head := some t, next := setnextthread s.next t none, tail := some t },
        by simp only [append_ready, hh, if_true], ?_, ?_, rfl, rfl, rfl, rfl⟩
      · simp only [List.nil_append, Chain, setnextthread_same, and_self]
      · exact chain_setnext s.next m s.iohead t none htm hm
  | cons a l =>
      have hh : s.head = some a := hl.1
      obtain ⟨x, hx⟩ : ∃ x, (a :: l).getLast? = some x :=
        ⟨(a :: l).getLast (by simp), List.getLast?_eq_getLast _ _⟩
      have hne : ¬ (s.head = none) := by rw [hh]; simp
      rw [hx] at ht
      have hxl : x ∈ a :: l := List.mem_of_getLast?_eq_some hx
      have hxm : x ∉ m := fun e => (List.disjoint_of_nodup_append hn) hxl e
      refine ⟨{ s with next := setnextthread (setnextthread s.next x (some t)) t none,
                       tail := some t },
        by simp only [append_ready, hne, if_false, ht], ?_, ?_, rfl, rfl, rfl, rfl⟩
      · have := chain_cut s.next x t (a :: l) s.head htl hl
        rw [cut_last x t (a :: l) (List.nodup_append.mp hn).1 hx] at this
        exact this
      · have := chain_cut s.next x t m s.iohead htm hm
        rw [cut_of_not_mem x t m hxm] at this
        exact this

/-- The first part of `add_to_ioqueue` when `iotail` is the last thread of
the I/O queue: `_thread` becomes the last thread, the ready queue is
untouched. -/
theorem append_waiting_spec (s : Scheduler) (l m : List Nat) (t : Nat)
    (hl : Chain s.next l s.head) (hm : Chain s.next m s.iohead) (hn : (l ++ m).Nodup)
    (ht : s.iotail = m.getLast?) (htl : t ∉ l) (htm : t ∉ m) :
    ∃ s1, append_waiting s t = Outcome.ok s1 ∧ Chain s1.next l s1.head ∧
      Chain s1.next (m ++ [t]) s1.iohead ∧ s1.iotail = some t ∧ s1.head = s.head ∧
      s1.tail = s.tail ∧ s1.dispatched = s.dispatched := by
  cases m with
  | nil =>
      have hh : s.iohead = none := hm
      refine ⟨{ s with iohead := some t, next := setnextthread s.next t none,
                       iotail := some t },
        by simp only [append_waiting, hh, if_true], ?_, ?_, rfl, rfl, rfl, rfl⟩
      · exact chain_setnext s.next l s.head t none htl hl
      · simp only [List.nil_append, Chain, setnextthread_same, and_self]
  | cons a m =>
      have hh : s.iohead = some a := hm.1
      obtain ⟨x, hx⟩ : ∃ x, (a :: m).getLast? = some x :=
        ⟨(a :: m).getLast (by simp), List.getLast?_eq_getLast _ _⟩
      have hne : ¬ (s.iohead = none) := by rw [hh]; simp
      rw [hx] at ht
      have hxm : x ∈ a :: m := List.mem_of_getLast?_eq_some hx
      have hxl : x ∉ l := fun e => (List.disjoint_of_nodup_append hn) e hxm
      refine ⟨{ s with next := setnextthread (setnextthread s.next x (some t)) t none,
                       iotail := some t },
        by simp only [append_waiting, hne, if_false, ht], ?_, ?_, rfl, rfl, rfl, rfl⟩
      · have := chain_cut s.next x t l s.head htl hl
        rw [cut_of_not_mem x t l hxl] at this
        exact this
      · have := chain_cut s.next x t (a :: m) s.iohead htm hm
        rw [cut_last x t (a :: m) (List.nodup_append.mp hn).2.1 hx] at this
        exact this

/-- The second part of `resume` when the I/O queue is empty or bit 3 of the
status byte is clear: nothing changes. -/
theorem drain_skip (s : Scheduler) (status : Nat)
    (h : s.iohead = none ∨ (status &&& 0x08) = 0) : drain s status = Outcome.ok s := by
  unfold drain
  cases hi : s.iohead with
  | none => rfl
  | some i =>
      rcases h with h | h
      · rw [hi] at h; exact absurd h (by simp)
      · simp only [h, ne_eq, not_true_eq_false, if_false]

/-- The second part of `resume` when the I/O queue is not empty, bit 3 of
the status byte is set and `tail` is the last thread of the ready queue: the
head of the I/O queue becomes the last thread of the ready queue. -/
theorem drain_spec (s : Scheduler) (l rest : List Nat) (i x status : Nat)
    (hl : Chain s.next l s.head) (hm : Chain s.next (i :: rest) s.iohead)
    (hn : (l ++ i :: rest).Nodup) (ht : s.tail = some x) (hx : l.getLast? = some x)
    (hb : (status &&& 0x08) ≠ 0) :
    ∃ s1, drain s status = Outcome.ok s1 ∧ Chain s1.next (l ++ [i]) s1.head ∧
      Chain s1.next rest s1.iohead ∧ s1.tail = some i ∧ s1.dispatched = s.dispatched := by
  have hi : s.iohead = some i := hm.1
  have hrest : Chain s.next rest (s.next i) := hm.2
  have hil : i ∉ l := fun e =>
    (List.disjoint_of_nodup_append hn) e (List.mem_cons_self i rest)
  have hn2 : (i :: rest).Nodup := (List.nodup_append.mp hn).2.1
  have hir : i ∉ rest := (List.nodup_cons.mp hn2).1
  have hxl : x ∈ l := List.mem_of_getLast?_eq_some hx
  have hxr : x ∉ rest := fun e =>
    (List.disjoint_of_nodup_append hn) hxl (List.mem_cons_of_mem i e)
  have c1 := chain_cut s.next x i l s.head hil hl
  rw [cut_last x i l (List.nodup_append.mp hn).1 hx] at c1
  have c2 := chain_cut s.next x i rest (s.next i) hir hrest
  rw [cut_of_not_mem x i rest hxr] at c2
  by_cases hni : s.next i = none
  · refine ⟨{ s with iohead := s.next i, iotail := none,
                     next := setnextthread (setnextthread s.next x (some i)) i none,
                     tail := some i },
      by simp only [drain, hi, hb, ne_eq, not_false_eq_true, if_true, hni, ht],
      c1, ?_, rfl, rfl⟩
    exact c2
  · refine ⟨{ s with iohead := s.next i,
                     next := setnextthread (setnextthread s.next x (some i)) i none,
                     tail := some i },
      by simp only [drain, hi, hb, ne_eq, not_false_eq_true, if_true, hni, if_false, ht],
      c1, c2, rfl, rfl⟩

theorem adds_spec : ∀ (ps : List (Nat × Nat)) (l : List Nat) (s : Scheduler),
    Chain s.next l s.head → s.iohead = none → (l ++ ps.map Prod.fst).Nodup →
    s.tail = l.getLast? →
    ∃ s1, adds ps s = Outcome.ok s1 ∧ Chain s1.next (l ++ ps.map Prod.fst) s1.head ∧
      s1.iohead = none ∧ s1.tail = (l ++ ps.map Prod.fst).getLast? ∧
      s1.dispatched = s.dispatched := by
  intro ps
  induction ps with
  | nil =>
      intro l s hc hi _ ht
      refine ⟨s, rfl, ?_, hi, ?_, rfl⟩
      · simp only [List.map_nil, List.append_nil]; exact hc
      · simp only [List.map_nil, List.append_nil]; exact ht
  | cons p ps ih =>
      intro l s hc hi hn ht
      simp only [List.map_cons] at hn ⊢
      have hn1 : l.Nodup := (List.nodup_append.mp hn).1
      have htl : p.1 ∉ l := by
        intro e
        exact (List.disjoint_of_nodup_append hn) e (List.mem_cons_self _ _)
      have hm : Chain s.next [] s.iohead := hi
      obtain ⟨s1, h1, h2, _, h4, h5, _, h7⟩ :=
        append_ready_spec s l [] p.1 hc hm (by rw [List.append_nil]; exact hn1) ht htl
          (List.not_mem_nil _)
      have hi1 : s1.iohead = none := by rw [h5, hi]
      have hr : resume s p.1 p.2 = Outcome.ok s1 := by
        simp only [resume, h1, Outcome.bind]
        exact drain_skip s1 p.2 (Or.inl hi1)
      have hn2 : ((l ++ [p.1]) ++ ps.map Prod.fst).Nodup := by
        rw [List.append_assoc]; exact hn
      have ht2 : s1.tail = (l ++ [p.1]).getLast? := by
        rw [h4, List.getLast?_append, List.getLast?_singleton]
        rfl
      obtain ⟨s2, g1, g2, g3, g4, g5⟩ := ih (l ++ [p.1]) s1 h2 hi1 hn2 ht2
      refine ⟨s2, ?_, ?_, g3, ?_, ?_⟩
      · simp only [adds, add, hr, Outcome.bind]
        exact g1
      · rw [List.append_assoc] at g2; exact g2
      · rw [List.append_assoc] at g4; exact g4
      · rw [g5, h7]

theorem yields_spec : ∀ (l : List Nat) (s : Scheduler),
    Chain s.next l s.head → s.tail = l.getLast? →
    ∃ s1, yields l.length s = Outcome.ok s1 ∧ s1.head = none ∧ s1.tail = none ∧
      s1.iohead = s.iohead ∧ s1.dispatched = s.dispatched ++ l := by
  intro l
  induction l with
  | nil =>
      intro s hc ht
      exact ⟨s, rfl, hc, ht, rfl, by rw [List.append_nil]⟩
  | cons h l ih =>
      intro s hc ht
      obtain ⟨s1, h1, h2, _, h3, _, h4, h5, h6⟩ := yield_spec s h l hc
      have ht1 : s1.tail = l.getLast? := by
        cases l with
        | nil => exact h5 rfl
        | cons b l =>
            rw [h6 (by simp), ht, List.getLast?_cons_cons]
      obtain ⟨s2, g1, g2, g3, g4, g5⟩ := ih s1 h2 ht1
      refine ⟨s2, ?_, g2, g3, by rw [g4, h3], ?_⟩
      · simp only [List.length_cons, yields, h1, Outcome.bind]
        exact g1
      · rw [g5, h4, List.append_assoc]
        rfl

/-- In every reachable state the two queues are queues of distinct threads
without a common thread, and the thread dispatched last and not resumed
since is in neither. -/
theorem reachable_inv (s : Scheduler) (g : Option Nat) (h : Reachable s g) :
    ∃ l m, Chain s.next l s.head ∧ Chain s.next m s.iohead ∧ (l ++ m).Nodup ∧
      ∀ r, g = some r → r ∉ l ++ m := by
  induction h with
  | construct next =>
      exact ⟨[], [], rfl, rfl, List.nodup_nil, fun _ _ => List.not_mem_nil _⟩
  | resume s s1 g t status _ hin hr ih =>
      obtain ⟨l, m, hl, hm, hn, hg⟩ := ih
      have htl : t ∉ l := hin l (Or.inl hl)
      have htm : t ∉ m := hin m (Or.inr hm)
      obtain ⟨s2, h1, h2⟩ := Outcome.bind_ok _ _ _ hr
      obtain ⟨l1, m1, a1, a2, a3, a4, _⟩ := append_ready_inv s s2 l m t hl hm hn htl htm h1
      obtain ⟨l2, m2, b1, b2, b3, b4, _⟩ := drain_inv s2 s1 l1 m1 status a1 a2 a3 h2
      refine ⟨l2, m2, b1, b2, b3, ?_⟩
      intro r hr2 hmem
      by_cases hgt : g = some t
      · rw [if_pos hgt] at hr2
        exact absurd hr2 (by simp)
      · rw [if_neg hgt] at hr2
        rcases a4 r (b4 r hmem) with h3 | h3
        · exact hg r hr2 h3
        · exact hgt (h3 ▸ hr2)
  | yield s s1 g h _ hh hy ih =>
      obtain ⟨l, m, hl, hm, hn, _⟩ := ih
      cases l with
      | nil =>
          have : s.head = none := hl
          rw [this] at hh
          exact absurd hh (by simp)
      | cons a l =>
          have e : a = h := by
            have := hl.1.symm.trans hh
            exact Option.some.inj this
          subst e
          obtain ⟨s2, h1, h2, h3, h4, _, _, _, _⟩ := yield_spec s a l hl
          rw [h1] at hy
          have e2 := Outcome.ok.inj hy
          subst e2
          refine ⟨l, m, h2, ?_, ?_, ?_⟩
          · rw [h3, h4]; exact hm
          · exact List.Nodup.sublist
              (List.Sublist.append (List.sublist_cons_self a l) (List.Sublist.refl m)) hn
          · intro r hr
            have e3 : a = r := Option.some.inj hr
            subst e3
            have : (a :: (l ++ m)).Nodup := by simpa using hn
            exact (List.nodup_cons.mp this).1
  | terminate s s1 g fuel t _ ht ih =>
      obtain ⟨l, m, hl, hm, hn, hg⟩ := ih
      obtain ⟨l1, a1, a2, a3, _⟩ := terminate_inv s s1 l m t fuel hl hm hn ht
      refine ⟨l1, m, a1, a2, ?_, ?_⟩
      · exact List.Nodup.sublist (List.Sublist.append a3 (List.Sublist.refl m)) hn
      · intro r hr hmem
        apply hg r hr
        rcases List.mem_append.mp hmem with h1 | h1
        · exact List.mem_append_left m (a3.subset h1)
        · exact List.mem_append_right l h1
  | add_to_ioqueue s s1 g r _ _ hin ha ih =>
      obtain ⟨l, m, hl, hm, hn, _⟩ := ih
      have htl : r ∉ l := hin l (Or.inl hl)
      have htm : r ∉ m := hin m (Or.inr hm)
      obtain ⟨s2, h1, h2⟩ := Outcome.bind_ok _ _ _ ha
      obtain ⟨l1, m1, a1, a2, a3, _, _⟩ := append_waiting_inv s s2 l m r hl hm hn htl htm h1
      cases l1 with
      | nil =>
          have : s2.head = none := a1
          rw [yield_fault s2 this] at h2
          exact absurd h2 (by simp)
      | cons a l1 =>
          obtain ⟨s3, b1, b2, b3, b4, _, b6, _, _⟩ := yield_spec s2 a l1 a1
          rw [b1] at h2
          have e2 := Outcome.ok.inj h2
          subst e2
          refine ⟨l1, m1, b2, ?_, ?_, ?_⟩
          · rw [b3, b4]; exact a2
          · exact List.Nodup.sublist
              (List.Sublist.append (List.sublist_cons_self a l1) (List.Sublist.refl m1)) a3
          · intro x hx
            rw [b6, List.getLast?_append, List.getLast?_singleton] at hx
            have e3 : a = x := by simpa using hx
            subst e3
            have : (a :: (l1 ++ m1)).Nodup := by simpa using a3
            exact (List.nodup_cons.mp this).1

theorem reachable_oneReady : Reachable oneReady none :=
  Reachable.resume (construct (fun _ => none)) oneReady none 1 0
    (Reachable.construct (fun _ => none))
    (fun l hl => by
      have e : l = [] := by
        cases l with
        | nil => rfl
        | cons a l =>
            rcases hl with hl | hl
            · exact absurd hl.1 (by simp [construct])
            · exact absurd hl.1 (by simp [construct])
      rw [e]
      exact List.not_mem_nil 1)
    rfl

theorem inNeither_of_chains (s : Scheduler) (l m : List Nat) (t : Nat)
    (hl : Chain s.next l s.head) (hm : Chain s.next m s.iohead)
    (htl : t ∉ l) (htm : t ∉ m) : InNeither s t := by
  intro l1 h
  rcases h with h | h
  · rw [chain_unique s.next l1 l s.head h hl]
    exact htl
  · rw [chain_unique s.next l1 m s.iohead h hm]
    exact htm

theorem reachable_fourReady : Reachable fourReady none :=
  Reachable.resume threeReady fourReady none 4 0
    (Reachable.resume twoReady threeReady none 3 0
      (Reachable.resume oneReady twoReady none 2 0 reachable_oneReady
        (inNeither_of_chains oneReady [1] [] 2 (by decide) (by decide) (by decide)
          (by decide))
        rfl)
      (inNeither_of_chains twoReady [1, 2] [] 3 (by decide) (by decide) (by decide)
        (by decide))
      rfl)
    (inNeither_of_chains threeReady [1, 2, 3] [] 4 (by decide) (by decide) (by decide)
      (by decide))
    rfl

theorem reachable_oneWaits : Reachable oneWaits (some 2) :=
  Reachable.add_to_ioqueue oneRuns oneWaits (some 1) 1
    (Reachable.yield fourReady oneRuns none 1 reachable_fourReady rfl rfl)
    rfl
    (inNeither_of_chains oneRuns [2, 3, 4] [] 1 (by decide) (by decide) (by decide)
      (by decide))
    rfl

/-- C22: starting from an empty scheduler, after `add(t1)`, ..., `add(tk)`
of distinct threads the ready queue is `t1, ..., tk`, and `k` successive
`yield()` calls dispatch `t1, ..., tk` in exactly that order and leave the
ready queue empty, `head` and `tail` both null.  This holds for the
scheduler of mp5 and, with the I/O queue empty and whatever the status port
holds, for the scheduler of mp6. -/
theorem ready_queue_fifo (next : Nat → Option Nat) (ps : List (Nat × Nat))
    (hd : (ps.map Prod.fst).Nodup) :
    (∃ s1 s2, Mp5.Scheduler.adds (ps.map Prod.fst) (Mp5.Scheduler.construct next)
        = Outcome.ok s1 ∧
      Chain s1.next (ps.map Prod.fst) s1.head ∧
      Mp5.Scheduler.yields (ps.map Prod.fst).length s1 = Outcome.ok s2 ∧
      s2.dispatched = ps.map Prod.fst ∧ s2.head = none ∧ s2.tail = none) ∧
    (∃ s1 s2, adds ps (construct next) = Outcome.ok s1 ∧
      Chain s1.next (ps.map Prod.fst) s1.head ∧
      yields (ps.map Prod.fst).length s1 = Outcome.ok s2 ∧
      s2.dispatched = ps.map Prod.fst ∧ s2.head = none ∧ s2.tail = none ∧
      s2.iohead = none) := by
  constructor
  · obtain ⟨s1, h1, h2, h3, h4⟩ := Mp5.Scheduler.mp5_adds_spec (ps.map Prod.fst) []
      (Mp5.Scheduler.construct next) rfl (by rw [List.nil_append]; exact hd) rfl
    rw [List.nil_append] at h2 h3
    obtain ⟨s2, g1, g2, g3, g4⟩ := Mp5.Scheduler.mp5_yields_spec (ps.map Prod.fst) s1 h2 h3
    refine ⟨s1, s2, h1, h2, g1, ?_, g2, g3⟩
    rw [g4, h4]
    rfl
  · obtain ⟨s1, h1, h2, h3, h4, h5⟩ := adds_spec ps [] (construct next) rfl rfl
      (by rw [List.nil_append]; exact hd) rfl
    rw [List.nil_append] at h2 h4
    obtain ⟨s2, g1, g2, g3, g4, g5⟩ := yields_spec (ps.map Prod.fst) s1 h2 h4
    refine ⟨s1, s2, h1, h2, g1, ?_, g2, g3, by rw [g4, h3]⟩
    rw [g5, h5]
    rfl

/-- Witness of C22: one `resume` followed by one `yield` runs that thread
and leaves the queue empty, in mp5 and in mp6. -/
theorem ready_queue_fifo_witness :
    (∃ s1 s2, Mp5.Scheduler.adds [7] (Mp5.Scheduler.construct (fun _ => none))
        = Outcome.ok s1 ∧
      Chain s1.next [7] s1.head ∧
      Mp5.Scheduler.yields 1 s1 = Outcome.ok s2 ∧
      s2.dispatched = [7] ∧ s2.head = none ∧ s2.tail = none) ∧
    (∃ s1 s2, adds [(7, 8)] (construct (fun _ => none)) = Outcome.ok s1 ∧
      Chain s1.next [7] s1.head ∧
      yields 1 s1 = Outcome.ok s2 ∧
      s2.dispatched = [7] ∧ s2.head = none ∧ s2.tail = none ∧ s2.iohead = none) :=
  ready_queue_fifo (fun _ => none) [(7, 8)] (by decide)

/-- C23 at the failing input: on the empty ready queue `terminate(t)` does
not return silently.  `_thread` is not `head`, so the loop is entered, and
its condition calls `check_thread->getnextthread()` on the null pointer, in
mp5 and in mp6 alike. -/
theorem terminate_empty_faults :
    ∀ (fuel : Nat) (next : Nat → Option Nat) (t : Nat),
      Mp5.Scheduler.terminate fuel (Mp5.Scheduler.construct next) t = Outcome.fault ∧
      terminate fuel (construct next) t = Outcome.fault := by
  intro fuel next t
  constructor
  · unfold Mp5.Scheduler.terminate Mp5.Scheduler.terminate_loop
    simp [Mp5.Scheduler.construct, Outcome.bind]
  · unfold terminate terminate_loop
    simp [construct, Outcome.bind]

/-- The drain of `resume` when `tail` is the last thread of the ready queue:
with the ready queue `l` (its last thread in `tail`), the I/O queue
`m` and a thread `t` in neither, `resume(t)` returns; if the I/O queue is
`i :: rest` and bit 3 of the byte read from port `0x1F7` is set, the ready
queue becomes `l, t, i` and the I/O queue `rest`; if the I/O queue is empty
or the bit is clear, the ready queue becomes `l, t` and the I/O queue is
unchanged. -/
theorem resume_drains_one (s : Scheduler) (l m : List Nat) (t status : Nat)
    (hl : Chain s.next l s.head) (hm : Chain s.next m s.iohead) (hn : (l ++ m).Nodup)
    (ht : s.tail = l.getLast?) (htl : t ∉ l) (htm : t ∉ m) :
    ∃ s1, resume s t status = Outcome.ok s1 ∧ s1.dispatched = s.dispatched ∧
      (∀ i rest, m = i :: rest → (status &&& 0x08) ≠ 0 →
        Chain s1.next (l ++ [t, i]) s1.head ∧ Chain s1.next rest s1.iohead ∧
        s1.tail = some i) ∧
      (m = [] ∨ (status &&& 0x08) = 0 →
        Chain s1.next (l ++ [t]) s1.head ∧ Chain s1.next m s1.iohead ∧
        s1.iohead = s.iohead ∧ s1.iotail = s.iotail ∧ s1.tail = some t) := by
  obtain ⟨s2, h1, h2, h3, h4, h5, h6, h7⟩ := append_ready_spec s l m t hl hm hn ht htl htm
  by_cases hc : m = [] ∨ (status &&& 0x08) = 0
  · have hi : s2.iohead = none ∨ (status &&& 0x08) = 0 := by
      rcases hc with hc | hc
      · left
        rw [hc] at h3
        exact h3
      · right; exact hc
    refine ⟨s2, ?_, h7, ?_, fun _ => ⟨h2, h3, h5, h6, h4⟩⟩
    · simp only [resume, h1, Outcome.bind]
      exact drain_skip s2 status hi
    · intro i rest hm2 hb
      rcases hc with hc | hc
      · rw [hc] at hm2
        exact absurd hm2 (by simp)
      · exact absurd hc hb
  · have hb : (status &&& 0x08) ≠ 0 := fun e => hc (Or.inr e)
    cases m with
    | nil => exact absurd (Or.inl rfl) hc
    | cons i rest =>
        have hn2 : ((l ++ [t]) ++ i :: rest).Nodup := by
          have e : (l ++ [t]) ++ i :: rest = l ++ t :: (i :: rest) := by simp
          rw [e, List.nodup_middle, List.nodup_cons]
          refine ⟨?_, hn⟩
          intro e2
          rcases List.mem_append.mp e2 with e2 | e2
          · exact htl e2
          · exact htm e2
        have hlast : (l ++ [t]).getLast? = some t := by
          rw [List.getLast?_append, List.getLast?_singleton]
          rfl
        obtain ⟨s1, g1, g2, g3, g4, g5⟩ :=
          drain_spec s2 (l ++ [t]) rest i t status h2 h3 hn2 h4 hlast hb
        refine ⟨s1, ?_, by rw [g5, h7], ?_, fun h => absurd h hc⟩
        · simp only [resume, h1, Outcome.bind]
          exact g1
        · intro i1 rest1 hm2 _
          have e1 : i = i1 := (List.cons.inj hm2).1
          have e2 : rest = rest1 := (List.cons.inj hm2).2
          subst e1 e2
          have e3 : l ++ [t, i] = (l ++ [t]) ++ [i] := by simp
          rw [e3]
          exact ⟨g2, g3, g4⟩

/-- Instance of `resume_drains_one`: thread 1 ready, thread 2 waiting for
I/O, `resume(3)`
with the status byte 8. -/
theorem resume_drains_one_witness :
    ∃ s1, resume ioWaiting 3 8 = Outcome.ok s1 ∧
      Chain s1.next [1, 3, 2] s1.head ∧ Chain s1.next [] s1.iohead :=
  have h := resume_drains_one ioWaiting [1] [2] 3 8 (by decide) (by decide) (by decide)
    (by decide) (by decide) (by decide)
  h.elim (fun s1 h1 =>
    ⟨s1, h1.1, (h1.2.2.1 2 [] rfl (by decide)).1, (h1.2.2.1 2 [] rfl (by decide)).2.1⟩)

/-- C24 at the failing inputs.  From the empty scheduler, `add(1)`, `add(2)`
and `terminate(2)` leave thread 1 ready with `tail` on the removed thread 2;
`resume(3)` of thread 3, which is in neither queue, returns and the ready
queue is still thread 1 alone.  With a thread waiting: `add(1)`, ...,
`add(4)` and `yield()` give the state `oneRuns`; after `terminate(4)` and
`add_to_ioqueue(1)` thread 3 is ready, thread 1 waits for I/O and `tail` is
on the removed thread 4; `resume(5)` with bit 3 of the status byte set takes
thread 1 out of the I/O queue, and the ready queue is still thread 3 alone:
neither thread 5 nor thread 1 has been appended to it. -/
theorem resume_behind_stale_tail :
    (∃ s1 s2 s3 s4,
      add (construct (fun _ => none)) 1 0 = Outcome.ok s1 ∧
      add s1 2 0 = Outcome.ok s2 ∧
      terminate 8 s2 2 = Outcome.ok s3 ∧
      (Chain s3.next [1] s3.head ∧ Chain s3.next [] s3.iohead ∧ s3.tail = some 2) ∧
      resume s3 3 0 = Outcome.ok s4 ∧
      (Chain s4.next [1] s4.head ∧ Chain s4.next [] s4.iohead)) ∧
    (add (construct (fun _ => none)) 1 0 = Outcome.ok oneReady ∧
      add oneReady 2 0 = Outcome.ok twoReady ∧
      add twoReady 3 0 = Outcome.ok threeReady ∧
      add threeReady 4 0 = Outcome.ok fourReady ∧
      yield fourReady = Outcome.ok oneRuns) ∧
    (∃ s6 s7 s8,
      terminate 8 oneRuns 4 = Outcome.ok s6 ∧
      add_to_ioqueue s6 1 = Outcome.ok s7 ∧
      (Chain s7.next [3] s7.head ∧ Chain s7.next [1] s7.iohead ∧ s7.tail = some 4) ∧
      resume s7 5 8 = Outcome.ok s8 ∧
      (Chain s8.next [3] s8.head ∧ Chain s8.next [] s8.iohead)) :=
  ⟨⟨_, _, _, _, rfl, rfl, rfl, by decide, rfl, by decide⟩,
    ⟨rfl, rfl, rfl, rfl, rfl⟩,
    ⟨_, _, _, rfl, rfl, by decide, rfl, by decide⟩⟩

/-- The method `add_to_ioqueue` when `iotail` is the last thread of the I/O
queue: with the ready queue `h :: l`, the I/O queue `m` (its last thread in
`iotail`) and a thread `t` in neither, `add_to_ioqueue(t)` returns with the
I/O queue `m, t`, the ready queue `l`, and `h` dispatched. -/
theorem add_to_ioqueue_spec (s : Scheduler) (h : Nat) (l m : List Nat) (t : Nat)
    (hl : Chain s.next (h :: l) s.head) (hm : Chain s.next m s.iohead)
    (hn : ((h :: l) ++ m).Nodup) (hio : s.iotail = m.getLast?)
    (htl : t ∉ h :: l) (htm : t ∉ m) :
    ∃ s1, add_to_ioqueue s t = Outcome.ok s1 ∧ Chain s1.next (m ++ [t]) s1.iohead ∧
      Chain s1.next l s1.head ∧ s1.dispatched = s.dispatched ++ [h] := by
  obtain ⟨s2, h1, h2, h3, _, _, _, h7⟩ :=
    append_waiting_spec s (h :: l) m t hl hm hn hio htl htm
  obtain ⟨s1, g1, g2, g3, g4, _, g6, _, _⟩ := yield_spec s2 h l h2
  refine ⟨s1, ?_, ?_, g2, by rw [g6, h7]⟩
  · simp only [add_to_ioqueue, h1, Outcome.bind]
    exact g1
  · rw [g3, g4]
    exact h3

/-- Instance of `add_to_ioqueue_spec`: thread 1 ready, thread 2 waiting for
I/O,
`add_to_ioqueue(3)`. -/
theorem add_to_ioqueue_spec_witness :
    ∃ s1, add_to_ioqueue ioWaiting 3 = Outcome.ok s1 ∧
      Chain s1.next [2, 3] s1.iohead ∧ Chain s1.next [] s1.head ∧ s1.dispatched = [1] :=
  add_to_ioqueue_spec ioWaiting 1 [] [2] 3 (by decide) (by decide) (by decide) (by decide)
    (by decide) (by decide)

/-- C25 at the failing input.  From the empty scheduler, `add(1)`, ...,
`add(4)` and `yield()` give the state `oneRuns` (thread 1 runs).  Then
`resume(1)`, `terminate(1)` (`tail` stays on the removed thread 1),
`add_to_ioqueue(1)` (thread 2 runs) and `resume(2)` link thread 2 behind
thread 1: threads 3 and 4 are ready, the threads reachable from the
I/O-queue head are 1 and 2, and `iotail` is thread 1.  `add_to_ioqueue(9)` of
thread 9, which is in neither queue, then leaves the I/O queue as 1, 9:
thread 2 is no longer in it. -/
theorem add_to_ioqueue_drops_waiting :
    (add (construct (fun _ => none)) 1 0 = Outcome.ok oneReady ∧
      add oneReady 2 0 = Outcome.ok twoReady ∧
      add twoReady 3 0 = Outcome.ok threeReady ∧
      add threeReady 4 0 = Outcome.ok fourReady ∧
      yield fourReady = Outcome.ok oneRuns) ∧
    (∃ s5 s6 s7 s8 s9,
      resume oneRuns 1 0 = Outcome.ok s5 ∧
      terminate 8 s5 1 = Outcome.ok s6 ∧
      add_to_ioqueue s6 1 = Outcome.ok s7 ∧
      resume s7 2 0 = Outcome.ok s8 ∧
      (Chain s8.next [3, 4] s8.head ∧ Chain s8.next [1, 2] s8.iohead ∧
        s8.iotail = some 1) ∧
      add_to_ioqueue s8 9 = Outcome.ok s9 ∧
      (Chain s9.next [1, 9] s9.iohead ∧ Chain s9.next [4] s9.head ∧
        s9.dispatched.getLast? = some 3)) :=
  ⟨⟨rfl, rfl, rfl, rfl, rfl⟩,
    ⟨_, _, _, _, _, rfl, rfl, rfl, rfl, by decide, rfl, by decide⟩⟩

/-- C26 at the failing input: from the empty scheduler, `add(1)`, `add(2)`,
`yield()` (thread 1 runs, in neither queue), `resume(1)`, and then
`add_to_ioqueue(1)` of the running thread 1.  Thread 1 is now reachable from
the ready-queue head and from the I/O-queue head. -/
theorem running_thread_in_both_queues :
    ∃ s1 s2 s3 s4 s5,
      add (construct (fun _ => none)) 1 0 = Outcome.ok s1 ∧
      add s1 2 0 = Outcome.ok s2 ∧
      yield s2 = Outcome.ok s3 ∧
      (s3.dispatched.getLast? = some 1 ∧ Chain s3.next [2] s3.head ∧
        Chain s3.next [] s3.iohead) ∧
      resume s3 1 0 = Outcome.ok s4 ∧
      s4.dispatched.getLast? = some 1 ∧
      add_to_ioqueue s4 1 = Outcome.ok s5 ∧
      Chain s5.next [1] s5.head ∧ Chain s5.next [1] s5.iohead :=
  ⟨_, _, _, _, _, rfl, rfl, rfl, by decide, rfl, by decide, rfl, by decide, by decide⟩

/-- C26, amended: in every state reachable from the empty scheduler by
`add`/`resume` of a thread that is in neither queue, `yield` on a non-empty
ready queue, `terminate`, and `add_to_ioqueue` of the running thread while
it is in neither queue, the ready queue and the I/O queue are sequences of
distinct threads with no thread in common, and the thread most recently
dispatched by `yield` is in neither queue as long as it has not been
resumed. -/
theorem queues_disjoint (s : Scheduler) (g : Option Nat) (h : Reachable s g) :
    ∃ l m, Chain s.next l s.head ∧ Chain s.next m s.iohead ∧ (l ++ m).Nodup ∧
      ∀ r, g = some r → r ∉ l ++ m :=
  reachable_inv s g h

/-- Witness of C26, amended, in the state `oneWaits`, reached by `add(1)`,
`add(2)`, `add(3)`, `add(4)`, `yield()` and `add_to_ioqueue(1)`: threads 3
and 4 are ready, thread 1 waits for I/O, and thread 2, dispatched last and
not resumed, is in neither queue. -/
theorem queues_disjoint_witness :
    Chain oneWaits.next [3, 4] oneWaits.head ∧ Chain oneWaits.next [1] oneWaits.iohead ∧
    ∃ l m, Chain oneWaits.next l oneWaits.head ∧ Chain oneWaits.next m oneWaits.iohead ∧
      (l ++ m).Nodup ∧ ∀ r, some 2 = some r → r ∉ l ++ m :=
  ⟨by decide, by decide, queues_disjoint oneWaits (some 2) reachable_oneWaits⟩

end Scheduler

end Mp6

namespace Mp7

theorem first_index_some (test : Nat → Bool) :
    ∀ k i j, first_index test k i = some j →
      i ≤ j ∧ j < i + k ∧ test j = true ∧ ∀ x, i ≤ x → x < j → test x = false := by
  intro k
  induction k with
  | zero => intro i j h; simp [first_index] at h
  | succ k ih =>
      intro i j h
      unfold first_index at h
      by_cases ht : test i = true
      · rw [if_pos ht] at h
        have e : i = j := Option.some.inj h
        subst e
        exact ⟨Nat.le_refl _, by omega, ht, fun x h1 h2 => by omega⟩
      · rw [if_neg ht] at h
        obtain ⟨a, b, c, d⟩ := ih (i + 1) j h
        refine ⟨by omega, by omega, c, ?_⟩
        intro x h1 h2
        by_cases hx : x = i
        · subst hx; simpa using ht
        · exact d x (by omega) h2

theorem first_index_none (test : Nat → Bool) :
    ∀ k i, first_index test k i = none → ∀ x, i ≤ x → x < i + k → test x = false := by
  intro k
  induction k with
  | zero => intro i _ x h1 h2; omega
  | succ k ih =>
      intro i h x h1 h2
      unfold first_index at h
      by_cases ht : test i = true
      · rw [if_pos ht] at h; exact absurd h (by simp)
      · rw [if_neg ht] at h
        by_cases hx : x = i
        · subst hx; simpa using ht
        · exact ih (i + 1) h x (by omega) (by omega)

theorem first_index_first (test : Nat → Bool) (k j : Nat) (hj : j < k)
    (ht : test j = true) (hf : ∀ x, x < j → test x = false) :
    first_index test k 0 = some j := by
  cases h : first_index test k 0 with
  | none =>
      have := first_index_none test k 0 h j (Nat.zero_le _) (by omega)
      rw [ht] at this
      exact absurd this (by simp)
  | some j1 =>
      obtain ⟨_, _, c, d⟩ := first_index_some test k 0 j1 h
      have : j1 = j := by
        rcases Nat.lt_trichotomy j1 j with hlt | heq | hgt
        · have := hf j1 hlt
          rw [c] at this
          exact absurd this (by simp)
        · exact heq
        · have := d j (Nat.zero_le _) hgt
          rw [ht] at this
          exact absurd this (by simp)
      rw [this]

theorem first_index_none_of (test : Nat → Bool) (k : Nat)
    (hf : ∀ x, x < k → test x = false) : first_index test k 0 = none := by
  cases h : first_index test k 0 with
  | none => rfl
  | some j =>
      obtain ⟨_, b, c, _⟩ := first_index_some test k 0 j h
      have := hf j (by omega)
      rw [c] at this
      exact absurd this (by simp)

theorem setInode_same (inodes : Nat → Inode) (k : Nat) (v : Inode) :
    setInode inodes k v k = v := by
  simp only [setInode, if_true]

theorem setInode_ne (inodes : Nat → Inode) (k : Nat) (v : Inode) (x : Nat) (h : x ≠ k) :
    setInode inodes k v x = inodes x := by
  simp only [setInode, h, if_false]

namespace FileSystem

theorem scan_none_iff (n : Nat) (fs : FileSystem) (_file_id : Int) :
    first_index (fun i => (fs.inodes i).val && decide (_file_id = (fs.inodes i).id)) n 0 = none
      ↔ Absent n fs _file_id := by
  constructor
  · intro h i hi hc
    have := first_index_none _ n 0 h i (Nat.zero_le _) (by omega)
    simp only [hc.1, hc.2, decide_True, Bool.and_self] at this
    exact absurd this (by simp)
  · intro h
    apply first_index_none_of
    intro x hx
    have := h x hx
    by_cases hv : (fs.inodes x).val = true
    · have hid : ¬ (_file_id = (fs.inodes x).id) := fun e => this ⟨hv, e.symm⟩
      simp only [hv, hid, decide_False, Bool.and_false]
    · simp only [Bool.not_eq_true] at hv
      simp only [hv, Bool.false_and]

theorem scan_some (n : Nat) (fs : FileSystem) (_file_id : Int) (i : Nat)
    (h : first_index (fun i => (fs.inodes i).val && decide (_file_id = (fs.inodes i).id)) n 0
      = some i) :
    i < n ∧ (fs.inodes i).val = true ∧ (fs.inodes i).id = _file_id := by
  obtain ⟨_, b, c, _⟩ := first_index_some _ n 0 i h
  simp only [Bool.and_eq_true, decide_eq_true_eq] at c
  exact ⟨by omega, c.1, c.2.symm⟩

/-- The regular case of `CreateFile`: no duplicate, `j` the first invalid
inode, `f` the first free block. -/
theorem CreateFile_regular (n : Nat) (fs : FileSystem) (_file_id : Int) (j f : Nat)
    (ha : Absent n fs _file_id)
    (hj : j < n) (hjv : (fs.inodes j).val = false)
    (hjf : ∀ x, x < j → (fs.inodes x).val = true)
    (hf : f < 512) (hfv : fs.free_blocks f = 48) (hff : ∀ x, x < f → fs.free_blocks x ≠ 48) :
    CreateFile n fs _file_id =
      (true, { inodes := setInode fs.inodes j
                 { id := _file_id, block_num := f, file_length := (fs.inodes j).file_length,
                   val := true },
               free_blocks := setBlock fs.free_blocks f 49 }) := by
  have h1 := (scan_none_iff n fs _file_id).mpr ha
  have h2 : first_index (fun j => !(fs.inodes j).val) n 0 = some j :=
    first_index_first _ n j hj (by simp only [hjv, Bool.not_false])
      (fun x hx => by simp only [hjf x hx, Bool.not_true])
  have h3 : first_index (fun f => decide (fs.free_blocks f = 48)) 512 0 = some f :=
    first_index_first _ 512 f hf (by simp only [hfv, decide_True])
      (fun x hx => by simp only [hff x hx, decide_False])
  unfold CreateFile
  simp only [h1, h2, h3, setInode_same]
  congr 2
  funext x
  by_cases hx : x = j
  · subst hx
    simp only [setInode_same]
  · simp only [setInode_ne _ _ _ _ hx]

/-- The case of a full inode table: no duplicate, every inode valid, `f` the
first free block.  `CreateFile` returns true, stores `f` in inode 0 and
marks it used; no inode receives the id. -/
theorem CreateFile_full (n : Nat) (fs : FileSystem) (_file_id : Int) (f : Nat)
    (ha : Absent n fs _file_id)
    (hall : ∀ x, x < n → (fs.inodes x).val = true)
    (hf : f < 512) (hfv : fs.free_blocks f = 48) (hff : ∀ x, x < f → fs.free_blocks x ≠ 48) :
    CreateFile n fs _file_id =
      (true, { inodes := setInode fs.inodes 0 { fs.inodes 0 with block_num := f },
               free_blocks := setBlock fs.free_blocks f 49 }) := by
  have h1 := (scan_none_iff n fs _file_id).mpr ha
  have h2 : first_index (fun j => !(fs.inodes j).val) n 0 = none :=
    first_index_none_of _ n (fun x hx => by simp only [hall x hx, Bool.not_true])
  have h3 : first_index (fun f => decide (fs.free_blocks f = 48)) 512 0 = some f :=
    first_index_first _ 512 f hf (by simp only [hfv, decide_True])
      (fun x hx => by simp only [hff x hx, decide_False])
  unfold CreateFile
  simp only [h1, h2, h3]

/-- The ids and validity flags after `CreateFile`: either no inode changed
them, or exactly one inode of the table, invalid before, is now valid with
the new id, which no valid inode carried. -/
theorem CreateFile_ids (n : Nat) (fs : FileSystem) (_file_id : Int) :
    (∀ x, ((CreateFile n fs _file_id).2.inodes x).val = (fs.inodes x).val ∧
          ((CreateFile n fs _file_id).2.inodes x).id = (fs.inodes x).id) ∨
    (Absent n fs _file_id ∧ ∃ j, j < n ∧ (fs.inodes j).val = false ∧
      ((CreateFile n fs _file_id).2.inodes j).val = true ∧
      ((CreateFile n fs _file_id).2.inodes j).id = _file_id ∧
      ∀ x, x ≠ j → ((CreateFile n fs _file_id).2.inodes x).val = (fs.inodes x).val ∧
          ((CreateFile n fs _file_id).2.inodes x).id = (fs.inodes x).id) := by
  unfold CreateFile
  cases h1 : first_index (fun i => (fs.inodes i).val && decide (_file_id = (fs.inodes i).id))
      n 0 with
  | some i => left; intro x; exact ⟨rfl, rfl⟩
  | none =>
      have ha := (scan_none_iff n fs _file_id).mp h1
      cases h2 : first_index (fun j => !(fs.inodes j).val) n 0 with
      | none =>
          left
          intro x
          cases h3 : first_index (fun f => decide (fs.free_blocks f = 48)) 512 0 with
          | none => exact ⟨rfl, rfl⟩
          | some f =>
              simp only
              by_cases hx : x = 0
              · subst hx
                simp only [setInode_same, and_self]
              · simp only [setInode_ne _ _ _ _ hx, and_self]
      | some j =>
          right
          obtain ⟨_, b, c, _⟩ := first_index_some _ n 0 j h2
          have hjv : (fs.inodes j).val = false := by simpa using c
          refine ⟨ha, j, by omega, hjv, ?_⟩
          cases h3 : first_index (fun f => decide (fs.free_blocks f = 48)) 512 0 with
          | none =>
              simp only [setInode_same, true_and]
              intro x hx
              simp only [setInode_ne _ _ _ _ hx, and_self]
          | some f =>
              simp only [setInode_same, true_and]
              intro x hx
              simp only [setInode_ne _ _ _ _ hx, and_self]

/-- The ids and validity flags after `DeleteFile`. -/
theorem DeleteFile_ids (n : Nat) (fs : FileSystem) (_file_id : Int) :
    ((DeleteFile n fs _file_id).1 = false ∧ (DeleteFile n fs _file_id).2 = fs ∧
        Absent n fs _file_id) ∨
    ((DeleteFile n fs _file_id).1 = true ∧ ∃ i, i < n ∧ (fs.inodes i).val = true ∧
      (fs.inodes i).id = _file_id ∧
      (DeleteFile n fs _file_id).2.free_blocks = setBlock fs.free_blocks (fs.inodes i).block_num 48 ∧
      (DeleteFile n fs _file_id).2.inodes
        = setInode fs.inodes i { fs.inodes i with val := false }) := by
  unfold DeleteFile
  cases h1 : first_index (fun i => (fs.inodes i).val && decide (_file_id = (fs.inodes i).id))
      n 0 with
  | none =>
      left
      exact ⟨rfl, rfl, (scan_none_iff n fs _file_id).mp h1⟩
  | some i =>
      right
      obtain ⟨a, b, c⟩ := scan_some n fs _file_id i h1
      exact ⟨rfl, i, a, b, c, rfl, rfl⟩

theorem uniqueIds_create (n : Nat) (fs : FileSystem) (_file_id : Int) (h : UniqueIds n fs) :
    UniqueIds n (CreateFile n fs _file_id).2 := by
  rcases CreateFile_ids n fs _file_id with hs | ⟨ha, j, hj, _, hv, hid, hs⟩
  · intro a b ha hb va vb e
    rw [(hs a).1] at va
    rw [(hs b).1] at vb
    rw [(hs a).2, (hs b).2] at e
    exact h a b ha hb va vb e
  · intro a b hla hlb va vb e
    by_cases haj : a = j
    · by_cases hbj : b = j
      · rw [haj, hbj]
      · subst haj
        rw [(hs b hbj).1] at vb
        rw [hid, (hs b hbj).2] at e
        exact absurd ⟨vb, e.symm⟩ (ha b hlb)
    · by_cases hbj : b = j
      · subst hbj
        rw [(hs a haj).1] at va
        rw [hid, (hs a haj).2] at e
        exact absurd ⟨va, e⟩ (ha a hla)
      · rw [(hs a haj).1] at va
        rw [(hs b hbj).1] at vb
        rw [(hs a haj).2, (hs b hbj).2] at e
        exact h a b hla hlb va vb e

theorem uniqueIds_delete (n : Nat) (fs : FileSystem) (_file_id : Int) (h : UniqueIds n fs) :
    UniqueIds n (DeleteFile n fs _file_id).2 := by
  rcases DeleteFile_ids n fs _file_id with ⟨_, h2, _⟩ | ⟨_, i, _, _, _, _, h5⟩
  · rw [h2]; exact h
  · intro a b hla hlb va vb e
    rw [h5] at va vb e
    by_cases hai : a = i
    · subst hai
      rw [setInode_same] at va
      exact absurd va (by simp)
    · by_cases hbi : b = i
      · subst hbi
        rw [setInode_same] at vb
        exact absurd vb (by simp)
      · rw [setInode_ne _ _ _ _ hai] at va e
        rw [setInode_ne _ _ _ _ hbi] at vb e
        exact h a b hla hlb va vb e

theorem reachable_uniqueIds (n : Nat) (fs : FileSystem) (h : Reachable n fs) :
    UniqueIds n fs := by
  induction h with
  | formatted t =>
      intro a b _ _ va
      exact absurd va (by simp [formatted])
  | create fs id _ ih => exact uniqueIds_create n fs id ih
  | delete fs id _ ih => exact uniqueIds_delete n fs id ih

/-- C27 at the failing input: in the state `reusedSlot`, where the first
invalid inode still holds the length 5 of a deleted file, `CreateFile(8)`
returns true and that inode gets the id 8, the block 2 and the valid flag,
but keeps `file_length = 5`: `CreateFile` never stores into `file_length`.
This holds for every table size `n + 1`. -/
theorem CreateFile_keeps_file_length :
    ∀ n : Nat,
      (reusedSlot.inodes 0).val = false ∧
      (CreateFile (n + 1) reusedSlot 8).1 = true ∧
      (CreateFile (n + 1) reusedSlot 8).2.inodes 0
        = { id := 8, block_num := 2, file_length := 5, val := true } ∧
      (CreateFile (n + 1) reusedSlot 8).2.free_blocks 2 = 49 := by
  intro n
  have ha : Absent (n + 1) reusedSlot 8 := by
    intro i _ hc
    have : (reusedSlot.inodes i).val = false := by
      unfold reusedSlot
      by_cases h0 : i = 0
      · simp only [h0, if_true]
      · simp only [h0, if_false]
    rw [this] at hc
    exact absurd hc.1 (by simp)
  have h := CreateFile_regular (n + 1) reusedSlot 8 0 2 ha (by omega) (by decide)
    (fun x hx => by omega) (by decide) (by decide)
    (fun x hx => by
      have : reusedSlot.free_blocks x = 49 := by
        unfold reusedSlot
        simp only [hx, if_true]
      rw [this]
      decide)
  rw [h]
  refine ⟨by decide, rfl, ?_, ?_⟩
  · simp only [setInode_same]
    decide
  · simp only [setBlock, if_true]

/-- C28 at the failing input: on the full inode table `fullTable n` (with a
block left, `n <= 509`) no valid inode carries the id `-1`, and
`CreateFile(-1)` returns true; the `LookupFile(-1)` that follows finds no
inode and runs off the end of the function. -/
theorem CreateFile_full_table_lookup (n : Nat) (h : n ≤ 509) :
    (CreateFile n (fullTable n) (-1)).1 = true ∧
    LookupFile n (CreateFile n (fullTable n) (-1)).2 (-1) = none := by
  have hin : ∀ x, x < n → (fullTable n).inodes x
      = { id := (x : Int), block_num := x + 2, file_length := 0, val := true } := by
    intro x hx
    unfold fullTable
    simp only [hx, if_true]
  have ha : Absent n (fullTable n) (-1) := by
    intro i hi hc
    rw [hin i hi] at hc
    have := hc.2
    simp only at this
    omega
  have hc := CreateFile_full n (fullTable n) (-1) (n + 2) ha
    (fun x hx => by rw [hin x hx])
    (by omega)
    (by unfold fullTable; simp only [Nat.lt_irrefl, if_false])
    (fun x hx => by
      unfold fullTable
      simp only [hx, if_true]
      decide)
  rw [hc]
  refine ⟨rfl, ?_⟩
  unfold LookupFile
  rw [scan_none_iff]
  intro i hi hv
  simp only at hv
  by_cases h0 : i = 0
  · subst h0
    rw [setInode_same] at hv
    have e := hin 0 hi
    rw [e] at hv
    have := hv.2
    simp only at this
    omega
  · rw [setInode_ne _ _ _ _ h0] at hv
    exact ha i hi hv

/-- Witness of C28 at the failing input, for a table of three inodes. -/
theorem CreateFile_full_table_lookup_witness :
    (CreateFile 3 (fullTable 3) (-1)).1 = true ∧
    LookupFile 3 (CreateFile 3 (fullTable 3) (-1)).2 (-1) = none :=
  CreateFile_full_table_lookup 3 (by decide)

/-- C29: in every state reachable from a freshly formatted file system by
`CreateFile` and `DeleteFile` calls, after `DeleteFile(id)` returns true no
valid inode of the table carries `id`, and the scan of `LookupFile(id)`,
which is also the duplicate scan of `CreateFile(id)`, finds no match. -/
theorem delete_then_lookup (n : Nat) (fs : FileSystem) (_file_id : Int)
    (hr : Reachable n fs) (hd : (DeleteFile n fs _file_id).1 = true) :
    (∀ i, i < n → ¬ (((DeleteFile n fs _file_id).2.inodes i).val = true ∧
        ((DeleteFile n fs _file_id).2.inodes i).id = _file_id)) ∧
    LookupFile n (DeleteFile n fs _file_id).2 _file_id = none := by
  have hu := reachable_uniqueIds n fs hr
  have ha : Absent n (DeleteFile n fs _file_id).2 _file_id := by
    rcases DeleteFile_ids n fs _file_id with ⟨h1, _, _⟩ | ⟨_, i, hi, hv, hid, _, h5⟩
    · rw [h1] at hd
      exact absurd hd (by simp)
    · intro x hx hc
      rw [h5] at hc
      by_cases hxi : x = i
      · subst hxi
        rw [setInode_same] at hc
        exact absurd hc.1 (by simp)
      · rw [setInode_ne _ _ _ _ hxi] at hc
        exact hxi (hu x i hx hi hc.1 hv (hc.2.trans hid.symm))
  refine ⟨ha, ?_⟩
  unfold LookupFile
  exact (scan_none_iff n _ _file_id).mpr ha

/-- Witness of C29: `CreateFile(7)` then `DeleteFile(7)` on a fresh file
system with four inodes. -/
theorem delete_then_lookup_witness :
    LookupFile 4 (DeleteFile 4 (CreateFile 4 (formatted zeroInodes) 7).2 7).2 7 = none :=
  (delete_then_lookup 4 (CreateFile 4 (formatted zeroInodes) 7).2 7
    (Reachable.create _ 7 (Reachable.formatted zeroInodes)) (by decide)).2

/-- C30: whenever some valid inode of the table already carries the id,
`CreateFile(id)` returns false and the inode table and the bitmap are the
ones before the call. -/
theorem CreateFile_duplicate (n : Nat) (fs : FileSystem) (_file_id : Int) (i : Nat)
    (hi : i < n) (hv : (fs.inodes i).val = true) (hid : (fs.inodes i).id = _file_id) :
    CreateFile n fs _file_id = (false, fs) := by
  unfold CreateFile
  cases h : first_index (fun i => (fs.inodes i).val && decide (_file_id = (fs.inodes i).id))
      n 0 with
  | some j => rfl
  | none =>
      have := (scan_none_iff n fs _file_id).mp h i hi
      exact absurd ⟨hv, hid⟩ this

/-- Witness of C30: the second `CreateFile(7)` on a fresh file system with
four inodes returns false. -/
theorem CreateFile_duplicate_witness :
    CreateFile 4 (CreateFile 4 (formatted zeroInodes) 7).2 7
      = (false, (CreateFile 4 (formatted zeroInodes) 7).2) :=
  CreateFile_duplicate 4 (CreateFile 4 (formatted zeroInodes) 7).2 7 0 (by decide)
    (by decide) (by decide)

end FileSystem

end Mp7

namespace Mp7

theorem setBlock_same (free_blocks : Nat → Nat) (k v : Nat) :
    setBlock free_blocks k v k = v := by
  simp only [setBlock, if_true]

theorem setBlock_ne (free_blocks : Nat → Nat) (k v x : Nat) (h : x ≠ k) :
    setBlock free_blocks k v x = free_blocks x := by
  simp only [setBlock, h, if_false]

theorem sum_range_ones (g : Nat → Nat) :
    ∀ n, (∀ i, i < n → g i = 1) → ((List.range n).map g).sum = n := by
  intro n
  induction n with
  | zero => intro _; rfl
  | succ n ih =>
      intro h
      rw [List.range_succ, List.map_append, List.sum_append, ih (fun i hi => h i (by omega))]
      simp only [List.map_cons, List.map_nil, List.sum_cons, List.sum_nil, Nat.add_zero]
      rw [h n (by omega)]

theorem sum_range_from (a : Nat) :
    ∀ m, ((List.range m).map (fun f => if f < a then 0 else 1)).sum = m - a := by
  intro m
  induction m with
  | zero => simp
  | succ m ih =>
      rw [List.range_succ, List.map_append, List.sum_append, ih]
      simp only [List.map_cons, List.map_nil, List.sum_cons, List.sum_nil, Nat.add_zero]
      by_cases h : m < a
      · rw [if_pos h]; omega
      · rw [if_neg h]; omega

namespace FileSystem

theorem mark_empty_spec :
    ∀ (k i : Nat) (free_blocks : Nat → Nat) (x : Nat),
      mark_empty k i free_blocks x = if i ≤ x ∧ x < i + k then 48 else free_blocks x := by
  intro k
  induction k with
  | zero =>
      intro i fb x
      have : ¬ (i ≤ x ∧ x < i + 0) := by omega
      simp only [mark_empty, this, if_false]
  | succ k ih =>
      intro i fb x
      unfold mark_empty
      rw [ih]
      by_cases c1 : i + 1 ≤ x ∧ x < i + 1 + k
      · have c2 : i ≤ x ∧ x < i + (k + 1) := by omega
        rw [if_pos c1, if_pos c2]
      · rw [if_neg c1]
        by_cases c3 : x = i
        · have c2 : i ≤ x ∧ x < i + (k + 1) := by omega
          rw [if_pos c2, c3, setBlock_same]
        · have c2 : ¬ (i ≤ x ∧ x < i + (k + 1)) := by omega
          rw [if_neg c2, setBlock_ne _ _ _ _ c3]

/-- The bitmap that the constructor leaves: blocks 0 and 1 marked `'1'`,
blocks 2 to 511 marked `'0'`. -/
theorem construct_blocks (inodes0 : Nat → Inode) (blocks0 : Nat → Nat) (f : Nat)
    (hf : f < 512) :
    (construct inodes0 blocks0).free_blocks f = if f < 2 then 49 else 48 := by
  unfold construct
  simp only
  rw [mark_empty_spec]
  by_cases c : 2 ≤ f ∧ f < 2 + 510
  · have c2 : ¬ f < 2 := by omega
    rw [if_pos c, if_neg c2]
  · have c2 : f < 2 := by omega
    rw [if_neg c, if_pos c2]
    by_cases c3 : f = 1
    · rw [c3, setBlock_same]
    · have c4 : f = 0 := by omega
      rw [setBlock_ne _ _ _ _ c3, c4, setBlock_same]

/-- The case of `CreateFile` with a free inode and no free block: false is
returned, but inode `j` has been made valid. -/
theorem CreateFile_noblock (n : Nat) (fs : FileSystem) (_file_id : Int) (j : Nat)
    (ha : Absent n fs _file_id)
    (hj : j < n) (hjv : (fs.inodes j).val = false)
    (hjf : ∀ x, x < j → (fs.inodes x).val = true)
    (hnone : ∀ f, f < 512 → fs.free_blocks f ≠ 48) :
    CreateFile n fs _file_id =
      (false, { fs with
        inodes := setInode fs.inodes j { fs.inodes j with id := _file_id, val := true } }) := by
  have h1 := (scan_none_iff n fs _file_id).mpr ha
  have h2 : first_index (fun j => !(fs.inodes j).val) n 0 = some j :=
    first_index_first _ n j hj (by simp only [hjv, Bool.not_false])
      (fun x hx => by simp only [hjf x hx, Bool.not_true])
  have h3 : first_index (fun f => decide (fs.free_blocks f = 48)) 512 0 = none :=
    first_index_none_of _ 512 (fun x hx => by simp only [hnone x hx, decide_False])
  unfold CreateFile
  simp only [h1, h2, h3]

theorem fullTable_inode (n x : Nat) (hx : x < n) :
    (fullTable n).inodes x
      = { id := (x : Int), block_num := x + 2, file_length := 0, val := true } := by
  unfold fullTable
  simp only [hx, if_true]

theorem fullTable_absent (n : Nat) : Absent n (fullTable n) (-1) := by
  intro i hi hc
  rw [fullTable_inode n i hi] at hc
  have := hc.2
  simp only at this
  omega

/-- On the full table with a block left, `CreateFile(-1)` returns true,
stores block `n + 2` in inode 0 and marks it used. -/
theorem fullTable_create (n : Nat) (h : n ≤ 509) :
    CreateFile n (fullTable n) (-1) =
      (true, { inodes := setInode (fullTable n).inodes 0
                 { (fullTable n).inodes 0 with block_num := n + 2 },
               free_blocks := setBlock (fullTable n).free_blocks (n + 2) 49 }) :=
  CreateFile_full n (fullTable n) (-1) (n + 2) (fullTable_absent n)
    (fun x hx => by rw [fullTable_inode n x hx])
    (by omega)
    (by unfold fullTable; simp only [Nat.lt_irrefl, if_false])
    (fun x hx => by
      unfold fullTable
      simp only [hx, if_true]
      decide)

theorem countValid_congr (n : Nat) (fs fs1 : FileSystem)
    (h : ∀ i, i < n → (fs1.inodes i).val = (fs.inodes i).val) :
    countValid n fs1 = countValid n fs := by
  unfold countValid
  have e : (List.range n).map (fun i => if (fs1.inodes i).val = true then 1 else 0)
      = (List.range n).map (fun i => if (fs.inodes i).val = true then 1 else 0) := by
    apply List.map_congr_left
    intro x hx
    rw [h x (List.mem_range.mp hx)]
  rw [e]

theorem countZero_set (fs : FileSystem) (inodes1 : Nat → Inode) (f : Nat) (hf : f < 512)
    (hz : fs.free_blocks f = 48) :
    countZero { inodes := inodes1, free_blocks := setBlock fs.free_blocks f 49 } + 1
      = countZero fs := by
  unfold countZero
  have h := Mp4.VMPool.sum_range_update
    (fun x => if fs.free_blocks x = 48 then 1 else 0) 0 f 512 hf
  have e : (fun x => if setBlock fs.free_blocks f 49 x = 48 then 1 else 0)
      = (fun x => if x = f then 0 else if fs.free_blocks x = 48 then 1 else 0) := by
    funext x
    by_cases hx : x = f
    · rw [hx, setBlock_same]
      simp only [if_true]
      decide
    · rw [setBlock_ne _ _ _ _ hx]
      simp only [hx, if_false]
  simp only [e]
  simp only [hz, if_true] at h
  omega

theorem fullTable_counts (n : Nat) (h : n ≤ 509) :
    countZero (fullTable n) = 510 - n ∧ countValid n (fullTable n) = n := by
  constructor
  · unfold countZero
    have e : (List.range 512).map (fun f => if (fullTable n).free_blocks f = 48 then 1 else 0)
        = (List.range 512).map (fun f => if f < n + 2 then 0 else 1) := by
      apply List.map_congr_left
      intro x _
      unfold fullTable
      by_cases hx : x < n + 2
      · simp only [hx, if_true]
        decide
      · simp only [hx, if_false, if_true]
    rw [e, sum_range_from]
    omega
  · unfold countValid
    apply sum_range_ones
    intro i hi
    rw [fullTable_inode n i hi]
    rfl

end FileSystem

end Mp7

namespace Mp7

namespace FileSystem

set_option maxRecDepth 100000

theorem formatted_create (n : Nat) :
    CreateFile (n + 1) (formatted zeroInodes) 7 =
      (true, { inodes := setInode (formatted zeroInodes).inodes 0
                 { id := 7, block_num := 2, file_length := 0, val := true },
               free_blocks := setBlock (formatted zeroInodes).free_blocks 2 49 }) :=
  CreateFile_regular (n + 1) (formatted zeroInodes) 7 0 2
    (fun i _ hc => absurd hc.1 (by simp [formatted]))
    (by omega) rfl (fun x hx => absurd hx (Nat.not_lt_zero x)) (by decide) (by decide)
    (fun x hx => by
      have : (formatted zeroInodes).free_blocks x = 49 := by
        unfold formatted
        simp only [hx, if_true]
      rw [this]
      decide)

/-- C31 at the failing inputs.  No free inode: on the full table
`fullTable n` (with a block left) no valid inode carries the id `-1`, and
`CreateFile(-1)` returns true, marks block `n + 2` used and stores it in
inode 0.  No free block: on `noBlock` (empty inode table, every bitmap entry
`'1'`) `CreateFile(7)` returns false, but inode 0 has become valid. -/
theorem CreateFile_exhaustion (n : Nat) (h : n ≤ 509) :
    ((∀ i, i < n → ((fullTable n).inodes i).val = true ∧ ((fullTable n).inodes i).id ≠ -1) ∧
      (CreateFile n (fullTable n) (-1)).1 = true ∧
      (fullTable n).free_blocks (n + 2) = 48 ∧
      (CreateFile n (fullTable n) (-1)).2.free_blocks (n + 2) = 49 ∧
      ((CreateFile n (fullTable n) (-1)).2.inodes 0).block_num = n + 2) ∧
    ((∀ f, f < 512 → noBlock.free_blocks f ≠ 48) ∧
      (∀ i, i < n + 1 → (noBlock.inodes i).val = false) ∧
      (CreateFile (n + 1) noBlock 7).1 = false ∧
      ((CreateFile (n + 1) noBlock 7).2.inodes 0).val = true) := by
  constructor
  · rw [fullTable_create n h]
    refine ⟨?_, rfl, ?_, ?_, ?_⟩
    · intro i hi
      rw [fullTable_inode n i hi]
      refine ⟨rfl, ?_⟩
      simp only
      omega
    · unfold fullTable
      simp only [Nat.lt_irrefl, if_false]
    · simp only [setBlock_same]
    · simp only [setInode_same]
  · have hb : ∀ f, f < 512 → noBlock.free_blocks f ≠ 48 := by
      intro f _ hc
      simp [noBlock] at hc
    have hc := CreateFile_noblock (n + 1) noBlock 7 0
      (fun i _ hc => absurd hc.1 (by simp [noBlock, zeroInodes]))
      (by omega) rfl (fun x hx => absurd hx (Nat.not_lt_zero x)) hb
    rw [hc]
    refine ⟨hb, fun i _ => rfl, rfl, ?_⟩
    simp only [setInode_same]

/-- Witness of C31 at the failing inputs, for tables of three and four
inodes. -/
theorem CreateFile_exhaustion_witness :
    (CreateFile 3 (fullTable 3) (-1)).1 = true ∧
    (CreateFile (3 + 1) noBlock 7).1 = false ∧
    ((CreateFile (3 + 1) noBlock 7).2.inodes 0).val = true :=
  ⟨(CreateFile_exhaustion 3 (by omega)).1.2.1,
    (CreateFile_exhaustion 3 (by omega)).2.2.2.1,
    (CreateFile_exhaustion 3 (by omega)).2.2.2.2⟩

/-- C32: `DeleteFile(id)` returns true if and only if some valid inode of
the table carries `id`.  In that case one such inode `i` becomes invalid,
the bitmap entry of its `block_num` becomes `'0'`, and nothing else changes;
otherwise false is returned and the state is the one before.  After
`CreateFile(7)` and `DeleteFile(7)` on a fresh file system (any table size
`m + 1`) block 2 is free again. -/
theorem DeleteFile_spec (n m : Nat) (fs : FileSystem) (_file_id : Int) :
    ((DeleteFile n fs _file_id).1 = true ↔
      ∃ i, i < n ∧ (fs.inodes i).val = true ∧ (fs.inodes i).id = _file_id) ∧
    ((DeleteFile n fs _file_id).1 = true →
      ∃ i, i < n ∧ (fs.inodes i).val = true ∧ (fs.inodes i).id = _file_id ∧
        (DeleteFile n fs _file_id).2.inodes
          = setInode fs.inodes i { fs.inodes i with val := false } ∧
        (DeleteFile n fs _file_id).2.free_blocks
          = setBlock fs.free_blocks (fs.inodes i).block_num 48) ∧
    ((DeleteFile n fs _file_id).1 = false → (DeleteFile n fs _file_id).2 = fs) ∧
    ((CreateFile (m + 1) (formatted zeroInodes) 7).2.free_blocks 2 = 49 ∧
      (DeleteFile (m + 1) (CreateFile (m + 1) (formatted zeroInodes) 7).2 7).1 = true ∧
      (DeleteFile (m + 1) (CreateFile (m + 1) (formatted zeroInodes) 7).2 7).2.free_blocks 2
        = 48) := by
  refine ⟨?_, ?_, ?_, ?_⟩
  · constructor
    · intro ht
      rcases DeleteFile_ids n fs _file_id with ⟨h1, _, _⟩ | ⟨_, i, hi, hv, hid, _, _⟩
      · rw [h1] at ht; exact absurd ht (by simp)
      · exact ⟨i, hi, hv, hid⟩
    · intro ⟨i, hi, hv, hid⟩
      rcases DeleteFile_ids n fs _file_id with ⟨_, _, h3⟩ | ⟨h1, _⟩
      · exact absurd ⟨hv, hid⟩ (h3 i hi)
      · exact h1
  · intro ht
    rcases DeleteFile_ids n fs _file_id with ⟨h1, _, _⟩ | ⟨_, i, hi, hv, hid, hb, hin⟩
    · rw [h1] at ht; exact absurd ht (by simp)
    · exact ⟨i, hi, hv, hid, hin, hb⟩
  · intro hf
    rcases DeleteFile_ids n fs _file_id with ⟨_, h2, _⟩ | ⟨h1, _⟩
    · exact h2
    · rw [h1] at hf; exact absurd hf (by simp)
  · rw [formatted_create m]
    refine ⟨by simp only [setBlock_same], ?_⟩
    rcases DeleteFile_ids (m + 1)
        { inodes := setInode (formatted zeroInodes).inodes 0
            { id := 7, block_num := 2, file_length := 0, val := true },
          free_blocks := setBlock (formatted zeroInodes).free_blocks 2 49 } 7 with
      ⟨_, _, h3⟩ | ⟨h1, i, _, hv, _, hb, _⟩
    · have := h3 0 (by omega)
      simp only [setInode_same, and_self, not_true_eq_false] at this
    · refine ⟨h1, ?_⟩
      rw [hb]
      have hi0 : i = 0 := by
        by_contra hne
        simp only at hv
        rw [setInode_ne _ _ _ _ hne] at hv
        exact absurd hv (by simp [formatted])
      subst hi0
      simp only [setInode_same, setBlock_same]

/-- Witness of C32: `DeleteFile(7)` after `CreateFile(7)` on a fresh file
system with four inodes returns true and frees block 2; `DeleteFile(8)`
returns false and changes nothing. -/
theorem DeleteFile_spec_witness :
    (DeleteFile 4 (CreateFile 4 (formatted zeroInodes) 7).2 7).1 = true ∧
    (DeleteFile 4 (CreateFile 4 (formatted zeroInodes) 7).2 7).2.free_blocks 2 = 48 ∧
    (DeleteFile 4 (CreateFile 4 (formatted zeroInodes) 7).2 8).2
      = (CreateFile 4 (formatted zeroInodes) 7).2 :=
  have h := DeleteFile_spec 4 3 (CreateFile 4 (formatted zeroInodes) 7).2 8
  ⟨h.2.2.2.2.1, h.2.2.2.2.2, h.2.2.1 (by decide)⟩

/-- C33 at the failing input.  The constructor leaves blocks 0 and 1 marked
`'1'` and the other 510 marked `'0'`.  On the full table `fullTable n` (with
a block left) the number of `'0'` entries plus the number of valid inodes is
510; `CreateFile(-1)` returns true there, and afterwards the sum is 509: a
block is marked used and no inode has become valid. -/
theorem CreateFile_leaks_block (n : Nat) (h : n ≤ 509) :
    (∀ (inodes0 : Nat → Inode) (blocks0 : Nat → Nat) (f : Nat), f < 512 →
      (construct inodes0 blocks0).free_blocks f = if f < 2 then 49 else 48) ∧
    countZero (fullTable n) + countValid n (fullTable n) = 510 ∧
    (CreateFile n (fullTable n) (-1)).1 = true ∧
    countZero (CreateFile n (fullTable n) (-1)).2
      + countValid n (CreateFile n (fullTable n) (-1)).2 = 509 := by
  obtain ⟨c1, c2⟩ := fullTable_counts n h
  refine ⟨fun i0 b0 f hf => construct_blocks i0 b0 f hf, by rw [c1, c2]; omega, ?_, ?_⟩
  · rw [fullTable_create n h]
  · have e := fullTable_create n h
    have hz : countZero (CreateFile n (fullTable n) (-1)).2 + 1 = countZero (fullTable n) := by
      rw [e]
      exact countZero_set (fullTable n) _ (n + 2) (by omega)
        (by unfold fullTable; simp only [Nat.lt_irrefl, if_false])
    have hv : countValid n (CreateFile n (fullTable n) (-1)).2 = countValid n (fullTable n) := by
      apply countValid_congr
      intro i _
      rw [e]
      simp only
      by_cases hi : i = 0
      · rw [hi, setInode_same]
      · rw [setInode_ne _ _ _ _ hi]
    omega

/-- Witness of C33 at the failing input, for a table of three inodes:
`fullTable 3` is the state after `CreateFile(0)`, `CreateFile(1)`,
`CreateFile(2)` on a fresh file system, and the fourth `CreateFile` lowers
the sum to 509. -/
theorem CreateFile_leaks_block_witness :
    (∀ i, i < 3 →
      (CreateFile 3 (CreateFile 3 (CreateFile 3 (formatted zeroInodes) 0).2 1).2 2).2.inodes i
        = (fullTable 3).inodes i) ∧
    (∀ f, f < 512 →
      (CreateFile 3 (CreateFile 3 (CreateFile 3 (formatted zeroInodes) 0).2 1).2 2).2.free_blocks f
        = (fullTable 3).free_blocks f) ∧
    countZero (CreateFile 3 (fullTable 3) (-1)).2
      + countValid 3 (CreateFile 3 (fullTable 3) (-1)).2 = 509 :=
  ⟨by decide, by decide, (CreateFile_leaks_block 3 (by omega)).2.2.2⟩

end FileSystem

end Mp7

namespace Mp7

namespace File

/-! ## The file handle -/

theorem read_loop_spec (fs : FileSystem) :
    ∀ (k i count : Nat) (_buf : Nat → Nat) (f : File),
      f.curr_poss ≤ (fs.inodes f.inode).file_length →
      (read_loop fs k i count _buf f).1
          = count + min k ((fs.inodes f.inode).file_length - f.curr_poss) ∧
        (read_loop fs k i count _buf f).2.2
          = { f with curr_poss :=
                f.curr_poss + min k ((fs.inodes f.inode).file_length - f.curr_poss) } ∧
        ∀ x, (read_loop fs k i count _buf f).2.1 x
          = if count ≤ x ∧
                x < count + min k ((fs.inodes f.inode).file_length - f.curr_poss)
            then f.block_cache (i + (x - count)) else _buf x := by
  intro k
  induction k with
  | zero =>
    intro i count _buf f _
    refine ⟨by simp [read_loop], by simp [read_loop], ?_⟩
    intro x
    have : ¬ (count ≤ x ∧ x < count + min 0 ((fs.inodes f.inode).file_length - f.curr_poss)) := by
      simp
    simp only [read_loop, this, if_false]
  | succ k ih =>
    intro i count _buf f hc
    by_cases he : f.curr_poss = (fs.inodes f.inode).file_length
    · have heof : EoF fs f = true := by simp [EoF, he]
      have hm : min (k + 1) ((fs.inodes f.inode).file_length - f.curr_poss) = 0 := by
        rw [he]; simp
      rw [hm]
      simp only [read_loop, heof, if_true, Nat.add_zero]
      refine ⟨trivial, trivial, ?_⟩
      intro x
      have : ¬ (count ≤ x ∧ x < count) := by omega
      simp only [this, if_false]
    · have heof : ¬ (EoF fs f = true) := by simp [EoF, he]
      have hlt : f.curr_poss < (fs.inodes f.inode).file_length := by omega
      have hm : min (k + 1) ((fs.inodes f.inode).file_length - f.curr_poss)
          = 1 + min k ((fs.inodes f.inode).file_length - (f.curr_poss + 1)) := by
        omega
      obtain ⟨h1, h2, h3⟩ := ih (i + 1) (count + 1) (writeByte _buf count (f.block_cache i))
        { f with curr_poss := f.curr_poss + 1 } (by simpa using hlt)
      simp only at h1 h2 h3
      simp only [read_loop, heof, Bool.false_eq_true, if_false]
      rw [hm]
      refine ⟨?_, ?_, ?_⟩
      · rw [h1]; omega
      · rw [h2]; simp only [Nat.add_assoc]
      · intro x
        rw [h3 x]
        by_cases hx : x = count
        · subst hx
          have a : ¬ (x + 1 ≤ x ∧
              x < x + 1 + min k ((fs.inodes f.inode).file_length - (f.curr_poss + 1))) := by
            omega
          have b : x ≤ x ∧
              x < x + (1 + min k ((fs.inodes f.inode).file_length - (f.curr_poss + 1))) := by
            omega
          simp only [a, b, if_false, if_true, writeByte, and_self, Nat.sub_self, Nat.add_zero]
        · by_cases hin : count + 1 ≤ x ∧
              x < count + 1 + min k ((fs.inodes f.inode).file_length - (f.curr_poss + 1))
          · have b : count ≤ x ∧
                x < count + (1 + min k ((fs.inodes f.inode).file_length - (f.curr_poss + 1))) := by
              omega
            have e : i + 1 + (x - (count + 1)) = i + (x - count) := by omega
            simp only [hin, b, if_true, and_self, e]
          · have b : ¬ (count ≤ x ∧
                x < count + (1 + min k ((fs.inodes f.inode).file_length - (f.curr_poss + 1)))) := by
              omega
            simp only [hin, b, if_false, writeByte, hx]

theorem write_loop_spec :
    ∀ (k i count : Nat) (_buf : Nat → Nat) (f : File), i ≤ 512 →
      (write_loop k i count _buf f).1 = count + min k (512 - i) ∧
        (write_loop k i count _buf f).2.inode = f.inode ∧
        (write_loop k i count _buf f).2.curr_poss = f.curr_poss + min k (512 - i) ∧
        ∀ x, (write_loop k i count _buf f).2.block_cache x
          = if i ≤ x ∧ x < i + min k (512 - i) then _buf (count + (x - i))
            else f.block_cache x := by
  intro k
  induction k with
  | zero =>
    intro i count _buf f _
    refine ⟨by simp [write_loop], by simp [write_loop], by simp [write_loop], ?_⟩
    intro x
    have : ¬ (i ≤ x ∧ x < i + min 0 (512 - i)) := by simp
    simp only [write_loop, this, if_false]
  | succ k ih =>
    intro i count _buf f hi
    by_cases he : i = 512
    · have hm : min (k + 1) (512 - i) = 0 := by omega
      rw [hm]
      simp only [write_loop, he, if_true, Nat.add_zero]
      refine ⟨trivial, trivial, trivial, ?_⟩
      intro x
      have : ¬ (512 ≤ x ∧ x < 512) := by omega
      simp only [this, if_false]
    · have hm : min (k + 1) (512 - i) = 1 + min k (512 - (i + 1)) := by omega
      obtain ⟨h1, h2, h3, h4⟩ := ih (i + 1) (count + 1) _buf
        { f with block_cache := writeByte f.block_cache i (_buf count),
                 curr_poss := f.curr_poss + 1 } (by omega)
      simp only at h1 h2 h3 h4
      simp only [write_loop, he, if_false]
      rw [hm]
      refine ⟨?_, ?_, ?_, ?_⟩
      · rw [h1]; omega
      · rw [h2]
      · rw [h3]; omega
      · intro x
        rw [h4 x]
        by_cases hx : x = i
        · subst hx
          have a : ¬ (x + 1 ≤ x ∧ x < x + 1 + min k (512 - (x + 1))) := by omega
          have b : x ≤ x ∧ x < x + (1 + min k (512 - (x + 1))) := by omega
          simp only [a, b, if_false, if_true, writeByte, and_self, Nat.sub_self, Nat.add_zero]
        · by_cases hin : i + 1 ≤ x ∧ x < i + 1 + min k (512 - (i + 1))
          · have b : i ≤ x ∧ x < i + (1 + min k (512 - (i + 1))) := by omega
            have e : count + 1 + (x - (i + 1)) = count + (x - i) := by omega
            simp only [hin, b, if_true, and_self, e]
          · have b : ¬ (i ≤ x ∧ x < i + (1 + min k (512 - (i + 1)))) := by omega
            simp only [hin, b, if_false, writeByte, hx]

end File

end Mp7

namespace Mp7

namespace File

theorem Read_spec (fs : FileSystem) (f : File) (_n : Nat) (_buf : Nat → Nat)
    (h : f.curr_poss ≤ (fs.inodes f.inode).file_length) :
    (Read fs f _n _buf).1
        = min (_n - f.curr_poss) ((fs.inodes f.inode).file_length - f.curr_poss) ∧
      (Read fs f _n _buf).2.2
        = { f with curr_poss := f.curr_poss
              + min (_n - f.curr_poss) ((fs.inodes f.inode).file_length - f.curr_poss) } ∧
      ∀ x, (Read fs f _n _buf).2.1 x
        = if x < min (_n - f.curr_poss) ((fs.inodes f.inode).file_length - f.curr_poss)
          then f.block_cache (f.curr_poss + x) else _buf x := by
  obtain ⟨h1, h2, h3⟩ := read_loop_spec fs (_n - f.curr_poss) f.curr_poss 0 _buf f h
  unfold Read
  refine ⟨?_, h2, ?_⟩
  · rw [h1, Nat.zero_add]
  · intro x
    rw [h3 x]
    simp only [Nat.zero_le, true_and, Nat.zero_add, Nat.sub_zero]

theorem Write_spec (fs : FileSystem) (f : File) (_n : Nat) (_buf : Nat → Nat)
    (h : f.curr_poss ≤ 512) :
    (Write fs f _n _buf).1 = min (_n - f.curr_poss) (512 - f.curr_poss) ∧
      (Write fs f _n _buf).2.2.inode = f.inode ∧
      (Write fs f _n _buf).2.2.curr_poss
        = f.curr_poss + min (_n - f.curr_poss) (512 - f.curr_poss) ∧
      (∀ x, (Write fs f _n _buf).2.2.block_cache x
        = if f.curr_poss ≤ x ∧ x < f.curr_poss + min (_n - f.curr_poss) (512 - f.curr_poss)
          then _buf (x - f.curr_poss) else f.block_cache x) ∧
      ((Write fs f _n _buf).2.1.inodes f.inode).file_length
        = max (fs.inodes f.inode).file_length
            (f.curr_poss + min (_n - f.curr_poss) (512 - f.curr_poss)) ∧
      (∀ j, j ≠ f.inode → (Write fs f _n _buf).2.1.inodes j = fs.inodes j) ∧
      (Write fs f _n _buf).2.1.free_blocks = fs.free_blocks := by
  obtain ⟨h1, h2, h3, h4⟩ := write_loop_spec (_n - f.curr_poss) f.curr_poss 0 _buf f h
  unfold Write
  simp only
  rw [h2, h3]
  refine ⟨?_, rfl, rfl, ?_, ?_, ?_, ?_⟩
  · rw [h1, Nat.zero_add]
  · intro x
    rw [h4 x]
    simp only [Nat.zero_add]
  · by_cases hg : f.curr_poss + min (_n - f.curr_poss) (512 - f.curr_poss)
        > (fs.inodes f.inode).file_length
    · rw [if_pos hg]
      simp only [setInode_same]
      omega
    · rw [if_neg hg]
      omega
  · intro j hj
    by_cases hg : f.curr_poss + min (_n - f.curr_poss) (512 - f.curr_poss)
        > (fs.inodes f.inode).file_length
    · rw [if_pos hg]
      simp only
      rw [setInode_ne _ _ _ _ hj]
    · rw [if_neg hg]
  · by_cases hg : f.curr_poss + min (_n - f.curr_poss) (512 - f.curr_poss)
        > (fs.inodes f.inode).file_length
    · rw [if_pos hg]
    · rw [if_neg hg]

end File

end Mp7

namespace Mp7

namespace File

set_option maxRecDepth 100000

/-- C34, what the code does: on an open file with cursor `c` at most
`file_length`, `Read(n, buf)` treats `n` as the index at which to stop, not
as a byte count.  It copies `k = min (n - c) (file_length - c)` bytes
`cache[c .. c + k)` into `buf[0 .. k)`, returns `k` and advances the cursor
to `c + k`; the count `min n (file_length - c)` of the specification is
returned only when `c = 0` or nothing is left to read. -/
theorem Read_end_index (fs : FileSystem) (f : File) (_n : Nat) (_buf : Nat → Nat)
    (h : f.curr_poss ≤ (fs.inodes f.inode).file_length) :
    (Read fs f _n _buf).1
        = min (_n - f.curr_poss) ((fs.inodes f.inode).file_length - f.curr_poss) ∧
      (Read fs f _n _buf).2.2
        = { f with curr_poss := f.curr_poss
              + min (_n - f.curr_poss) ((fs.inodes f.inode).file_length - f.curr_poss) } ∧
      ∀ x, (Read fs f _n _buf).2.1 x
        = if x < min (_n - f.curr_poss) ((fs.inodes f.inode).file_length - f.curr_poss)
          then f.block_cache (f.curr_poss + x) else _buf x :=
  Read_spec fs f _n _buf h

/-- Witness of C34 at the failing input: a file of ten bytes with the cursor
at 4.  `Read(6, buf)` returns 2, not `min 6 (10 - 4) = 6`, and leaves the
cursor at 6, not at 10. -/
theorem Read_end_index_witness :
    atFour.curr_poss ≤ (tenBytes.inodes atFour.inode).file_length ∧
    (Read tenBytes atFour 6 (fun _ => 0)).1 = 2 ∧
    (Read tenBytes atFour 6 (fun _ => 0)).2.2.curr_poss = 6 ∧
    (Read tenBytes atFour 6 (fun _ => 0)).2.1 1 = 70 ∧
    (Read tenBytes atFour 6 (fun _ => 0)).2.1 2 = 0 :=
  ⟨by decide,
    (Read_end_index tenBytes atFour 6 (fun _ => 0) (by decide)).1,
    congrArg File.curr_poss (Read_end_index tenBytes atFour 6 (fun _ => 0) (by decide)).2.1,
    (Read_end_index tenBytes atFour 6 (fun _ => 0) (by decide)).2.2 1,
    (Read_end_index tenBytes atFour 6 (fun _ => 0) (by decide)).2.2 2⟩

/-- C35, what the code does: on an open file with cursor `c` at most 512,
`Write(n, buf)` treats `n` as the index at which to stop, not as a byte
count.  It copies `k = min (n - c) (512 - c)` bytes `buf[0 .. k)` into
`cache[c .. c + k)`, returns `k`, advances the cursor to `c + k`, sets
`file_length` to `max file_length (c + k)` and changes no other cache byte,
no other inode and no bitmap entry; the count `min n (512 - c)` of the
specification is written only when `c = 0` or `c = 512`. -/
theorem Write_end_index (fs : FileSystem) (f : File) (_n : Nat) (_buf : Nat → Nat)
    (h : f.curr_poss ≤ 512) :
    (Write fs f _n _buf).1 = min (_n - f.curr_poss) (512 - f.curr_poss) ∧
      (Write fs f _n _buf).2.2.inode = f.inode ∧
      (Write fs f _n _buf).2.2.curr_poss
        = f.curr_poss + min (_n - f.curr_poss) (512 - f.curr_poss) ∧
      (∀ x, (Write fs f _n _buf).2.2.block_cache x
        = if f.curr_poss ≤ x ∧ x < f.curr_poss + min (_n - f.curr_poss) (512 - f.curr_poss)
          then _buf (x - f.curr_poss) else f.block_cache x) ∧
      ((Write fs f _n _buf).2.1.inodes f.inode).file_length
        = max (fs.inodes f.inode).file_length
            (f.curr_poss + min (_n - f.curr_poss) (512 - f.curr_poss)) ∧
      (∀ j, j ≠ f.inode → (Write fs f _n _buf).2.1.inodes j = fs.inodes j) ∧
      (Write fs f _n _buf).2.1.free_blocks = fs.free_blocks :=
  Write_spec fs f _n _buf h

/-- Witness of C35 at the failing input: a file of ten bytes with the cursor
at 4.  `Write(5, "hello")` returns 1, not `min 5 (512 - 4) = 5`: it stores the
`h` in `cache[4]`, leaves `cache[5]` as it was and the cursor at 5. -/
theorem Write_end_index_witness :
    atFour.curr_poss ≤ 512 ∧
    (Write tenBytes atFour 5 hello).1 = 1 ∧
    (Write tenBytes atFour 5 hello).2.2.curr_poss = 5 ∧
    (Write tenBytes atFour 5 hello).2.2.block_cache 4 = 104 ∧
    (Write tenBytes atFour 5 hello).2.2.block_cache 5 = atFour.block_cache 5 :=
  ⟨by decide,
    (Write_end_index tenBytes atFour 5 hello (by decide)).1,
    (Write_end_index tenBytes atFour 5 hello (by decide)).2.2.1,
    (Write_end_index tenBytes atFour 5 hello (by decide)).2.2.2.1 4,
    (Write_end_index tenBytes atFour 5 hello (by decide)).2.2.2.1 5⟩

theorem round_trip_spec (fs : FileSystem) (f : File) (n : Nat) (data buf : Nat → Nat)
    (hc : f.curr_poss = 0) (hn : n ≤ 512) :
    (Read (Write fs f n data).2.1 (Reset (Write fs f n data).2.2) n buf).1 = n ∧
    (∀ x, x < n →
      (Read (Write fs f n data).2.1 (Reset (Write fs f n data).2.2) n buf).2.1 x = data x) ∧
    (EoF (Write fs f n data).2.1
        (Read (Write fs f n data).2.1 (Reset (Write fs f n data).2.2) n buf).2.2 = true
      ↔ (fs.inodes f.inode).file_length ≤ n) := by
  obtain ⟨-, w2, w3, w4, w5, -, -⟩ := Write_spec fs f n data (by omega)
  rw [hc] at w3 w4 w5
  have hk : min (n - 0) (512 - 0) = n := by omega
  rw [hk, Nat.zero_add] at w3 w5
  rw [hk] at w4
  have hL : (((Write fs f n data).2.1).inodes (Reset (Write fs f n data).2.2).inode).file_length
      = max (fs.inodes f.inode).file_length n := by
    show (((Write fs f n data).2.1).inodes (Write fs f n data).2.2.inode).file_length = _
    rw [w2, w5]
  have h0 : (Reset (Write fs f n data).2.2).curr_poss = 0 := rfl
  obtain ⟨r1, r2, r3⟩ := Read_spec (Write fs f n data).2.1 (Reset (Write fs f n data).2.2) n buf
    (by rw [h0]; exact Nat.zero_le _)
  rw [hL, h0] at r1 r2 r3
  have hm : min (n - 0) (max (fs.inodes f.inode).file_length n - 0) = n := by omega
  rw [hm] at r1 r2 r3
  refine ⟨r1, ?_, ?_⟩
  · intro x hx
    rw [r3 x, if_pos hx, Nat.zero_add]
    show (Write fs f n data).2.2.block_cache x = data x
    rw [w4 x, if_pos ⟨Nat.zero_le _, by omega⟩, Nat.sub_zero]
  · rw [r2]
    unfold EoF
    simp only
    show ((if 0 + n = (((Write fs f n data).2.1).inodes (Write fs f n data).2.2.inode).file_length
        then true else false) = true ↔ _)
    rw [w2, w5]
    by_cases hl : (fs.inodes f.inode).file_length ≤ n
    · have e : 0 + n = max (fs.inodes f.inode).file_length n := by omega
      simp only [e, if_true, hl]
    · have e : ¬ (0 + n = max (fs.inodes f.inode).file_length n) := by omega
      simp only [e, if_false, hl, Bool.false_eq_true]

/-- On the file 8 just created in the inode of a deleted file of five bytes
(`CreateFile` does not reset `file_length`), `Write(3, "hel"); Reset();
Read(3, buf)` returns 3 and `EoF()` is false afterwards. -/
theorem round_trip_reused :
    construct 4 reused8 (fun _ => 0) 8 = some opened ∧
    (reused8.inodes opened.inode).file_length = 5 ∧
    (Read (Write reused8 opened 3 hello).2.1 (Reset (Write reused8 opened 3 hello).2.2) 3
      (fun _ => 0)).1 = 3 ∧
    EoF (Write reused8 opened 3 hello).2.1
      (Read (Write reused8 opened 3 hello).2.1 (Reset (Write reused8 opened 3 hello).2.2) 3
        (fun _ => 0)).2.2 = false :=
  ⟨rfl, by decide,
    (round_trip_spec reused8 opened 3 hello (fun _ => 0) rfl (by decide)).1,
    Bool.eq_false_iff.mpr (fun e =>
      absurd ((round_trip_spec reused8 opened 3 hello (fun _ => 0) rfl (by decide)).2.2.mp e)
        (by decide))⟩

/-- C36: for a file whose inode has `file_length` 0 and whose cursor is 0,
every `n ≤ 512` and every data buffer, the sequence `Write(n, data); Reset();
Read(n, buf)` makes `Read` return `n` with `buf[0 .. n) = data[0 .. n)`, and
`EoF()` is true afterwards. -/
theorem Write_Reset_Read (fs : FileSystem) (f : File) (n : Nat) (data buf : Nat → Nat)
    (hL : (fs.inodes f.inode).file_length = 0) (hc : f.curr_poss = 0) (hn : n ≤ 512) :
    (Read (Write fs f n data).2.1 (Reset (Write fs f n data).2.2) n buf).1 = n ∧
    (∀ x, x < n →
      (Read (Write fs f n data).2.1 (Reset (Write fs f n data).2.2) n buf).2.1 x = data x) ∧
    EoF (Write fs f n data).2.1
      (Read (Write fs f n data).2.1 (Reset (Write fs f n data).2.2) n buf).2.2 = true :=
  ⟨(round_trip_spec fs f n data buf hc hn).1,
    (round_trip_spec fs f n data buf hc hn).2.1,
    (round_trip_spec fs f n data buf hc hn).2.2.mpr (by rw [hL]; exact Nat.zero_le n)⟩

/-- Witness of C36, the instance of the specification: the file 7 just
created on a fresh file system and opened has `file_length` 0 and the cursor
at 0; `Write(5, "hello"); Reset(); Read(5, buf)` returns 5, yields `hello`
and ends at the end of the file. -/
theorem Write_Reset_Read_witness :
    construct 4 fresh7 (fun _ => 0) 7 = some opened ∧
    (fresh7.inodes opened.inode).file_length = 0 ∧
    opened.curr_poss = 0 ∧ 5 ≤ 512 ∧
    (Read (Write fresh7 opened 5 hello).2.1 (Reset (Write fresh7 opened 5 hello).2.2) 5
      (fun _ => 0)).1 = 5 ∧
    (∀ x, x < 5 →
      (Read (Write fresh7 opened 5 hello).2.1 (Reset (Write fresh7 opened 5 hello).2.2) 5
        (fun _ => 0)).2.1 x = hello x) ∧
    EoF (Write fresh7 opened 5 hello).2.1
      (Read (Write fresh7 opened 5 hello).2.1 (Reset (Write fresh7 opened 5 hello).2.2) 5
        (fun _ => 0)).2.2 = true :=
  ⟨rfl, by decide, rfl, by decide,
    Write_Reset_Read fresh7 opened 5 hello (fun _ => 0) (by decide) rfl (by decide)⟩

end File

end Mp7

namespace Mp2

namespace ContFramePool

/-- The process pool right after construction on `pastMem`. -/
theorem past_pool :
    (construct pastMem 1024 7168 512).1.base_frame_no = 1024 ∧
    (construct pastMem 1024 7168 512).1.nframes = 7168 ∧
    (construct pastMem 1024 7168 512).1.nFreeFrames = 7168 ∧
    (∀ g, 1024 ≤ g → g < 8192 →
      get_state (construct pastMem 1024 7168 512).1 (construct pastMem 1024 7168 512).2 g
        = some FrameState.Free) ∧
    get_state (construct pastMem 1024 7168 512).1 (construct pastMem 1024 7168 512).2 8192
      = some FrameState.Used ∧
    get_state (construct pastMem 1024 7168 512).1 (construct pastMem 1024 7168 512).2 8193
      = some FrameState.Free := by
  obtain ⟨c1, c2, c3, c4, c5⟩ := construct_below pastMem 1024 7168 512 (by decide) (by decide)
    (by decide)
  have cb : (construct pastMem 1024 7168 512).1.bitmap = 2097152 := by
    rw [construct_bitmap]; decide
  refine ⟨c1, c2, c3, c4, ?_, ?_⟩
  · rw [c5 8192 (by decide), get_state_eq, cb]; decide
  · rw [c5 8193 (by decide), get_state_eq, cb]; decide

/-- C37 at the failing input: on the process pool over frames 1024..8191,
constructed on `pastMem` (info region in frame 512, the cell right after the
pool's cells reading Used), `get_frames(7167)` and `get_frames(1)` leave
`free_frames()` at 0, the second call returns the last frame 8191, and
`release_frames(8191)` leaves `free_frames()` at 2 instead of 1: the sweep
frees and counts the cell of frame 8192, past the end of the pool. -/
theorem release_last_frame_overcounts :
    release_last_frame pastMem = (0, 8191, some [2]) := by
  obtain ⟨c1, c2, c3, c4, c5, c6⟩ := past_pool
  unfold release_last_frame
  simp only
  generalize construct pastMem 1024 7168 512 = K at *
  obtain ⟨kp, km⟩ := K
  simp only at c1 c2 c3 c4 c5 c6 ⊢
  have hwf : kp.base_frame_no + kp.nframes < WORD := by rw [c1, c2]; decide
  -- first allocation: frames 1024..8190
  obtain ⟨a1, a2, a3⟩ := get_frames_at kp km 7167 1024 (by decide) hwf
    (by rw [c3]; decide) (by rw [c3]; decide)
    ⟨by rw [c1], by rw [c1, c2]; decide, fun j hj => c4 _ (by omega) (by omega)⟩
    (by intro t h1 h2; rw [c1] at h1; omega)
  obtain ⟨s1, s2, s3⟩ := a3 kp rfl
  rw [c3] at a2
  have a2b : (get_frames kp km 7167).2.1 = { kp with nFreeFrames := 1 } := a2
  generalize get_frames kp km 7167 = A at *
  obtain ⟨ar, ap, am⟩ := A
  simp only at a1 a2b s1 s2 s3 ⊢
  subst a1 a2b
  have hqa : ∀ (x : Memory) (g : Nat),
      get_state { kp with nFreeFrames := 1 } x g = get_state kp x g :=
    fun x g => get_state_bitmap kp { kp with nFreeFrames := 1 } rfl x g
  -- second allocation: frame 8191
  obtain ⟨b1, b2, b3⟩ := get_frames_at { kp with nFreeFrames := 1 } am 1 8191
    (by decide) hwf (by show 1 ≤ 1; decide) (by show 1 < WORD; decide)
    ⟨by show kp.base_frame_no ≤ 8191; omega,
     by show 8191 + 1 ≤ kp.base_frame_no + kp.nframes; omega,
     fun j hj => by
       have hj0 : j = 0 := by omega
       subst hj0
       rw [hqa, s3 (8191 + 0) (by omega)]
       exact c4 _ (by omega) (by omega)⟩
    (by
      intro t h1 h2 hrun
      have h1b : 1024 ≤ t := by
        have : kp.base_frame_no ≤ t := h1
        omega
      have hf := hrun 0 (by omega)
      rw [Nat.add_zero, hqa] at hf
      by_cases ht : t = 1024
      · subst ht
        rw [s1] at hf
        exact absurd hf (by simp)
      · rw [s2 t (by omega) (by omega)] at hf
        exact absurd hf (by simp))
  obtain ⟨u1, u2, u3⟩ := b3 kp rfl
  have b2b : (get_frames { kp with nFreeFrames := 1 } am 1).2.1
      = { kp with nFreeFrames := 0 } := b2
  generalize get_frames { kp with nFreeFrames := 1 } am 1 = B at *
  obtain ⟨br, bp, bm⟩ := B
  simp only at b1 b2b u1 u2 u3 ⊢
  subst b1 b2b
  have hq : ∀ (x : Memory) (g : Nat),
      get_state { kp with nFreeFrames := 0 } x g = get_state kp x g :=
    fun x g => get_state_bitmap kp { kp with nFreeFrames := 0 } rfl x g
  have hown : owns { kp with nFreeFrames := 0 } 8191 = true := by
    rw [owns_iff, limit_eq { kp with nFreeFrames := 0 } hwf]
    show kp.base_frame_no ≤ 8191 ∧ 8191 < kp.base_frame_no + kp.nframes
    rw [c1, c2]
    decide
  obtain ⟨mem2, hr, _⟩ := release_in_run { kp with nFreeFrames := 0 }
    bm 8191 1 (by decide) (by show 0 + 1 + 1 < WORD; decide) (by rw [hq]; exact u1)
    (by
      intro g h1 h2
      have hg : g = 8192 := by omega
      subst hg
      rw [hq, u3 8192 (by omega), s3 8192 (by omega)]
      exact c5)
    (by
      left
      rw [hq, u3 8193 (by omega), s3 8193 (by omega)]
      exact c6)
  rw [release_frames_single, if_pos hown, hr]
  rfl

/-- C38 at the failing inputs, on any memory.  With info frame 0 the
constructor of the pool over frames 512..1023 leaves `free_frames()` at 512
and the first frame of the pool Free, where one info frame is needed and the
claim has 511 and HoS.  With the info frame 20 above the pool over frames
8..15 it leaves `free_frames()` at 7, where the claim has 8. -/
theorem constructor_accounting (mem : Memory) :
    (needed_info_frames 512 = 1 ∧
      free_frames (construct mem 512 512 0).1 = 512 ∧
      get_state (construct mem 512 512 0).1 (construct mem 512 512 0).2 512
        = some FrameState.Free) ∧
    (needed_info_frames 8 = 1 ∧
      free_frames (construct mem 8 8 20).1 = 7) := by
  obtain ⟨_, _, c3, c4, _⟩ := construct_below mem 512 512 0 (by decide) (by decide)
    (by decide)
  refine ⟨⟨by decide, c3, c4 512 (by decide) (by decide)⟩, by decide, ?_⟩
  rfl

end ContFramePool

end Mp2

namespace Mp4

namespace VMPool

set_option maxRecDepth 100000

/-- C39 at the failing input: `allocate(4096)` returns `0x40002000`, the
region with base page 2, and the page is mapped to frame 1026 by the entry at
`PTE_address(0x40002000)`; the page at `0x02000000` is mapped to frame 1027.
`release(0x40002000)` moves the region to the free table and leaves the entry
of its page present.  The entry that `free_page` examines and clears is the
one at `PTE_address(4096 * 0x40002000 mod 2^32) = PTE_address(0x02000000)`,
and the frame released is 1027, that of the other page. -/
theorem release_unmaps_other_page :
    releaseMapped.1 = 0x40002000 ∧
    releaseMapped.2.2.1.free_array 1 = { base_page := 2, lenght := 4096 } ∧
    releaseMapped.2.1.mem (PageTable.PTE_address 0x40002000) = 0x402003 ∧
    releaseMapped.2.1.mem (PageTable.PTE_address 0x02000000) = 0x403003 ∧
    releaseMapped.2.1.process_mem_pool.2 = [] ∧
    releaseMapped.2.2.2.mem (PageTable.PTE_address 0x40002000) = 0x402003 ∧
    PageTable.PTE_address ((4096 * 0x40002000) % WORD) = PageTable.PTE_address 0x02000000 ∧
    PageTable.PTE_address 0x02000000 ≠ PageTable.PTE_address 0x40002000 ∧
    releaseMapped.2.2.2.mem (PageTable.PTE_address 0x02000000) = 0x403002 ∧
    releaseMapped.2.2.2.process_mem_pool.2 = [1027] := by
  decide

end VMPool

end Mp4

namespace Mp6

namespace Scheduler

open Thread

/-- C40 at the failing input, in mp5 and in mp6 alike: from the empty
scheduler, `add(1)`, `add(2)` and `terminate(2)` leave thread 1 alone in the
ready queue with `tail` still pointing to the removed thread 2, not to the
last thread reachable from `head`.  `resume(3)` then appends thread 3 behind
thread 2: the queue from `head` is still thread 1 alone, the next `yield`
dispatches thread 1 and empties the queue, and the `yield` after it finds
`head` null.  Thread 3 is never dispatched. -/
theorem terminate_leaves_stale_tail :
    (∃ s1 s2 s3 s4 s5,
      Mp5.Scheduler.add (Mp5.Scheduler.construct (fun _ => none)) 1 = Outcome.ok s1 ∧
      Mp5.Scheduler.add s1 2 = Outcome.ok s2 ∧
      Mp5.Scheduler.terminate 8 s2 2 = Outcome.ok s3 ∧
      (s3.head = some 1 ∧ s3.tail = some 2 ∧ Chain s3.next [1] s3.head) ∧
      Mp5.Scheduler.resume s3 3 = Outcome.ok s4 ∧
      (s4.tail = some 3 ∧ Chain s4.next [1] s4.head) ∧
      Mp5.Scheduler.yield s4 = Outcome.ok s5 ∧
      (s5.dispatched = [1] ∧ s5.head = none) ∧
      Mp5.Scheduler.yield s5 = Outcome.fault) ∧
    (∃ s1 s2 s3 s4 s5,
      add (construct (fun _ => none)) 1 0 = Outcome.ok s1 ∧
      add s1 2 0 = Outcome.ok s2 ∧
      terminate 8 s2 2 = Outcome.ok s3 ∧
      (s3.head = some 1 ∧ s3.tail = some 2 ∧ Chain s3.next [1] s3.head) ∧
      resume s3 3 0 = Outcome.ok s4 ∧
      (s4.tail = some 3 ∧ Chain s4.next [1] s4.head) ∧
      yield s4 = Outcome.ok s5 ∧
      (s5.dispatched = [1] ∧ s5.head = none) ∧
      yield s5 = Outcome.fault) :=
  ⟨⟨_, _, _, _, _, rfl, rfl, rfl, by decide, rfl, by decide, rfl, by decide, rfl⟩,
    ⟨_, _, _, _, _, rfl, rfl, rfl, by decide, rfl, by decide, rfl, by decide, rfl⟩⟩

end Scheduler

end Mp6
